import Mathlib

/-!
Glyph-atlas text engine (`src/txt/text_engine.cpp`).

A shallow embedding of `txt::text_engine`: the atlas packer (`resize_atlas`,
`insert_atlas`, `create_batch`, `reload`), the per-typeface batch (`push`) and the
frame operations (`begin`, `text`, `calc_size`, `end`).

Modelling conventions.

* Strings are lists of code points (the UTF-8 decoder is an external utility);
  the newline is code point 10.
* `float` is binary32 (`f32`): a finite value is held as a whole number of units of
  `2^-149`, sums and differences are rounded to nearest with ties to even, and results
  beyond the largest finite value become infinities.  The sign of a zero is not kept.
  Integer arithmetic before a conversion to `float` (the shifts of the advances) is exact.
* `std::size_t` quantities are `Nat`; the signed 32-bit cursor is an `Int`.  Signed
  cursor arithmetic and the casts between `std::size_t` and `std::int32_t` are exact
  over the integers (all sizes are taken to stay below `2^31`); the conversion of the
  signed cursor to `std::size_t` in the atlas writes is taken modulo `2^64`.
* `std::sqrt`, `std::log2`, `std::ceil`, `std::pow` on `double` are modelled by their
  exact mathematical values on the integers they are applied to.
* A typeface pointer used as a map key is modelled by the `id` field of the typeface.
-/

namespace txt

/-! ## Binary32 arithmetic -/

/-- Least `k` in `start .. start + fuel` with `p k`, else `start + fuel`. -/
def search_up (p : Nat → Bool) : Nat → Nat → Nat
  | 0, start => start
  | fuel + 1, start => if p start then start else search_up p fuel (start + 1)

/-- A binary32 value: a finite value given as a whole number of units of `2^-149` (every
finite binary32 number is such a multiple), an infinity with its sign, or a NaN. -/
inductive f32 where
  | finite (units : Int)
  | inf (negative : Bool)
  | nan
deriving DecidableEq, Repr

/-- Number of units of `2^-149` in `1.0`. -/
def f32.unit : Nat := 2 ^ 149

/-- Number of binary digits of `a` (capped at 278, beyond the binary32 range). -/
def bit_length (a : Nat) : Nat := search_up (fun k => decide (a < 2 ^ k)) 278 0

/-- Rounding of an exact value of `n` units to binary32: 24 significant bits, to nearest
with ties to even; magnitudes that round to `2^128` or more become infinite. -/
def f32.round (n : Int) : f32 :=
  let a := n.natAbs
  let shift := bit_length a - 24
  let q := a / 2 ^ shift
  let r := a % 2 ^ shift
  let qr :=
    if 2 * r < 2 ^ shift then q
    else if 2 ^ shift < 2 * r then q + 1
    else if q % 2 = 0 then q else q + 1
  let m := qr * 2 ^ shift
  if 2 ^ 24 ≤ m / 2 ^ 253 then f32.inf (decide (n < 0))
  else f32.finite (if n < 0 then -(m : Int) else (m : Int))

/-- The value `z` itself, as a number of units (a binary32 number when `z` is
representable, for instance when `|z| ≤ 2^24`). -/
def f32.exact (z : Int) : f32 := f32.finite (z * (f32.unit : Int))

/-- Conversion of an integer to `float`, as in `float(n)`. -/
def f32.of_int (z : Int) : f32 := f32.round (z * (f32.unit : Int))

/-- Unary minus. -/
def f32.neg : f32 → f32
  | f32.finite a => f32.finite (-a)
  | f32.inf s => f32.inf (!s)
  | f32.nan => f32.nan

/-- Binary32 addition. -/
def f32.add : f32 → f32 → f32
  | f32.finite a, f32.finite b => f32.round (a + b)
  | f32.finite _, f32.inf s => f32.inf s
  | f32.inf s, f32.finite _ => f32.inf s
  | f32.inf s, f32.inf t => if s = t then f32.inf s else f32.nan
  | _, _ => f32.nan

/-- Binary32 subtraction. -/
def f32.sub (a b : f32) : f32 := f32.add a (f32.neg b)

/-- The comparison `a > b` (false when either side is a NaN). -/
def f32.gt : f32 → f32 → Bool
  | f32.finite a, f32.finite b => decide (b < a)
  | f32.finite _, f32.inf s => s
  | f32.inf s, f32.finite _ => !s
  | f32.inf s, f32.inf t => !s && t
  | _, _ => false

/-- Integers of magnitude at most `2^24`: all of them are binary32 numbers. -/
def f32.small (z : Int) : Prop := -(2 ^ 24) ≤ z ∧ z ≤ 2 ^ 24

instance (z : Int) : Decidable (f32.small z) := by
  unfold f32.small
  infer_instance

/-! ## Data model -/

/-- Pair of integers: the packing cursor (`glm::ivec2`) and the integer-valued entries of
the code-to-UV map, which become `float` where `push` reads them. -/
structure vec2 where
  x : Int
  y : Int
deriving DecidableEq, Repr

/-- Two component `float` vector (`glm::vec2`). -/
structure fvec2 where
  x : f32
  y : f32
deriving DecidableEq, Repr

/-- Three component `float` vector (`glm::vec3`). -/
structure vec3 where
  x : f32
  y : f32
  z : f32
deriving DecidableEq, Repr

/-- Four component `float` vector (`glm::vec4`), only ever copied by the engine. -/
structure vec4 where
  x : f32
  y : f32
  z : f32
  w : f32
deriving DecidableEq, Repr

/-- Image with a pixel accessor; `data x y` is the pixel in column `x`, row `y`. -/
structure image where
  width : Nat
  height : Nat
  channels : Nat
  data : Nat → Nat → Nat

/-- Modelled from the spec: `make_image_u8(nullptr, w, h, c)` of the image module, which is
not part of the source file; the spec calls its result a fresh zeroed image. -/
def make_image_u8 (w h c : Nat) : image :=
  { width := w, height := h, channels := c, data := fun _ _ => 0 }

/-- Pixel read `bm->pixel(x, y)`. -/
def image.pixel (im : image) (x y : Nat) : Nat := im.data x y

/-- Modelled from the spec: `image::set(x, y, pixel)` of the image module (direct pixel
mutation).  A write outside the image has no defined result in the program; here it leaves
the image as it is. -/
def image.set (im : image) (x y p : Nat) : image :=
  if x < im.width ∧ y < im.height then
    { im with data := fun a b => if a = x ∧ b = y then p else im.data a b }
  else im

/-- Render mode of a typeface. -/
inductive text_render_mode where
  | raster
  | normal
  | subpixel
deriving DecidableEq, Repr

/-- Glyph as handed back by the typeface: bitmap and metrics (advances in 1/64 pixel). -/
structure glyph where
  codepoint : Nat
  bitmap : image
  bearing_left : Int
  bearing_top : Int
  advance_x : Int
  advance_y : Int

/-- Typeface: `glyphs` lists the entries of `glyphs()` in iteration order (code point and
glyph); `id` stands for the identity of the typeface object. -/
structure typeface where
  id : Nat
  glyphs : List (Nat × glyph)
  glyph_size : Nat
  channels : Nat
  size : Nat
  mode : text_render_mode

/-- Modelled from the spec: `typeface::query(code)`, the glyph lookup by code point of the
external typeface; a code point that was never rasterised has no glyph. -/
def typeface.query (tf : typeface) (code : Nat) : Option glyph :=
  (tf.glyphs.find? (fun p => p.1 == code)).map (fun p => p.2)

/-- Instance record (the `gpu` struct). -/
structure gpu where
  color : vec4
  size : fvec2
  uv_offset : fvec2
  position : vec3
deriving DecidableEq, Repr

/-- Per-typeface batch (GPU handles left out: they are never read back). -/
structure batch where
  size : Nat
  atlas : Option image
  uv : vec2
  code_uvs : Nat → Option vec2
  cache : List gpu
  count : Nat

/-- Value-initialised batch, as inserted by `m_batches.insert({tf, {}})`. -/
def batch.empty : batch :=
  { size := 0, atlas := none, uv := ⟨0, 0⟩, code_uvs := fun _ => none, cache := [], count := 0 }

/-- `std::map::insert_or_assign` on the code-to-UV map. -/
def insert_or_assign (m : Nat → Option vec2) (code : Nat) (v : vec2) : Nat → Option vec2 :=
  fun c => if c = code then some v else m c

/-- Text engine: the typefaces known to the font manager (all families, in iteration
order), the default typeface and the batches keyed by typeface. -/
structure text_engine where
  m_manager : List typeface
  m_typeface : typeface
  m_batches : List (typeface × batch)

/-! ## Atlas packer -/

/-- Exact value of `std::ceil(std::log2(value))` for `value ≥ 1`. -/
def ceil_log2 (value : Nat) : Nat := search_up (fun k => decide (value ≤ 2 ^ k)) value 0

/-- The lambda `round_up2` of `resize_atlas`: `pow(2, ceil(log2(value)))`; at `0` the
logarithm is `-inf` and the power is `0`. -/
def round_up2 (value : Nat) : Nat := if value = 0 then 0 else 2 ^ ceil_log2 value

/-- Exact value of `std::ceil(std::sqrt(n))`. -/
def ceil_sqrt (n : Nat) : Nat := search_up (fun c => decide (n ≤ c * c)) n 0

/-- The `size` computed by `resize_atlas`. -/
def atlas_size (tf : typeface) : Nat :=
  let cols := ceil_sqrt tf.glyphs.length
  let msp2 := round_up2 tf.glyph_size
  round_up2 (cols * msp2)

/-- Embedding of `text_engine::resize_atlas`. -/
def resize_atlas (tf : typeface) (b : batch) : batch :=
  let size := atlas_size tf
  match b.atlas with
  | none =>
    { b with atlas := some (make_image_u8 size size tf.channels), uv := ⟨0, (size : Int) - 1⟩ }
  | some a =>
    if a.width ≠ size then
      { b with atlas := some (make_image_u8 size size tf.channels), uv := ⟨0, (size : Int) - 1⟩ }
    else b

/-- Conversion of a signed value to `std::size_t`. -/
def usize (z : Int) : Nat := (z % 2 ^ 64).toNat

/-- The pixel writes of `insert_atlas` in program order: `(x, y, pixel)` with
`x = size_t(uv.x) + j` and `y = size_t(uv.y) - i`. -/
def atlas_writes (bm : image) (uv : vec2) : List (Nat × Nat × Nat) :=
  (List.range bm.height).flatMap fun (i : Nat) =>
    (List.range bm.width).map fun (j : Nat) =>
      (usize ((usize uv.x : Int) + (j : Int)), usize ((usize uv.y : Int) - (i : Int)),
        bm.pixel j i)

/-- Embedding of `text_engine::insert_atlas`; `none` when the batch has no atlas (null
dereference). -/
def insert_atlas (gh : glyph) (tf : typeface) (b : batch) : Option batch :=
  match b.atlas with
  | none => none
  | some atlas =>
    let atlas1 := (atlas_writes gh.bitmap b.uv).foldl (fun a w => a.set w.1 w.2.1 w.2.2) atlas
    let code_uvs := insert_or_assign b.code_uvs gh.codepoint
      ⟨b.uv.x, b.uv.y - ((gh.bitmap.height : Int) - 1)⟩
    let x := b.uv.x + (tf.glyph_size : Int)
    let uv : vec2 :=
      if x ≥ (atlas.width : Int) - (tf.glyph_size : Int) then
        ⟨0, b.uv.y - (tf.glyph_size : Int)⟩
      else ⟨x, b.uv.y⟩
    some { b with atlas := some atlas1, code_uvs := code_uvs, uv := uv }

/-- The loop `for (auto const& [code, glyph] : tf->glyphs()) insert_atlas(glyph, tf, batch)`. -/
def insert_glyphs (tf : typeface) : List (Nat × glyph) → batch → Option batch
  | [], b => some b
  | p :: rest, b => (insert_atlas p.2 tf b).bind (insert_glyphs tf rest)

/-- The batch part of `text_engine::create_batch`: set the size, resize, insert all glyphs. -/
def create_batch_on (tf : typeface) (b : batch) : Option batch :=
  insert_glyphs tf tf.glyphs (resize_atlas tf { b with size := tf.size })

/-- Lookup `m_batches.find(tf)`. -/
def text_engine.find (e : text_engine) (tf : typeface) : Option (typeface × batch) :=
  e.m_batches.find? (fun p => p.1.id == tf.id)

/-- Replace the batch stored under the key `tf`. -/
def store_batch (tf : typeface) (b : batch) : List (typeface × batch) → List (typeface × batch)
  | [] => []
  | p :: rest => if p.1.id == tf.id then (tf, b) :: rest else p :: store_batch tf b rest

/-- Embedding of `text_engine::create_batch`. -/
def text_engine.create_batch (e : text_engine) (tf : typeface) : Option text_engine :=
  match e.find tf with
  | none =>
    (create_batch_on tf batch.empty).map fun b =>
      { e with m_batches := e.m_batches ++ [(tf, b)] }
  | some p =>
    (create_batch_on tf p.2).map fun b =>
      { e with m_batches := store_batch tf b e.m_batches }

/-- The loop of `reload` over the typefaces of the font manager. -/
def reload_loop : List typeface → text_engine → Option text_engine
  | [], e => some e
  | tf :: rest, e => (e.create_batch tf).bind (reload_loop rest)

/-- Embedding of `text_engine::reload`. -/
def text_engine.reload (e : text_engine) : Option text_engine :=
  reload_loop e.m_manager e

/-! ## Batch and frame operations -/

/-- The record `character` built by `batch::push`, in binary32 arithmetic. -/
def batch.character (b : batch) (gh : glyph) (position : vec3) (color : vec4)
    (code_uv : vec2) : gpu :=
  let xpos := f32.add (f32.of_int gh.bearing_left) position.x
  let ypos := f32.neg (f32.sub
    (f32.sub (f32.of_int (gh.bitmap.height : Int)) (f32.of_int gh.bearing_top)) position.y)
  let w := f32.of_int (gh.bitmap.width : Int)
  let h := f32.of_int (gh.bitmap.height : Int)
  let u := f32.of_int code_uv.x
  let v := f32.of_int code_uv.y
  { color := color,
    size := ⟨w, h⟩,
    uv_offset := ⟨u, v⟩,
    position := ⟨xpos, f32.sub ypos (f32.of_int (b.size : Int)), position.z⟩ }

/-- Embedding of `text_engine::batch::push`; `none` when `code_uvs.at` throws. -/
def batch.push (b : batch) (gh : glyph) (position : vec3) (color : vec4) : Option batch :=
  match b.code_uvs gh.codepoint with
  | none => none
  | some code_uv =>
    let character := b.character gh position color code_uv
    if b.count < b.cache.length then
      some { b with cache := b.cache.set b.count character, count := b.count + 1 }
    else
      some { b with cache := b.cache ++ [character], count := b.count + 1 }

/-- Local state of the loop of `text`. -/
structure text_state where
  pos : vec3
  advance_y : Int
  b : batch

/-- One iteration of the loop of `text`. -/
def text_step (tf : typeface) (color : vec4) (st : text_state) (code : Nat) :
    Option text_state :=
  if code = 10 then
    some { st with pos :=
      ⟨f32.finite 0, f32.sub st.pos.y (f32.of_int (st.advance_y >>> (6 : Nat))), st.pos.z⟩ }
  else
    match tf.query code with
    | none => none
    | some gh =>
      match st.b.push gh st.pos color with
      | none => none
      | some b1 =>
        some { pos := ⟨f32.add st.pos.x (f32.of_int (gh.advance_x >>> (6 : Nat))), st.pos.y,
                 st.pos.z⟩,
               advance_y := gh.advance_y, b := b1 }

/-- The loop of `text` over the code points. -/
def text_loop (tf : typeface) (color : vec4) : List Nat → text_state → Option text_state
  | [], st => some st
  | code :: rest, st => (text_step tf color st code).bind (text_loop tf color rest)

/-- Typeface resolution shared by `text` and `calc_size`: the batch of the requested
typeface, else that of the default typeface. -/
def text_engine.resolve (e : text_engine) (tf : typeface) : Option (typeface × batch) :=
  match e.find tf with
  | some p => some p
  | none => e.find e.m_typeface

/-- Embedding of `text_engine::text`. -/
def text_engine.text (e : text_engine) (txt : List Nat) (position : vec3) (color : vec4)
    (tf : typeface) : Option text_engine :=
  match e.resolve tf with
  | none => none
  | some p =>
    (text_loop p.1 color txt { pos := position, advance_y := 0, b := p.2 }).map fun st =>
      { e with m_batches := store_batch p.1 st.b e.m_batches }

/-- Local state of the loop of `calc_size`. -/
structure size_state where
  position : fvec2
  max : fvec2
  advance_y : Int
deriving DecidableEq, Repr

/-- One iteration of the loop of `calc_size`. -/
def calc_step (tf : typeface) (st : size_state) (code : Nat) : Option size_state :=
  if code = 10 then
    some { st with position :=
      ⟨f32.finite 0, f32.add st.position.y (f32.of_int (st.advance_y >>> (6 : Nat)))⟩ }
  else
    match tf.query code with
    | none => none
    | some gh =>
      let x := f32.add st.position.x (f32.of_int (gh.advance_x >>> (6 : Nat)))
      some { position := ⟨x, st.position.y⟩,
             max := if f32.gt x st.max.x then ⟨x, st.max.y⟩ else st.max,
             advance_y := gh.advance_y }

/-- The loop of `calc_size` over the code points. -/
def calc_loop (tf : typeface) : List Nat → size_state → Option size_state
  | [], st => some st
  | code :: rest, st => (calc_step tf st code).bind (calc_loop tf rest)

/-- The statements of `calc_size` after the loop. -/
def calc_finish (st : size_state) : fvec2 :=
  let y := f32.add st.position.y (f32.of_int (st.advance_y >>> (6 : Nat)))
  if f32.gt y st.max.y then ⟨st.max.x, y⟩ else st.max

/-- The body of `calc_size` for a resolved typeface. -/
def calc_size_on (tf : typeface) (txt : List Nat) : Option fvec2 :=
  (calc_loop tf txt
    { position := ⟨f32.finite 0, f32.finite 0⟩, max := ⟨f32.finite 0, f32.finite 0⟩,
      advance_y := 0 }).map calc_finish

/-- Embedding of `text_engine::calc_size`. -/
def text_engine.calc_size (e : text_engine) (txt : List Nat) (tf : typeface) : Option fvec2 :=
  match e.resolve tf with
  | none => none
  | some p => calc_size_on p.1 txt

/-- Embedding of `text_engine::begin` (the blend state is not part of the model). -/
def text_engine.begin (e : text_engine) : text_engine :=
  { e with m_batches := e.m_batches.map fun p => (p.1, { p.2 with count := 0 }) }

/-- Commands sent to the graphics layer by `end`, tagged with the typeface id. -/
inductive gpu_cmd where
  | buffer_resize (tf : Nat) (records : Nat)
  | buffer_sub (tf : Nat) (records : List gpu)
  | draw_instanced (tf : Nat) (instances : Nat)
deriving DecidableEq, Repr

/-- What `end` does for one batch. -/
def end_batch (tf : typeface) (b : batch) : List gpu_cmd :=
  if b.count = 0 then []
  else
    [gpu_cmd.buffer_resize tf.id b.count, gpu_cmd.buffer_sub tf.id (b.cache.take b.count)] ++
      (if tf.mode = text_render_mode.subpixel then [] else [gpu_cmd.draw_instanced tf.id b.count])

/-- Embedding of `text_engine::end`: the engine afterwards and the commands issued. -/
def text_engine.end_ (e : text_engine) : text_engine × List gpu_cmd :=
  (e, e.m_batches.flatMap fun p => end_batch p.1 p.2)

/-! ## Observations on the packer -/

/-- True when a write at `(x, y)` lies inside the image. -/
def image.inside (im : image) (x y : Nat) : Bool := decide (x < im.width) && decide (y < im.height)

/-- True when every pixel write that `insert_atlas gh tf b` performs lies inside the atlas. -/
def writes_in_bounds (gh : glyph) (b : batch) : Bool :=
  match b.atlas with
  | none => false
  | some a => (atlas_writes gh.bitmap b.uv).all fun w => a.inside w.1 w.2.1

/-- True when every pixel write of the insertion loop lies inside the atlas. -/
def inserts_in_bounds (tf : typeface) : List (Nat × glyph) → batch → Bool
  | [], _ => true
  | p :: rest, b =>
    writes_in_bounds p.2 b &&
      match insert_atlas p.2 tf b with
      | none => false
      | some b1 => inserts_in_bounds tf rest b1

/-- The batch of `create_batch` just before the glyph with index `k` is inserted. -/
def packing_state (tf : typeface) (b : batch) (k : Nat) : Option batch :=
  insert_glyphs tf (tf.glyphs.take k) (resize_atlas tf { b with size := tf.size })

/-- The square of the given side anchored at the cursor `c`: columns `c.x ..` to the right,
rows `c.y ..` downwards (decreasing `y`), as the atlas writes run. -/
def in_cell (c : vec2) (side : Nat) (p q : Int) : Prop :=
  c.x ≤ p ∧ p < c.x + (side : Int) ∧ c.y - (side : Int) < q ∧ q ≤ c.y

instance (c : vec2) (side : Nat) (p q : Int) : Decidable (in_cell c side p q) := by
  unfold in_cell
  infer_instance

/-- Order of two cursors of one packing run with stride `g`: the second is further right
in the same row by at least `g`, or at least `g` further down. -/
def cursor_before (g : Nat) (c1 c2 : vec2) : Prop :=
  (c2.y = c1.y ∧ c1.x + (g : Int) ≤ c2.x) ∨ c2.y + (g : Int) ≤ c1.y

/-- The cursor lies on the grid of stride `g` whose top row is `top`. -/
def on_grid (g : Nat) (top : Int) (c : vec2) : Prop :=
  (g : Int) ∣ c.x ∧ (g : Int) ∣ (top - c.y)

/-- Code-to-UV entry of a code point in the batch of a typeface. -/
def text_engine.uv_of (e : text_engine) (tf : typeface) (code : Nat) : Option vec2 :=
  (e.find tf).bind fun p => p.2.code_uvs code

/-- Atlas width and height of the batch of a typeface. -/
def text_engine.atlas_dims (e : text_engine) (tf : typeface) : Option (Nat × Nat) :=
  ((e.find tf).bind fun p => p.2.atlas).map fun a => (a.width, a.height)

/-- Packing cursor of the batch of a typeface. -/
def text_engine.cursor_of (e : text_engine) (tf : typeface) : Option vec2 :=
  (e.find tf).map fun p => p.2.uv

/-! ## Observations on the frame operations -/

/-- True for the buffer commands of `end`: the resize and the upload of the instance buffer. -/
def gpu_cmd.is_upload : gpu_cmd → Bool
  | gpu_cmd.buffer_resize _ _ => true
  | gpu_cmd.buffer_sub _ _ => true
  | gpu_cmd.draw_instanced _ _ => false

/-- True for the instanced draw call. -/
def gpu_cmd.is_draw : gpu_cmd → Bool
  | gpu_cmd.buffer_resize _ _ => false
  | gpu_cmd.buffer_sub _ _ => false
  | gpu_cmd.draw_instanced _ _ => true

/-! ## Concrete inputs -/

/-- Bitmap of the given size with every pixel set to 255. -/
def ex_bitmap (w h : Nat) : image := { width := w, height := h, channels := 1, data := fun _ _ => 255 }

/-- Glyph with a `w × h` bitmap, bearings `(1, 9)` and advances `(8, 16)` pixels. -/
def ex_glyph (code w h : Nat) : glyph :=
  { codepoint := code, bitmap := ex_bitmap w h, bearing_left := 1, bearing_top := 9,
    advance_x := 512, advance_y := 1024 }

/-- Typeface with `n` glyphs for the code points `65, 66, ...`, each with a `w × h` bitmap. -/
def ex_typeface (n glyph_size w h : Nat) : typeface :=
  { id := 1, glyphs := (List.range n).map fun c => (65 + c, ex_glyph (65 + c) w h),
    glyph_size := glyph_size, channels := 1, size := 13, mode := text_render_mode.raster }

/-- Typeface with glyph cell 16 holding a full-height glyph for `A` (code 65) and an empty
bitmap for the no-break space (code 160). -/
def ex_typeface_space : typeface :=
  { id := 2, glyphs := [(65, ex_glyph 65 16 16), (160, ex_glyph 160 0 0)],
    glyph_size := 16, channels := 1, size := 13, mode := text_render_mode.raster }

/-- Engine before the first `reload`, with one typeface known to the font manager. -/
def ex_engine (tf : typeface) : text_engine :=
  { m_manager := [tf], m_typeface := tf, m_batches := [] }

/-- Batch with a zeroed `32 × 32` atlas and the cursor at the top left. -/
def ex_batch : batch :=
  { batch.empty with atlas := some (make_image_u8 32 32 1), uv := ⟨0, 31⟩ }

/-- Batch with a `32 × 32` atlas that holds UV entries for the code points 65 and 66. -/
def ex_text_batch : batch :=
  { size := 13, atlas := some (make_image_u8 32 32 1), uv := ⟨0, -1⟩,
    code_uvs := fun c => if c = 65 then some ⟨0, 31⟩ else if c = 66 then some ⟨0, 15⟩ else none,
    cache := [], count := 0 }

/-- Engine with one typeface (glyphs for 65 and 66) and its batch. -/
def ex_text_engine : text_engine :=
  { m_manager := [ex_typeface 2 16 1 1], m_typeface := ex_typeface 2 16 1 1,
    m_batches := [(ex_typeface 2 16 1 1, ex_text_batch)] }

/-- Batch with a zeroed `32 × 32` atlas and the cursor at `(13, 18)`. -/
def ex_batch_mid : batch :=
  { batch.empty with atlas := some (make_image_u8 32 32 1), uv := ⟨13, 18⟩ }

/-- Pen position `(5, 7, 0)`. -/
def ex_pos : vec3 := ⟨f32.exact 5, f32.exact 7, f32.exact 0⟩

/-- Opaque white. -/
def ex_color : vec4 := ⟨f32.exact 1, f32.exact 1, f32.exact 1, f32.exact 1⟩

/-- Typeface whose glyph for `A` (code 65) advances by `16777217` pixels horizontally. -/
def ex_typeface_wide : typeface :=
  { id := 3,
    glyphs := [(65, { ex_glyph 65 1 1 with advance_x := 1073741888 })],
    glyph_size := 16, channels := 1, size := 13, mode := text_render_mode.raster }

/-- Engine whose only typeface is `ex_typeface_wide`. -/
def ex_engine_wide : text_engine :=
  { m_manager := [ex_typeface_wide], m_typeface := ex_typeface_wide,
    m_batches := [(ex_typeface_wide, ex_text_batch)] }

/-- Typeface whose glyph for `A` (code 65) has the vertical advance `-16` pixels and whose
glyph for `B` (code 66) has the advances `(8, 1)` pixels. -/
def ex_typeface_rising : typeface :=
  { id := 4,
    glyphs := [(65, { ex_glyph 65 1 1 with advance_y := -1024 }),
               (66, { ex_glyph 66 1 1 with advance_y := 64 })],
    glyph_size := 16, channels := 1, size := 13, mode := text_render_mode.raster }

/-- Engine whose only typeface is `ex_typeface_rising`. -/
def ex_engine_rising : text_engine :=
  { m_manager := [ex_typeface_rising], m_typeface := ex_typeface_rising,
    m_batches := [(ex_typeface_rising, ex_text_batch)] }

/-- Batch of an earlier `text` call: one valid record and a second, stale one. -/
def ex_used_batch : batch :=
  { ex_text_batch with
    cache := [ex_text_batch.character (ex_glyph 65 1 1) ex_pos ex_color ⟨0, 31⟩,
              ex_text_batch.character (ex_glyph 66 1 1) ex_pos ex_color ⟨0, 15⟩],
    count := 1 }

/-- Batch of `ex_typeface_space` with UV entries for the code points 65 and 160. -/
def ex_space_batch : batch :=
  { size := 13, atlas := some (make_image_u8 32 32 1), uv := ⟨0, 15⟩,
    code_uvs := fun c => if c = 65 then some ⟨0, 31⟩ else if c = 160 then some ⟨16, 31⟩ else none,
    cache := [], count := 0 }

/-- Engine with two typefaces and their batches; the default typeface has one record in
its batch. -/
def ex_engine_two : text_engine :=
  { m_manager := [ex_typeface 2 16 1 1, ex_typeface_space],
    m_typeface := ex_typeface 2 16 1 1,
    m_batches := [(ex_typeface 2 16 1 1, ex_used_batch), (ex_typeface_space, ex_space_batch)] }

/-! ## Definitions that follow the wording of the specification -/

/-- The instance record of a glyph drawn with the pen at `pen`, every step in binary32:
position `(float(bearing_left) + pen.x, -(float(height) - float(bearing_top) - pen.y) -
float(size), pen.z)`, size `(float(width), float(height))`, the UV entry of the glyph as
floats and the colour. -/
def float_record (size : Nat) (gh : glyph) (pen : vec3) (color : vec4) (uv : vec2) : gpu :=
  { color := color,
    size := ⟨f32.of_int (gh.bitmap.width : Int), f32.of_int (gh.bitmap.height : Int)⟩,
    uv_offset := ⟨f32.of_int uv.x, f32.of_int uv.y⟩,
    position := ⟨f32.add (f32.of_int gh.bearing_left) pen.x,
      f32.sub (f32.neg (f32.sub
        (f32.sub (f32.of_int (gh.bitmap.height : Int)) (f32.of_int gh.bearing_top)) pen.y))
        (f32.of_int (size : Int)), pen.z⟩ }

/-- The instances of a string in order: none for a newline, which moves the pen to `x = 0`
and down by the vertical advance of the previous glyph; one for every other code point,
which then moves the pen right by the horizontal advance of its glyph.  The pen moves are
binary32 operations. -/
def float_instances (tf : typeface) (size : Nat) (code_uvs : Nat → Option vec2) (color : vec4) :
    List Nat → vec3 → Int → List gpu
  | [], _, _ => []
  | c :: cs, pen, adv =>
    if c = 10 then
      float_instances tf size code_uvs color cs
        ⟨f32.finite 0, f32.sub pen.y (f32.of_int (adv >>> (6 : Nat))), pen.z⟩ adv
    else
      match tf.query c with
      | none => []
      | some g =>
        match code_uvs g.codepoint with
        | none => []
        | some uv =>
          float_record size g pen color uv ::
            float_instances tf size code_uvs color cs
              ⟨f32.add pen.x (f32.of_int (g.advance_x >>> (6 : Nat))), pen.y, pen.z⟩ g.advance_y

/-- The instance record of a glyph drawn with the pen at the integer point `(px, py)` and
depth `z`, in exact arithmetic: position
`(px + bearing_left, py + bearing_top - bitmap_height - size, z)`, size
`(bitmap width, bitmap height)`, the UV entry of the glyph and the colour. -/
def spec_record (size : Nat) (gh : glyph) (px py : Int) (z : f32) (color : vec4) (uv : vec2) :
    gpu :=
  { color := color,
    size := ⟨f32.exact (gh.bitmap.width : Int), f32.exact (gh.bitmap.height : Int)⟩,
    uv_offset := ⟨f32.exact uv.x, f32.exact uv.y⟩,
    position := ⟨f32.exact (px + gh.bearing_left),
      f32.exact (py + gh.bearing_top - (gh.bitmap.height : Int) - (size : Int)), z⟩ }

/-- The operands and every intermediate value of the record of a glyph at the integer pen
`(px, py)` have magnitude at most `2^24`. -/
def record_in_range (size : Nat) (gh : glyph) (px py : Int) (uv : vec2) : Prop :=
  f32.small px ∧ f32.small py ∧ f32.small gh.bearing_left ∧ f32.small gh.bearing_top ∧
  f32.small (gh.bitmap.width : Int) ∧ f32.small (gh.bitmap.height : Int) ∧
  f32.small (size : Int) ∧ f32.small uv.x ∧ f32.small uv.y ∧
  f32.small (gh.bearing_left + px) ∧
  f32.small ((gh.bitmap.height : Int) - gh.bearing_top) ∧
  f32.small ((gh.bitmap.height : Int) - gh.bearing_top - py) ∧
  f32.small (py + gh.bearing_top - (gh.bitmap.height : Int) - (size : Int))

instance (size : Nat) (gh : glyph) (px py : Int) (uv : vec2) :
    Decidable (record_in_range size gh px py uv) := by
  unfold record_in_range
  infer_instance

/-- State of the loop of `calc_size` with every `float` replaced by an exact integer. -/
structure exact_size_state where
  position : vec2
  max : vec2
  advance_y : Int
deriving DecidableEq, Repr

/-- One iteration of the loop of `calc_size` in exact integer arithmetic. -/
def exact_calc_step (tf : typeface) (st : exact_size_state) (code : Nat) : Option exact_size_state :=
  if code = 10 then
    some { st with position := ⟨0, st.position.y + (st.advance_y >>> (6 : Nat))⟩ }
  else
    match tf.query code with
    | none => none
    | some gh =>
      let x := st.position.x + (gh.advance_x >>> (6 : Nat))
      some { position := ⟨x, st.position.y⟩,
             max := if x > st.max.x then ⟨x, st.max.y⟩ else st.max,
             advance_y := gh.advance_y }

/-- The loop of `calc_size` in exact integer arithmetic. -/
def exact_calc_loop (tf : typeface) : List Nat → exact_size_state → Option exact_size_state
  | [], st => some st
  | code :: rest, st => (exact_calc_step tf st code).bind (exact_calc_loop tf rest)

/-- The statements of `calc_size` after the loop, in exact integer arithmetic. -/
def exact_calc_finish (st : exact_size_state) : vec2 :=
  let y := st.position.y + (st.advance_y >>> (6 : Nat))
  if y > st.max.y then ⟨st.max.x, y⟩ else st.max

/-- The body of `calc_size` in exact integer arithmetic. -/
def exact_calc_size_on (tf : typeface) (txt : List Nat) : Option vec2 :=
  (exact_calc_loop tf txt { position := ⟨0, 0⟩, max := ⟨0, 0⟩, advance_y := 0 }).map exact_calc_finish

/-- The exact state read as a `float` state. -/
def exact_size_state.to_float (st : exact_size_state) : size_state :=
  { position := ⟨f32.exact st.position.x, f32.exact st.position.y⟩,
    max := ⟨f32.exact st.max.x, f32.exact st.max.y⟩,
    advance_y := st.advance_y }

/-- An integer pair read as a `float` vector. -/
def vec2.to_float (v : vec2) : fvec2 := ⟨f32.exact v.x, f32.exact v.y⟩

/-- Every advance converted to `float` and every sum formed by the loop of `calc_size` on
the string, starting from the exact state `st`, has magnitude at most `2^24`. -/
def exact_calc_ok (tf : typeface) : List Nat → exact_size_state → Prop
  | [], _ => True
  | code :: rest, st =>
    if code = 10 then
      f32.small (st.advance_y >>> (6 : Nat)) ∧
        f32.small (st.position.y + (st.advance_y >>> (6 : Nat))) ∧
        exact_calc_ok tf rest
          { st with position := ⟨0, st.position.y + (st.advance_y >>> (6 : Nat))⟩ }
    else
      match tf.query code with
      | none => True
      | some gh =>
        f32.small (gh.advance_x >>> (6 : Nat)) ∧
          f32.small (st.position.x + (gh.advance_x >>> (6 : Nat))) ∧
          exact_calc_ok tf rest
            { position := ⟨st.position.x + (gh.advance_x >>> (6 : Nat)), st.position.y⟩,
              max := if st.position.x + (gh.advance_x >>> (6 : Nat)) > st.max.x
                then ⟨st.position.x + (gh.advance_x >>> (6 : Nat)), st.max.y⟩ else st.max,
              advance_y := gh.advance_y }

/-- The spec's cursor advance of `insert_atlas`: one cell of `cell` pixels along the row,
wrapping to the next row when the advanced `x` would exceed `atlas_width - cell`. -/
def spec_advance (cell atlas_width : Nat) (uv : vec2) : vec2 :=
  let x := uv.x + (cell : Int)
  if x > (atlas_width : Int) - (cell : Int) then ⟨0, uv.y - (cell : Int)⟩ else ⟨x, uv.y⟩


/-- Number of glyphs that a row of the packing receives:
`max(1, ceil((atlas_width - glyph_size) / glyph_size))`. -/
def spec_row_capacity (atlas_width glyph_size : Nat) : Nat :=
  max 1 ((atlas_width - glyph_size + (glyph_size - 1)) / glyph_size)

/-- Raw vertical advance in force after a string: the `advance_y` of the most recent glyph
anywhere in the string, `carry` when the string holds no glyph. -/
def recent_advance (tf : typeface) (carry : Int) (txt : List Nat) : Int :=
  match (txt.filter fun c => c ≠ 10).getLast? with
  | none => carry
  | some c =>
    match tf.query c with
    | some g => g.advance_y
    | none => 0

/-- The spec's `next_power_of_two`: the least power of two that is at least `v`. -/
def spec_next_power_of_two (v : Nat) : Nat := 2 ^ Nat.clog 2 v

/-- The spec's `ceil(sqrt(n))`, from the integer square root. -/
def spec_ceil_sqrt (n : Nat) : Nat :=
  if Nat.sqrt n * Nat.sqrt n = n then Nat.sqrt n else Nat.sqrt n + 1

/-- The spec's required atlas side: `next_power_of_two(cols * cell)`. -/
def spec_atlas_size (glyph_count glyph_size : Nat) : Nat :=
  let cols := spec_ceil_sqrt glyph_count
  let cell := spec_next_power_of_two glyph_size
  spec_next_power_of_two (cols * cell)

/-- Lines of a string: the maximal newline-free runs in order.  A string with `k` newlines
has `k + 1` lines, the last one being the trailing line. -/
def spec_lines : List Nat → List (List Nat)
  | [] => [[]]
  | c :: cs =>
    if c = 10 then [] :: spec_lines cs
    else
      match spec_lines cs with
      | [] => [[c]]
      | l :: ls => (c :: l) :: ls

/-- Horizontal advance of a character in pixels (`advance_x >> 6`). -/
def spec_advance_x (tf : typeface) (c : Nat) : Int :=
  match tf.query c with
  | some g => g.advance_x >>> (6 : Nat)
  | none => 0

/-- Vertical advance of a character in pixels (`advance_y >> 6`). -/
def spec_advance_y (tf : typeface) (c : Nat) : Int :=
  match tf.query c with
  | some g => g.advance_y >>> (6 : Nat)
  | none => 0

/-- The pen `x` after a newline-free string: the `float` advances of its characters added
to the start `x` one by one, in order. -/
def float_pen_x (tf : typeface) (x : f32) (s : List Nat) : f32 :=
  s.foldl (fun acc c => f32.add acc (f32.of_int (spec_advance_x tf c))) x

/-- Sum of the horizontal advances of the characters of a line. -/
def spec_line_width (tf : typeface) (line : List Nat) : Int :=
  (line.map (spec_advance_x tf)).sum

/-- Maximum over the lines of a string of the line widths. -/
def spec_width (tf : typeface) (txt : List Nat) : Int :=
  ((spec_lines txt).map (spec_line_width tf)).foldr max 0

/-- Vertical advance of line `k`: the vertical advance of the last character at or before
the end of that line, where `carry` is the raw advance in force before the first character. -/
def line_height_from (tf : typeface) (carry : Int) (lines : List (List Nat)) (k : Nat) : Int :=
  match ((lines.take (k + 1)).flatten).getLast? with
  | none => carry >>> (6 : Nat)
  | some c => spec_advance_y tf c

/-- Sum of the vertical advances of all lines, starting with the raw advance `carry`. -/
def height_from (tf : typeface) (carry : Int) (txt : List Nat) : Int :=
  ((List.range (spec_lines txt).length).map (line_height_from tf carry (spec_lines txt))).sum

/-- Sum of the line vertical advances across all lines of a string, the trailing line
included (no advance is in force before the first character). -/
def spec_height (tf : typeface) (txt : List Nat) : Int := height_from tf 0 txt

/-- Largest line width when the first line starts at pen position `x`. -/
def lines_width_from (tf : typeface) (x : Int) : List (List Nat) → Int
  | [] => x
  | l :: ls => max (x + spec_line_width tf l) ((ls.map (spec_line_width tf)).foldr max 0)

/-! ## Auxiliary lemmas -/

theorem search_up_least (p : Nat → Bool) :
    ∀ fuel start, (∃ k, start ≤ k ∧ k ≤ start + fuel ∧ p k = true) →
      p (search_up p fuel start) = true ∧
        ∀ j, start ≤ j → j < search_up p fuel start → p j = false := by
  intro fuel
  induction fuel with
  | zero =>
    intro start h
    obtain ⟨k, h1, h2, h3⟩ := h
    have hk : k = start := by omega
    subst hk
    refine ⟨by simpa [search_up] using h3, ?_⟩
    intro j hj hlt
    simp [search_up] at hlt
    omega
  | succ n ih =>
    intro start h
    obtain ⟨k, h1, h2, h3⟩ := h
    by_cases hp : p start = true
    · refine ⟨by simp [search_up, hp], ?_⟩
      intro j hj hlt
      simp [search_up, hp] at hlt
      omega
    · have hne : k ≠ start := by
        intro hks
        rw [hks] at h3
        exact hp h3
      have hrec := ih (start + 1) ⟨k, by omega, by omega, h3⟩
      have hs : search_up p (n + 1) start = search_up p n (start + 1) := by
        simp [search_up, hp]
      rw [hs]
      refine ⟨hrec.1, ?_⟩
      intro j hj hlt
      by_cases hjs : j = start
      · subst hjs
        simpa using hp
      · exact hrec.2 j (by omega) hlt

/-! ### Exact cases of the binary32 operations -/

theorem round_of_dvd (n : Int) (h1 : 2 ^ (bit_length n.natAbs - 24) ∣ n.natAbs)
    (h2 : n.natAbs < 2 ^ 24 * 2 ^ 253) : f32.round n = f32.finite n := by
  unfold f32.round
  simp only
  have hpos : 0 < 2 ^ (bit_length n.natAbs - 24) := Nat.two_pow_pos _
  rw [Nat.mod_eq_zero_of_dvd h1]
  simp only [Nat.mul_zero, hpos, if_true]
  rw [Nat.div_mul_cancel h1]
  have h3 : ¬ 2 ^ 24 ≤ n.natAbs / 2 ^ 253 := by
    rw [not_le, Nat.div_lt_iff_lt_mul (Nat.two_pow_pos _)]
    exact h2
  rw [if_neg h3]
  congr 1
  split <;> omega

theorem bit_length_le (a k : Nat) (hk : k ≤ 278) (h : a < 2 ^ k) : bit_length a ≤ k := by
  have hex : ∃ j, 0 ≤ j ∧ j ≤ 0 + 278 ∧ (fun j => decide (a < 2 ^ j)) j = true :=
    ⟨k, Nat.zero_le _, by omega, by simpa using h⟩
  obtain ⟨-, h2⟩ := search_up_least (fun j => decide (a < 2 ^ j)) 278 0 hex
  by_contra hc
  have := h2 k (Nat.zero_le _) (by unfold bit_length at hc; omega)
  simp at this
  omega

theorem round_exact (k : Int) (hk : f32.small k) :
    f32.round (k * (f32.unit : Int)) = f32.exact k := by
  unfold f32.exact
  unfold f32.small at hk
  have habs : (k * (f32.unit : Int)).natAbs = k.natAbs * 2 ^ 149 := by
    rw [Int.natAbs_mul]
    rfl
  have hk2 : k.natAbs ≤ 2 ^ 24 := by omega
  apply round_of_dvd
  · rw [habs]
    rcases Nat.lt_or_eq_of_le hk2 with hlt | heq
    · have hb : bit_length (k.natAbs * 2 ^ 149) ≤ 173 := by
        apply bit_length_le _ _ (by decide)
        calc k.natAbs * 2 ^ 149 < 2 ^ 24 * 2 ^ 149 :=
              Nat.mul_lt_mul_of_pos_right hlt (Nat.two_pow_pos _)
          _ = 2 ^ 173 := by rw [← Nat.pow_add]
      exact Dvd.dvd.mul_left (Nat.pow_dvd_pow 2 (by omega)) _
    · have ha : k.natAbs * 2 ^ 149 = 2 ^ 173 := by rw [heq, ← Nat.pow_add]
      rw [ha]
      have hb : bit_length (2 ^ 173) ≤ 174 :=
        bit_length_le _ _ (by decide) (Nat.pow_lt_pow_right (by decide) (by decide))
      exact Nat.pow_dvd_pow 2 (by omega)
  · rw [habs]
    calc k.natAbs * 2 ^ 149 ≤ 2 ^ 24 * 2 ^ 149 := Nat.mul_le_mul_right _ hk2
      _ < 2 ^ 24 * 2 ^ 253 :=
        Nat.mul_lt_mul_of_pos_left (Nat.pow_lt_pow_right (by decide) (by decide))
          (Nat.two_pow_pos _)

theorem of_int_exact (k : Int) (hk : f32.small k) : f32.of_int k = f32.exact k :=
  round_exact k hk

theorem add_exact (a b : Int) (h : f32.small (a + b)) :
    f32.add (f32.exact a) (f32.exact b) = f32.exact (a + b) := by
  unfold f32.exact f32.add
  simp only
  rw [← add_mul]
  exact round_exact _ h

theorem neg_exact (a : Int) : f32.neg (f32.exact a) = f32.exact (-a) := by
  unfold f32.exact f32.neg
  simp only [neg_mul]

theorem sub_exact (a b : Int) (h : f32.small (a - b)) :
    f32.sub (f32.exact a) (f32.exact b) = f32.exact (a - b) := by
  unfold f32.sub
  rw [neg_exact, add_exact a (-b) (by simpa [sub_eq_add_neg] using h), sub_eq_add_neg]

theorem gt_exact (a b : Int) : f32.gt (f32.exact a) (f32.exact b) = decide (b < a) := by
  unfold f32.exact f32.gt
  simp only
  have hu : (0 : Int) < (f32.unit : Int) := by decide
  congr 1
  exact propext (mul_lt_mul_right hu)

theorem exact_zero : f32.exact 0 = f32.finite 0 := rfl

theorem add_of_int_exact (a b : Int) (hb : f32.small b) (h : f32.small (a + b)) :
    f32.add (f32.exact a) (f32.of_int b) = f32.exact (a + b) := by
  rw [of_int_exact b hb, add_exact a b h]

theorem sub_of_int_exact (a b : Int) (hb : f32.small b) (h : f32.small (a - b)) :
    f32.sub (f32.exact a) (f32.of_int b) = f32.exact (a - b) := by
  rw [of_int_exact b hb, sub_exact a b h]

/-! ### Search lemmas of the packer -/

theorem ceil_log2_eq_clog (v : Nat) : ceil_log2 v = Nat.clog 2 v := by
  have hex : ∃ k, 0 ≤ k ∧ k ≤ 0 + v ∧ (fun k => decide (v ≤ 2 ^ k)) k = true :=
    ⟨v, Nat.zero_le _, by omega, by simpa using (Nat.lt_two_pow v).le⟩
  obtain ⟨h1, h2⟩ := search_up_least (fun k => decide (v ≤ 2 ^ k)) v 0 hex
  have h1a : v ≤ 2 ^ ceil_log2 v := by simpa [ceil_log2] using h1
  have hle : Nat.clog 2 v ≤ ceil_log2 v := (Nat.le_pow_iff_clog_le (by decide)).1 h1a
  by_contra hne
  have hlt : Nat.clog 2 v < ceil_log2 v := lt_of_le_of_ne hle (Ne.symm hne)
  have h3 := h2 (Nat.clog 2 v) (Nat.zero_le _) (by simpa [ceil_log2] using hlt)
  have h4 : v ≤ 2 ^ Nat.clog 2 v := Nat.le_pow_clog (by decide) v
  simp at h3
  omega

theorem round_up2_of_pos {v : Nat} (hv : 0 < v) : round_up2 v = spec_next_power_of_two v := by
  have hne : v ≠ 0 := by omega
  simp [round_up2, spec_next_power_of_two, hne, ceil_log2_eq_clog]

theorem round_up2_zero : round_up2 0 = 0 := by simp [round_up2]

theorem ceil_sqrt_eq_spec (n : Nat) : ceil_sqrt n = spec_ceil_sqrt n := by
  have hex : ∃ k, 0 ≤ k ∧ k ≤ 0 + n ∧ (fun c => decide (n ≤ c * c)) k = true :=
    ⟨n, Nat.zero_le _, by omega, by simpa using Nat.le_mul_self n⟩
  obtain ⟨h1, h2⟩ := search_up_least (fun c => decide (n ≤ c * c)) n 0 hex
  have h1a : n ≤ ceil_sqrt n * ceil_sqrt n := by simpa [ceil_sqrt] using h1
  have h2a : ∀ j, j < ceil_sqrt n → j * j < n := by
    intro j hj
    have := h2 j (Nat.zero_le _) (by simpa [ceil_sqrt] using hj)
    simpa using this
  have hs1 : Nat.sqrt n * Nat.sqrt n ≤ n := Nat.sqrt_le n
  have hs2 : n < (Nat.sqrt n + 1) * (Nat.sqrt n + 1) := Nat.lt_succ_sqrt n
  unfold spec_ceil_sqrt
  split
  · next heq =>
    apply le_antisymm
    · by_contra hc
      have := h2a (Nat.sqrt n) (by omega)
      omega
    · by_contra hc
      have hlt : ceil_sqrt n + 1 ≤ Nat.sqrt n := by omega
      have := Nat.mul_le_mul hlt hlt
      nlinarith
  · next hne =>
    apply le_antisymm
    · by_contra hc
      have := h2a (Nat.sqrt n + 1) (by omega)
      omega
    · by_contra hc
      have hle : ceil_sqrt n ≤ Nat.sqrt n := by omega
      have := Nat.mul_le_mul hle hle
      omega

/-! ## Packer lemmas -/

theorem set_dims (a : image) (x y p : Nat) :
    (a.set x y p).width = a.width ∧ (a.set x y p).height = a.height ∧
      (a.set x y p).channels = a.channels := by
  unfold image.set
  split <;> simp

theorem foldl_set_dims (ws : List (Nat × Nat × Nat)) :
    ∀ a : image,
      (ws.foldl (fun a w => a.set w.1 w.2.1 w.2.2) a).width = a.width ∧
      (ws.foldl (fun a w => a.set w.1 w.2.1 w.2.2) a).height = a.height ∧
      (ws.foldl (fun a w => a.set w.1 w.2.1 w.2.2) a).channels = a.channels := by
  induction ws with
  | nil => intro a; simp
  | cons w rest ih =>
    intro a
    have h1 := ih (a.set w.1 w.2.1 w.2.2)
    have h2 := set_dims a w.1 w.2.1 w.2.2
    simp only [List.foldl_cons]
    refine ⟨by rw [h1.1, h2.1], by rw [h1.2.1, h2.2.1], by rw [h1.2.2, h2.2.2]⟩

/-- The cursor written by `insert_atlas`. -/
theorem insert_atlas_some (gh : glyph) (tf : typeface) (b : batch) (a : image)
    (ha : b.atlas = some a) :
    ∃ b1 a1, insert_atlas gh tf b = some b1 ∧ b1.atlas = some a1 ∧ a1.width = a.width ∧
      a1.height = a.height ∧
      b1.code_uvs = insert_or_assign b.code_uvs gh.codepoint
        ⟨b.uv.x, b.uv.y - ((gh.bitmap.height : Int) - 1)⟩ ∧
      b1.uv = (if b.uv.x + (tf.glyph_size : Int) ≥ (a.width : Int) - (tf.glyph_size : Int)
        then ⟨0, b.uv.y - (tf.glyph_size : Int)⟩
        else ⟨b.uv.x + (tf.glyph_size : Int), b.uv.y⟩) ∧
      b1.cache = b.cache ∧ b1.count = b.count ∧ b1.size = b.size := by
  have hd := foldl_set_dims (atlas_writes gh.bitmap b.uv) a
  simp only [insert_atlas, ha]
  exact ⟨_, _, rfl, rfl, hd.1, hd.2.1, rfl, rfl, rfl, rfl, rfl⟩

theorem resize_atlas_some (tf : typeface) (b : batch) :
    ∃ a, (resize_atlas tf b).atlas = some a ∧ a.width = atlas_size tf := by
  unfold resize_atlas
  cases hb : b.atlas with
  | none => exact ⟨_, rfl, rfl⟩
  | some a =>
    by_cases hw : a.width = atlas_size tf
    · exact ⟨a, by simp [hw, hb], hw⟩
    · exact ⟨make_image_u8 (atlas_size tf) (atlas_size tf) tf.channels, by simp [hw], rfl⟩

theorem cursor_before_trans (g : Nat) (a b c : vec2) (h1 : cursor_before g a b)
    (h2 : cursor_before g b c) : cursor_before g a c := by
  unfold cursor_before at *
  omega

theorem cursor_before_disjoint (g : Nat) (a b : vec2) (h : cursor_before g a b) (p q : Int) :
    ¬ (in_cell a g p q ∧ in_cell b g p q) := by
  unfold cursor_before at h
  unfold in_cell
  omega

theorem insert_atlas_cursor (gh : glyph) (tf : typeface) (b b1 : batch)
    (h : insert_atlas gh tf b = some b1) : cursor_before tf.glyph_size b.uv b1.uv := by
  cases ha : b.atlas with
  | none => simp [insert_atlas, ha] at h
  | some a =>
    obtain ⟨b2, a1, h1, -, -, -, -, huv, -⟩ := insert_atlas_some gh tf b a ha
    rw [h] at h1
    cases h1
    rw [huv]
    unfold cursor_before
    split <;> simp

theorem insert_glyphs_append (tf : typeface) (l1 l2 : List (Nat × glyph)) :
    ∀ b, insert_glyphs tf (l1 ++ l2) b = (insert_glyphs tf l1 b).bind (insert_glyphs tf l2) := by
  induction l1 with
  | nil => intro b; simp [insert_glyphs]
  | cons p rest ih =>
    intro b
    simp only [List.cons_append, insert_glyphs]
    cases insert_atlas p.2 tf b with
    | none => simp
    | some b1 => simpa using ih b1

theorem insert_glyphs_total (tf : typeface) (l : List (Nat × glyph)) :
    ∀ (b : batch) (a : image), b.atlas = some a →
      ∃ b1 a1, insert_glyphs tf l b = some b1 ∧ b1.atlas = some a1 ∧ a1.width = a.width ∧
        a1.height = a.height ∧ b1.cache = b.cache ∧ b1.count = b.count ∧ b1.size = b.size := by
  induction l with
  | nil => intro b a ha; exact ⟨b, a, rfl, ha, rfl, rfl, rfl, rfl, rfl⟩
  | cons p rest ih =>
    intro b a ha
    obtain ⟨b1, a1, h1, ha1, hw, hh, -, -, hc, hn, hs⟩ := insert_atlas_some p.2 tf b a ha
    obtain ⟨b2, a2, h2, ha2, hw2, hh2, hc2, hn2, hs2⟩ := ih b1 a1 ha1
    refine ⟨b2, a2, by simp [insert_glyphs, h1, h2], ha2, by rw [hw2, hw], by rw [hh2, hh],
      by rw [hc2, hc], by rw [hn2, hn], by rw [hs2, hs]⟩

theorem insert_glyphs_cursor (tf : typeface) (l : List (Nat × glyph)) :
    ∀ (b b1 : batch), l ≠ [] → insert_glyphs tf l b = some b1 →
      cursor_before tf.glyph_size b.uv b1.uv := by
  induction l with
  | nil => intro b b1 hne; exact absurd rfl hne
  | cons p rest ih =>
    intro b b1 _ h
    simp only [insert_glyphs] at h
    cases h1 : insert_atlas p.2 tf b with
    | none => simp [h1] at h
    | some b2 =>
      rw [h1] at h
      have hc := insert_atlas_cursor p.2 tf b b2 h1
      cases rest with
      | nil =>
        simp [insert_glyphs] at h
        rw [← h]
        exact hc
      | cons q rest2 =>
        exact cursor_before_trans _ _ _ _ hc (ih b2 b1 (by simp) (by simpa using h))

theorem insert_glyphs_frame (tf : typeface) (c : Nat) (l : List (Nat × glyph)) :
    ∀ (b b1 : batch), insert_glyphs tf l b = some b1 → (∀ p ∈ l, p.2.codepoint ≠ c) →
      b1.code_uvs c = b.code_uvs c := by
  induction l with
  | nil =>
    intro b b1 h _
    simp [insert_glyphs] at h
    rw [h]
  | cons p rest ih =>
    intro b b1 h hc
    simp only [insert_glyphs] at h
    cases ha : b.atlas with
    | none => simp [insert_atlas, ha] at h
    | some a =>
      obtain ⟨b2, a1, h1, -, -, -, hm, -⟩ := insert_atlas_some p.2 tf b a ha
      rw [h1] at h
      have h3 := ih b2 b1 (by simpa using h) (fun q hq => hc q (List.mem_cons_of_mem _ hq))
      rw [h3, hm]
      have hne : c ≠ p.2.codepoint := fun e => hc p (List.mem_cons_self _ _) e.symm
      simp [insert_or_assign, hne]

theorem insert_glyphs_grid (tf : typeface) (top : Int) (l : List (Nat × glyph)) :
    ∀ (b b1 : batch), insert_glyphs tf l b = some b1 → on_grid tf.glyph_size top b.uv →
      on_grid tf.glyph_size top b1.uv := by
  induction l with
  | nil =>
    intro b b1 h hg
    simp [insert_glyphs] at h
    rw [← h]
    exact hg
  | cons p rest ih =>
    intro b b1 h hg
    simp only [insert_glyphs] at h
    cases ha : b.atlas with
    | none => simp [insert_atlas, ha] at h
    | some a =>
      obtain ⟨b2, a1, h1, -, -, -, -, huv, -⟩ := insert_atlas_some p.2 tf b a ha
      rw [h1] at h
      apply ih b2 b1 (by simpa using h)
      rw [huv]
      unfold on_grid at *
      obtain ⟨hx, hy⟩ := hg
      split
      · refine ⟨dvd_zero _, ?_⟩
        have : top - (b.uv.y - (tf.glyph_size : Int)) = (top - b.uv.y) + (tf.glyph_size : Int) := by
          ring
        simp only [this]
        exact dvd_add hy (dvd_refl _)
      · exact ⟨dvd_add hx (dvd_refl _), hy⟩

theorem packing_state_some (tf : typeface) (b : batch) (k : Nat) :
    ∃ bk a, packing_state tf b k = some bk ∧ bk.atlas = some a ∧ a.width = atlas_size tf := by
  obtain ⟨a, ha, hw⟩ := resize_atlas_some tf { b with size := tf.size }
  obtain ⟨b1, a1, h1, ha1, hw1, -⟩ := insert_glyphs_total tf (tf.glyphs.take k) _ a ha
  exact ⟨b1, a1, h1, ha1, by rw [hw1, hw]⟩

theorem packing_state_cursor (tf : typeface) (b : batch) (i j : Nat) (hij : i < j)
    (hj : j ≤ tf.glyphs.length) (bi bj : batch) (hi : packing_state tf b i = some bi)
    (hbj : packing_state tf b j = some bj) : cursor_before tf.glyph_size bi.uv bj.uv := by
  unfold packing_state at hi hbj
  have hsplit : tf.glyphs.take j = tf.glyphs.take i ++ (tf.glyphs.take j).drop i := by
    have := (List.take_append_drop i (tf.glyphs.take j)).symm
    rwa [List.take_take, Nat.min_eq_left (le_of_lt hij)] at this
  rw [hsplit, insert_glyphs_append, hi] at hbj
  simp only [Option.some_bind] at hbj
  refine insert_glyphs_cursor tf _ bi bj ?_ hbj
  intro hnil
  have hlen := congrArg List.length hnil
  simp at hlen
  omega

theorem resize_atlas_fresh (tf : typeface) (b : batch) (hb : b.atlas = none) :
    resize_atlas tf b =
      { b with atlas := some (make_image_u8 (atlas_size tf) (atlas_size tf) tf.channels),
               uv := ⟨0, (atlas_size tf : Int) - 1⟩ } := by
  simp [resize_atlas, hb]

theorem packing_state_grid (tf : typeface) (b : batch) (hb : b.atlas = none) (k : Nat)
    (bk : batch) (hk : packing_state tf b k = some bk) :
    on_grid tf.glyph_size ((atlas_size tf : Int) - 1) bk.uv := by
  unfold packing_state at hk
  refine insert_glyphs_grid tf _ _ _ bk hk ?_
  rw [resize_atlas_fresh tf _ (by simpa using hb)]
  simp [on_grid]

theorem packing_state_full (tf : typeface) (b : batch) :
    packing_state tf b tf.glyphs.length = create_batch_on tf b := by
  simp [packing_state, create_batch_on]

theorem insert_glyphs_entry (tf : typeface) (l1 l2 : List (Nat × glyph)) (p : Nat × glyph)
    (b bk b1 : batch) (hk : insert_glyphs tf l1 b = some bk)
    (h : insert_glyphs tf (l1 ++ p :: l2) b = some b1)
    (hfresh : ∀ q ∈ l2, q.2.codepoint ≠ p.2.codepoint) :
    b1.code_uvs p.2.codepoint =
      some ⟨bk.uv.x, bk.uv.y - ((p.2.bitmap.height : Int) - 1)⟩ := by
  rw [insert_glyphs_append, hk] at h
  simp only [Option.some_bind, insert_glyphs] at h
  cases ha : bk.atlas with
  | none => simp [insert_atlas, ha] at h
  | some a =>
    obtain ⟨b2, a1, h1, -, -, -, hm, -⟩ := insert_atlas_some p.2 tf bk a ha
    rw [h1] at h
    rw [insert_glyphs_frame tf _ l2 b2 b1 (by simpa using h) hfresh, hm]
    simp [insert_or_assign]

theorem insert_glyphs_distinct (tf : typeface) (l1 l2 l3 : List (Nat × glyph))
    (p q : Nat × glyph) (b b1 : batch)
    (h : insert_glyphs tf (l1 ++ p :: (l2 ++ q :: l3)) b = some b1)
    (hnd : ((l1 ++ p :: (l2 ++ q :: l3)).map fun r => r.2.codepoint).Nodup)
    (hp : p.2.bitmap.height ≤ tf.glyph_size) (hq : 1 ≤ q.2.bitmap.height) :
    b1.code_uvs p.2.codepoint ≠ b1.code_uvs q.2.codepoint := by
  cases hbp : insert_glyphs tf l1 b with
  | none => rw [insert_glyphs_append, hbp] at h; simp at h
  | some bp =>
    have h2 : insert_glyphs tf ((l1 ++ p :: l2) ++ q :: l3) b = some b1 := by
      simpa using h
    cases hbq : insert_glyphs tf (l1 ++ p :: l2) b with
    | none => rw [insert_glyphs_append, hbq] at h2; simp at h2
    | some bq =>
      have hcur : cursor_before tf.glyph_size bp.uv bq.uv := by
        rw [insert_glyphs_append, hbp] at hbq
        exact insert_glyphs_cursor tf (p :: l2) bp bq (by simp) (by simpa using hbq)
      simp only [List.map_append, List.map_cons] at hnd
      have hnd1 := (List.nodup_append.1 hnd).2.1
      have hpn := (List.nodup_cons.1 hnd1).1
      have hnd2 := (List.nodup_append.1 (List.nodup_cons.1 hnd1).2).2.1
      have hqn := (List.nodup_cons.1 hnd2).1
      have e1 := insert_glyphs_entry tf l1 (l2 ++ q :: l3) p b bp b1 hbp h (by
        intro r hr heq
        apply hpn
        rw [← List.map_cons (fun r => r.2.codepoint) q l3, ← List.map_append]
        exact List.mem_map.2 ⟨r, hr, heq⟩)
      have e2 := insert_glyphs_entry tf (l1 ++ p :: l2) l3 q b bq b1 hbq h2 (by
        intro r hr heq
        exact hqn (List.mem_map.2 ⟨r, hr, heq⟩))
      rw [e1, e2]
      intro heq
      injection heq with heq
      injection heq with hx hy
      unfold cursor_before at hcur
      omega

theorem create_batch_on_some (tf : typeface) (b : batch) :
    ∃ b1 a, create_batch_on tf b = some b1 ∧ b1.atlas = some a ∧ a.width = atlas_size tf := by
  rw [← packing_state_full]
  exact packing_state_some tf b _

theorem find_store_batch (tf : typeface) (b : batch) (l : List (typeface × batch))
    (p : typeface × batch) (h : l.find? (fun r => r.1.id == tf.id) = some p) :
    (store_batch tf b l).find? (fun r => r.1.id == tf.id) = some (tf, b) := by
  induction l with
  | nil => simp at h
  | cons r rest ih =>
    unfold store_batch
    by_cases hr : (r.1.id == tf.id) = true
    · simp [hr]
    · have hr2 : (r.1.id == tf.id) = false := by simpa using hr
      rw [List.find?_cons, hr2] at h
      simp only [hr2, Bool.false_eq_true, if_false]
      rw [List.find?_cons, hr2]
      exact ih h

/-- The batch that `create_batch` leaves under the key of the typeface. -/
theorem create_batch_find (e : text_engine) (tf : typeface) :
    ∃ e1 b1, e.create_batch tf = some e1 ∧ e1.find tf = some (tf, b1) ∧
      create_batch_on tf (match e.find tf with | none => batch.empty | some p => p.2) =
        some b1 := by
  unfold text_engine.create_batch
  cases hf : e.find tf with
  | none =>
    obtain ⟨b1, -, h1, -⟩ := create_batch_on_some tf batch.empty
    refine ⟨_, b1, by simp [h1]; rfl, ?_, by simpa using h1⟩
    unfold text_engine.find at hf ⊢
    simp [hf]
  | some p =>
    obtain ⟨b1, -, h1, -⟩ := create_batch_on_some tf p.2
    refine ⟨_, b1, by simp [h1]; rfl, ?_, by simpa using h1⟩
    unfold text_engine.find at hf ⊢
    exact find_store_batch tf b1 _ p hf

/-! ## C1: atlas writes of `create_batch` -/

/-- C1 (failing input): the typeface with four glyphs, `glyph_size = 16` and `1 × 1` bitmaps
meets the hypotheses of the claim and gets a `32 × 32` atlas, yet `create_batch` on a fresh
batch does not keep its writes inside the atlas: the third glyph is inserted at the cursor
`(0, -1)` and its pixel is written to row `2^64 - 1`. -/
theorem C1_create_batch_writes_outside_atlas :
    0 < (ex_typeface 4 16 1 1).glyphs.length ∧
    (∀ p ∈ (ex_typeface 4 16 1 1).glyphs,
      p.2.bitmap.width ≤ (ex_typeface 4 16 1 1).glyph_size ∧
      p.2.bitmap.height ≤ (ex_typeface 4 16 1 1).glyph_size) ∧
    atlas_size (ex_typeface 4 16 1 1) = 32 ∧
    inserts_in_bounds (ex_typeface 4 16 1 1) (ex_typeface 4 16 1 1).glyphs
      (resize_atlas (ex_typeface 4 16 1 1)
        { batch.empty with size := (ex_typeface 4 16 1 1).size }) = false ∧
    (packing_state (ex_typeface 4 16 1 1) batch.empty 2).map (fun b => b.uv) = some ⟨0, -1⟩ ∧
    (0, 2 ^ 64 - 1, 255) ∈ atlas_writes (ex_bitmap 1 1) ⟨0, -1⟩ := by
  refine ⟨by decide, by decide, by decide, by decide, by decide, by decide⟩

/-! ## C2: cells of the packing cursor -/

/-- C2 (counterexample): with two glyphs and `glyph_size = 13` the cell is
`next_power_of_two(13) = 16`, the two packing cursors are `(0, 31)` and `(13, 31)`, and the
`16 × 16` squares anchored there share the pixel `(13, 31)`; the second cursor is not on
the grid of stride 16. -/
theorem C2_power_of_two_cells_overlap :
    spec_next_power_of_two (ex_typeface 2 13 1 1).glyph_size = 16 ∧
    (packing_state (ex_typeface 2 13 1 1) batch.empty 0).map (fun b => b.uv) = some ⟨0, 31⟩ ∧
    (packing_state (ex_typeface 2 13 1 1) batch.empty 1).map (fun b => b.uv) = some ⟨13, 31⟩ ∧
    in_cell ⟨0, 31⟩ 16 13 31 ∧ in_cell ⟨13, 31⟩ 16 13 31 ∧
    ¬ on_grid 16 31 ⟨13, 31⟩ := by
  refine ⟨?_, by decide, by decide, by decide, by decide, ?_⟩
  · rw [← round_up2_of_pos (by decide)]
    decide
  · unfold on_grid
    intro h
    have h1 : ((16 : Nat) : Int) ∣ (13 : Int) := h.1
    omega

/-- C2 (amended): in `create_batch` on a fresh batch the squares of side `glyph_size`
anchored at the packing cursors of two different glyphs are disjoint, the cursors differ
when `glyph_size > 0`, and both cursors lie on the grid of stride `glyph_size` that starts
at the reset cursor `(0, size - 1)`. -/
theorem C2_glyph_size_cells_disjoint (tf : typeface) (b : batch) (i j : Nat)
    (hb : b.atlas = none) (hij : i < j) (hj : j < tf.glyphs.length) :
    ∃ bi bj, packing_state tf b i = some bi ∧ packing_state tf b j = some bj ∧
      (∀ p q : Int, ¬ (in_cell bi.uv tf.glyph_size p q ∧ in_cell bj.uv tf.glyph_size p q)) ∧
      (0 < tf.glyph_size → bi.uv ≠ bj.uv) ∧
      on_grid tf.glyph_size ((atlas_size tf : Int) - 1) bi.uv ∧
      on_grid tf.glyph_size ((atlas_size tf : Int) - 1) bj.uv := by
  obtain ⟨bi, -, hi, -⟩ := packing_state_some tf b i
  obtain ⟨bj, -, hbj, -⟩ := packing_state_some tf b j
  have hc := packing_state_cursor tf b i j hij (le_of_lt hj) bi bj hi hbj
  refine ⟨bi, bj, hi, hbj, cursor_before_disjoint _ _ _ hc, ?_,
    packing_state_grid tf b hb i bi hi, packing_state_grid tf b hb j bj hbj⟩
  intro hg heq
  unfold cursor_before at hc
  rw [heq] at hc
  omega

theorem C2_glyph_size_cells_disjoint_witness :
    ∃ bi bj, packing_state (ex_typeface 4 13 1 1) batch.empty 0 = some bi ∧
      packing_state (ex_typeface 4 13 1 1) batch.empty 1 = some bj ∧
      (∀ p q : Int, ¬ (in_cell bi.uv (ex_typeface 4 13 1 1).glyph_size p q ∧
        in_cell bj.uv (ex_typeface 4 13 1 1).glyph_size p q)) ∧
      (0 < (ex_typeface 4 13 1 1).glyph_size → bi.uv ≠ bj.uv) ∧
      on_grid (ex_typeface 4 13 1 1).glyph_size
        ((atlas_size (ex_typeface 4 13 1 1) : Int) - 1) bi.uv ∧
      on_grid (ex_typeface 4 13 1 1).glyph_size
        ((atlas_size (ex_typeface 4 13 1 1) : Int) - 1) bj.uv :=
  C2_glyph_size_cells_disjoint (ex_typeface 4 13 1 1) batch.empty 0 1 rfl (by decide)
    (by decide)

/-! ## C3: entries of the code-to-UV map -/

/-- C3 (counterexample): the typeface with a full-height glyph for code 65 and an empty
bitmap for code 160 (cell 16, atlas 32) gets the same UV coordinate `(0, 16)` for both
code points. -/
theorem C3_two_codes_share_uv :
    ((ex_engine ex_typeface_space).create_batch ex_typeface_space).bind
        (fun e => e.uv_of ex_typeface_space 65) = some ⟨0, 16⟩ ∧
    ((ex_engine ex_typeface_space).create_batch ex_typeface_space).bind
        (fun e => e.uv_of ex_typeface_space 160) = some ⟨0, 16⟩ := by
  refine ⟨by decide, by decide⟩

/-- C3 (amended): for a typeface whose map keys are the code points of its glyphs,
`create_batch` succeeds and leaves an entry in the code-to-UV map for every code point of
`glyphs()`; two distinct code points whose bitmap heights lie between 1 and `glyph_size`
get different UV coordinates. -/
theorem C3_code_uvs_entries (e : text_engine) (tf : typeface)
    (hkey : ∀ p ∈ tf.glyphs, p.2.codepoint = p.1)
    (hnd : (tf.glyphs.map fun p => p.1).Nodup) :
    ∃ e1, e.create_batch tf = some e1 ∧
      (∀ p ∈ tf.glyphs, ∃ uv, e1.uv_of tf p.1 = some uv) ∧
      (∀ p ∈ tf.glyphs, ∀ q ∈ tf.glyphs, p.1 ≠ q.1 →
        1 ≤ p.2.bitmap.height → p.2.bitmap.height ≤ tf.glyph_size →
        1 ≤ q.2.bitmap.height → q.2.bitmap.height ≤ tf.glyph_size →
        e1.uv_of tf p.1 ≠ e1.uv_of tf q.1) := by
  obtain ⟨e1, b1, h1, hf, hb⟩ := create_batch_find e tf
  have huv : ∀ c, e1.uv_of tf c = b1.code_uvs c := by
    intro c
    simp [text_engine.uv_of, hf]
  have hnd2 : (tf.glyphs.map fun r => r.2.codepoint).Nodup := by
    have hm : (tf.glyphs.map fun r => r.2.codepoint) = tf.glyphs.map fun p => p.1 :=
      List.map_congr_left hkey
    rw [hm]
    exact hnd
  unfold create_batch_on at hb
  generalize hb0 : resize_atlas tf _ = b0 at hb
  generalize hl : tf.glyphs = l at hb hkey hnd2
  refine ⟨e1, h1, ?_, ?_⟩
  · intro p hp
    obtain ⟨s, t, hst⟩ := List.append_of_mem hp
    rw [hst] at hb hnd2
    cases hbk : insert_glyphs tf s b0 with
    | none => rw [insert_glyphs_append, hbk] at hb; simp at hb
    | some bk =>
      simp only [List.map_append, List.map_cons] at hnd2
      have hpn := (List.nodup_cons.1 (List.nodup_append.1 hnd2).2.1).1
      have he := insert_glyphs_entry tf s t p b0 bk b1 hbk hb (by
        intro r hr heq
        exact hpn (List.mem_map.2 ⟨r, hr, heq⟩))
      rw [hkey p hp] at he
      exact ⟨_, by rw [huv, he]⟩
  · intro p hp q hq hpq hp1 hp2 hq1 hq2
    rw [huv, huv, ← hkey p hp, ← hkey q hq]
    obtain ⟨s, t, hst⟩ := List.append_of_mem hp
    rw [hst] at hq
    rcases List.mem_append.1 hq with hqs | hqt
    · obtain ⟨s1, s2, hs⟩ := List.append_of_mem hqs
      have hl2 : l = s1 ++ q :: (s2 ++ p :: t) := by simp [hst, hs]
      rw [hl2] at hb hnd2
      exact (insert_glyphs_distinct tf s1 s2 t q p b0 b1 hb hnd2 hq2 hp1).symm
    · rcases List.mem_cons.1 hqt with hqp | hqt2
      · exact absurd (by rw [hqp]) hpq
      · obtain ⟨t1, t2, ht⟩ := List.append_of_mem hqt2
        have hl2 : l = s ++ p :: (t1 ++ q :: t2) := by simp [hst, ht]
        rw [hl2] at hb hnd2
        exact insert_glyphs_distinct tf s t1 t2 p q b0 b1 hb hnd2 hp2 hq1

theorem C3_code_uvs_entries_witness :
    ∃ e1, (ex_engine (ex_typeface 4 13 13 13)).create_batch (ex_typeface 4 13 13 13) = some e1 ∧
      (∀ p ∈ (ex_typeface 4 13 13 13).glyphs, ∃ uv, e1.uv_of (ex_typeface 4 13 13 13) p.1 = some uv) ∧
      (∀ p ∈ (ex_typeface 4 13 13 13).glyphs, ∀ q ∈ (ex_typeface 4 13 13 13).glyphs, p.1 ≠ q.1 →
        1 ≤ p.2.bitmap.height → p.2.bitmap.height ≤ (ex_typeface 4 13 13 13).glyph_size →
        1 ≤ q.2.bitmap.height → q.2.bitmap.height ≤ (ex_typeface 4 13 13 13).glyph_size →
        e1.uv_of (ex_typeface 4 13 13 13) p.1 ≠ e1.uv_of (ex_typeface 4 13 13 13) q.1) :=
  C3_code_uvs_entries (ex_engine (ex_typeface 4 13 13 13)) (ex_typeface 4 13 13 13)
    (by decide) (by decide)

/-! ## C4: `reload` twice -/

/-- C4 (failing input): an engine whose font manager knows one typeface with a single
glyph (code 65, `glyph_size = 16`).  The first `reload` builds a `16 × 16` atlas and maps
code 65 to `(0, 15)`, leaving the cursor at `(0, -1)`.  The second `reload` keeps the atlas
dimensions but does not reset the cursor: code 65 is now mapped to `(0, -1)`, so the
code-to-UV map is not the one after the first call. -/
theorem C4_second_reload_moves_uv :
    (ex_engine (ex_typeface 1 16 1 1)).reload.bind
        (fun e => e.atlas_dims (ex_typeface 1 16 1 1)) = some (16, 16) ∧
    (ex_engine (ex_typeface 1 16 1 1)).reload.bind
        (fun e => e.uv_of (ex_typeface 1 16 1 1) 65) = some ⟨0, 15⟩ ∧
    (ex_engine (ex_typeface 1 16 1 1)).reload.bind
        (fun e => e.cursor_of (ex_typeface 1 16 1 1)) = some ⟨0, -1⟩ ∧
    ((ex_engine (ex_typeface 1 16 1 1)).reload.bind fun e => e.reload).bind
        (fun e => e.atlas_dims (ex_typeface 1 16 1 1)) = some (16, 16) ∧
    ((ex_engine (ex_typeface 1 16 1 1)).reload.bind fun e => e.reload).bind
        (fun e => e.uv_of (ex_typeface 1 16 1 1) 65) = some ⟨0, -1⟩ := by
  refine ⟨by decide, by decide, by decide, by decide, by decide⟩

/-! ## C5: the atlas side computed by `resize_atlas` -/

/-- C5 (counterexample): for a typeface without glyphs (`glyph_size = 16`) the computed
side is `0`, while `next_power_of_two(cols * cell) = next_power_of_two(0) = 1`. -/
theorem C5_empty_typeface_size_zero :
    atlas_size (ex_typeface 0 16 1 1) = 0 ∧
    spec_atlas_size (ex_typeface 0 16 1 1).glyphs.length (ex_typeface 0 16 1 1).glyph_size = 1 := by
  refine ⟨by decide, ?_⟩
  have h0 : (ex_typeface 0 16 1 1).glyphs.length = 0 := by decide
  rw [h0]
  simp [spec_atlas_size, spec_ceil_sqrt, spec_next_power_of_two]

/-- C5 (amended): for every typeface with at least one glyph and `glyph_size ≥ 1` the side
computed by `resize_atlas` is `next_power_of_two(cols * cell)` with
`cols = ceil(sqrt(glyph_count))` and `cell = next_power_of_two(glyph_size)`, and it is the
width of the atlas after `resize_atlas`; with 4 glyphs and `glyph_size = 16` it is 32. -/
theorem C5_atlas_size (tf : typeface) (b : batch) (hn : 0 < tf.glyphs.length)
    (hg : 0 < tf.glyph_size) :
    atlas_size tf = spec_atlas_size tf.glyphs.length tf.glyph_size ∧
    (∃ a, (resize_atlas tf b).atlas = some a ∧ a.width = atlas_size tf) ∧
    (tf.glyphs.length = 4 → tf.glyph_size = 16 → atlas_size tf = 32) := by
  refine ⟨?_, resize_atlas_some tf b, ?_⟩
  · unfold atlas_size spec_atlas_size
    simp only
    have hc : 0 < spec_ceil_sqrt tf.glyphs.length := by
      unfold spec_ceil_sqrt
      split
      · next heq =>
        rcases Nat.eq_zero_or_pos (Nat.sqrt tf.glyphs.length) with h0 | h0
        · rw [h0] at heq
          omega
        · exact h0
      · omega
    have hp : 0 < spec_next_power_of_two tf.glyph_size := by
      unfold spec_next_power_of_two
      positivity
    rw [ceil_sqrt_eq_spec, round_up2_of_pos hg, round_up2_of_pos (Nat.mul_pos hc hp)]
  · intro h4 h16
    unfold atlas_size
    rw [h4, h16]
    decide

theorem C5_atlas_size_witness :
    atlas_size (ex_typeface 4 16 1 1) =
      spec_atlas_size (ex_typeface 4 16 1 1).glyphs.length (ex_typeface 4 16 1 1).glyph_size ∧
    (∃ a, (resize_atlas (ex_typeface 4 16 1 1) batch.empty).atlas = some a ∧
      a.width = atlas_size (ex_typeface 4 16 1 1)) ∧
    ((ex_typeface 4 16 1 1).glyphs.length = 4 → (ex_typeface 4 16 1 1).glyph_size = 16 →
      atlas_size (ex_typeface 4 16 1 1) = 32) :=
  C5_atlas_size (ex_typeface 4 16 1 1) batch.empty (by decide) (by decide)

/-! ## C6: reallocation in `resize_atlas` -/

/-- C6: when the batch has no atlas, or its atlas width differs from the computed size,
`resize_atlas` installs a square atlas of the computed size with the channel count of the
typeface and all pixels zero, puts the cursor at `(0, size - 1)` and changes nothing else;
otherwise it leaves the batch (atlas and cursor included) as it is. -/
theorem C6_resize_atlas (tf : typeface) (b : batch) :
    ((b.atlas = none ∨ ∃ a, b.atlas = some a ∧ a.width ≠ atlas_size tf) →
      (∃ a, (resize_atlas tf b).atlas = some a ∧ a.width = atlas_size tf ∧
        a.height = atlas_size tf ∧ a.channels = tf.channels ∧ ∀ x y, a.pixel x y = 0) ∧
      (resize_atlas tf b).uv = ⟨0, (atlas_size tf : Int) - 1⟩ ∧
      (resize_atlas tf b).code_uvs = b.code_uvs ∧ (resize_atlas tf b).cache = b.cache ∧
      (resize_atlas tf b).count = b.count ∧ (resize_atlas tf b).size = b.size) ∧
    ((∃ a, b.atlas = some a ∧ a.width = atlas_size tf) → resize_atlas tf b = b) := by
  constructor
  · intro h
    have hr : resize_atlas tf b =
        { b with atlas := some (make_image_u8 (atlas_size tf) (atlas_size tf) tf.channels),
                 uv := ⟨0, (atlas_size tf : Int) - 1⟩ } := by
      rcases h with h | ⟨a, ha, hw⟩
      · exact resize_atlas_fresh tf b h
      · simp [resize_atlas, ha, hw]
    rw [hr]
    exact ⟨⟨_, rfl, rfl, rfl, rfl, fun _ _ => rfl⟩, rfl, rfl, rfl, rfl, rfl⟩
  · rintro ⟨a, ha, hw⟩
    simp [resize_atlas, ha, hw]

theorem C6_resize_atlas_witness :
    ((∃ a, (resize_atlas (ex_typeface 4 16 1 1) batch.empty).atlas = some a ∧
        a.width = atlas_size (ex_typeface 4 16 1 1) ∧
        a.height = atlas_size (ex_typeface 4 16 1 1) ∧
        a.channels = (ex_typeface 4 16 1 1).channels ∧ ∀ x y, a.pixel x y = 0) ∧
      (resize_atlas (ex_typeface 4 16 1 1) batch.empty).uv =
        ⟨0, (atlas_size (ex_typeface 4 16 1 1) : Int) - 1⟩ ∧
      (resize_atlas (ex_typeface 4 16 1 1) batch.empty).code_uvs = batch.empty.code_uvs ∧
      (resize_atlas (ex_typeface 4 16 1 1) batch.empty).cache = batch.empty.cache ∧
      (resize_atlas (ex_typeface 4 16 1 1) batch.empty).count = batch.empty.count ∧
      (resize_atlas (ex_typeface 4 16 1 1) batch.empty).size = batch.empty.size) ∧
    resize_atlas (ex_typeface 4 16 1 1) ex_batch = ex_batch :=
  ⟨(C6_resize_atlas (ex_typeface 4 16 1 1) batch.empty).1 (Or.inl rfl),
   (C6_resize_atlas (ex_typeface 4 16 1 1) ex_batch).2
     ⟨make_image_u8 32 32 1, rfl, by decide⟩⟩

/-! ## C7: the cursor advance of `insert_atlas` -/

/-- C7 (counterexample): with `glyph_size = 13` (cell 16) and a `32 × 32` atlas,
`insert_atlas` moves the cursor from `(0, 31)` to `(13, 31)`, not by one cell of 16 pixels
to `(16, 31)` as the claim has it. -/
theorem C7_advance_is_not_the_cell :
    spec_next_power_of_two (ex_typeface 4 13 1 1).glyph_size = 16 ∧
    (insert_atlas (ex_glyph 65 1 1) (ex_typeface 4 13 1 1) ex_batch).map (fun b => b.uv) =
      some ⟨13, 31⟩ ∧
    spec_advance 16 32 ex_batch.uv = ⟨16, 31⟩ := by
  refine ⟨?_, by decide, by decide⟩
  rw [← round_up2_of_pos (by decide)]
  decide

/-- C7 (amended): `insert_atlas` advances the cursor by `glyph_size` pixels along the row;
if the advanced `x` exceeds `atlas_width - glyph_size` the cursor wraps to `x = 0` and `y`
is decremented by `glyph_size`; if it stays below `atlas_width - glyph_size` the cursor
takes the advanced `x` and `y` is unchanged. -/
theorem C7_insert_atlas_cursor (gh : glyph) (tf : typeface) (b : batch) (a : image)
    (ha : b.atlas = some a) :
    ∃ b1, insert_atlas gh tf b = some b1 ∧
      (b.uv.x + (tf.glyph_size : Int) > (a.width : Int) - (tf.glyph_size : Int) →
        b1.uv = ⟨0, b.uv.y - (tf.glyph_size : Int)⟩) ∧
      (b.uv.x + (tf.glyph_size : Int) < (a.width : Int) - (tf.glyph_size : Int) →
        b1.uv = ⟨b.uv.x + (tf.glyph_size : Int), b.uv.y⟩) := by
  obtain ⟨b1, a1, h1, -, -, -, -, huv, -⟩ := insert_atlas_some gh tf b a ha
  refine ⟨b1, h1, ?_, ?_⟩
  · intro h
    rw [huv, if_pos (le_of_lt h)]
  · intro h
    rw [huv, if_neg (not_le.2 h)]

theorem C7_insert_atlas_cursor_witness :
    ∃ b1, insert_atlas (ex_glyph 65 1 1) (ex_typeface 4 13 1 1) ex_batch = some b1 ∧
      (ex_batch.uv.x + ((ex_typeface 4 13 1 1).glyph_size : Int) >
          ((make_image_u8 32 32 1).width : Int) - ((ex_typeface 4 13 1 1).glyph_size : Int) →
        b1.uv = ⟨0, ex_batch.uv.y - ((ex_typeface 4 13 1 1).glyph_size : Int)⟩) ∧
      (ex_batch.uv.x + ((ex_typeface 4 13 1 1).glyph_size : Int) <
          ((make_image_u8 32 32 1).width : Int) - ((ex_typeface 4 13 1 1).glyph_size : Int) →
        b1.uv = ⟨ex_batch.uv.x + ((ex_typeface 4 13 1 1).glyph_size : Int), ex_batch.uv.y⟩) :=
  C7_insert_atlas_cursor (ex_glyph 65 1 1) (ex_typeface 4 13 1 1) ex_batch
    (make_image_u8 32 32 1) rfl

/-! ## Lemmas on `calc_size` -/

theorem shift_nonneg (a : Int) (h : 0 ≤ a) : 0 ≤ a >>> (6 : Nat) := by
  rw [Int.shiftRight_eq_div_pow]
  positivity

theorem spec_lines_ne_nil (s : List Nat) : ∃ l ls, spec_lines s = l :: ls := by
  induction s with
  | nil => exact ⟨[], [], rfl⟩
  | cons c cs ih =>
    obtain ⟨l, ls, h⟩ := ih
    by_cases hc : c = 10
    · exact ⟨[], spec_lines cs, by simp [spec_lines, hc]⟩
    · exact ⟨c :: l, ls, by simp [spec_lines, hc, h]⟩

theorem spec_lines_mem (s : List Nat) :
    ∀ l ∈ spec_lines s, ∀ c ∈ l, c ∈ s ∧ c ≠ 10 := by
  induction s with
  | nil =>
    intro l hl c hc
    simp [spec_lines] at hl
    rw [hl] at hc
    simp at hc
  | cons d cs ih =>
    intro l hl c hc
    obtain ⟨l0, ls, h0⟩ := spec_lines_ne_nil cs
    by_cases hd : d = 10
    · simp only [spec_lines, hd, if_true, List.mem_cons] at hl
      rcases hl with hl | hl
      · rw [hl] at hc
        simp at hc
      · have := ih l hl c hc
        exact ⟨List.mem_cons_of_mem _ this.1, this.2⟩
    · simp only [spec_lines, hd, if_false, h0, List.mem_cons] at hl
      rcases hl with hl | hl
      · rw [hl] at hc
        rcases List.mem_cons.1 hc with hcd | hcl
        · rw [hcd]
          exact ⟨List.mem_cons_self _ _, hd⟩
        · have := ih l0 (by rw [h0]; exact List.mem_cons_self _ _) c hcl
          exact ⟨List.mem_cons_of_mem _ this.1, this.2⟩
      · have := ih l (by rw [h0]; exact List.mem_cons_of_mem _ hl) c hc
        exact ⟨List.mem_cons_of_mem _ this.1, this.2⟩

theorem height_from_newline (tf : typeface) (carry : Int) (cs : List Nat) :
    height_from tf carry (10 :: cs) = (carry >>> (6 : Nat)) + height_from tf carry cs := by
  unfold height_from
  have hl : spec_lines (10 :: cs) = [] :: spec_lines cs := by simp [spec_lines]
  rw [hl, List.length_cons, List.range_succ_eq_map, List.map_cons, List.sum_cons, List.map_map]
  congr 1

theorem height_from_glyph (tf : typeface) (carry : Int) (c : Nat) (cs : List Nat) (g : glyph)
    (hc : c ≠ 10) (hq : tf.query c = some g) :
    height_from tf carry (c :: cs) = height_from tf g.advance_y cs := by
  unfold height_from
  obtain ⟨l0, ls, h0⟩ := spec_lines_ne_nil cs
  have hl : spec_lines (c :: cs) = (c :: l0) :: ls := by simp [spec_lines, hc, h0]
  rw [hl, h0]
  simp only [List.length_cons]
  congr 1
  apply List.map_congr_left
  intro k _
  unfold line_height_from
  simp only [List.take_succ_cons, List.flatten_cons, List.cons_append]
  rw [List.getLast?_cons]
  cases hx : (l0 ++ (List.take k ls).flatten).getLast? with
  | none => simp [spec_advance_y, hq]
  | some d => simp

theorem exact_calc_loop_height (tf : typeface) (s : List Nat) :
    ∀ st st1 : exact_size_state, exact_calc_loop tf s st = some st1 →
      st1.position.y + (st1.advance_y >>> (6 : Nat)) =
        st.position.y + height_from tf st.advance_y s := by
  induction s with
  | nil =>
    intro st st1 h
    simp [exact_calc_loop] at h
    rw [← h]
    simp [height_from, spec_lines, line_height_from, List.range_succ]
  | cons c cs ih =>
    intro st st1 h
    simp only [exact_calc_loop] at h
    by_cases hc : c = 10
    · subst hc
      simp only [exact_calc_step, if_true, Option.some_bind] at h
      rw [ih _ st1 h, height_from_newline]
      simp only
      ring
    · simp only [exact_calc_step, hc, if_false] at h
      cases hq : tf.query c with
      | none => simp [hq] at h
      | some g =>
        simp only [hq, Option.some_bind] at h
        rw [ih _ st1 h, height_from_glyph tf _ c cs g hc hq]

theorem foldr_max_nonneg (l : List Int) : 0 ≤ l.foldr max 0 := by
  induction l with
  | nil => simp
  | cons a rest ih =>
    simp only [List.foldr_cons]
    omega

theorem spec_line_width_nonneg (tf : typeface) (l : List Nat)
    (h : ∀ c ∈ l, 0 ≤ spec_advance_x tf c) : 0 ≤ spec_line_width tf l := by
  unfold spec_line_width
  apply List.sum_nonneg
  intro x hx
  obtain ⟨c, hc, rfl⟩ := List.mem_map.1 hx
  exact h c hc

theorem exact_calc_loop_width (tf : typeface) (s : List Nat) :
    ∀ st st1 : exact_size_state,
      (∀ c ∈ s, c ≠ 10 → ∃ g, tf.query c = some g ∧ 0 ≤ g.advance_x) →
      exact_calc_loop tf s st = some st1 → st.position.x ≤ st.max.x → 0 ≤ st.max.x →
      st1.max.x = max st.max.x (lines_width_from tf st.position.x (spec_lines s)) ∧
        st1.max.y = st.max.y := by
  induction s with
  | nil =>
    intro st st1 _ h hx h0
    simp [exact_calc_loop] at h
    rw [← h]
    refine ⟨?_, rfl⟩
    simp only [spec_lines, lines_width_from, spec_line_width, List.map_nil, List.sum_nil,
      List.foldr_nil]
    omega
  | cons c cs ih =>
    intro st st1 hall h hx hm
    have hall2 : ∀ d ∈ cs, d ≠ 10 → ∃ g, tf.query d = some g ∧ 0 ≤ g.advance_x :=
      fun d hd => hall d (List.mem_cons_of_mem _ hd)
    obtain ⟨l0, ls, h0⟩ := spec_lines_ne_nil cs
    simp only [exact_calc_loop] at h
    by_cases hc : c = 10
    · subst hc
      simp only [exact_calc_step, if_true, Option.some_bind] at h
      have hi := ih _ st1 hall2 h hm hm
      have hl : spec_lines (10 :: cs) = [] :: l0 :: ls := by simp [spec_lines, h0]
      rw [hl]
      rw [h0] at hi
      simp only [lines_width_from, spec_line_width, List.map_nil, List.sum_nil, List.map_cons,
        List.foldr_cons] at hi ⊢
      refine ⟨?_, hi.2⟩
      rw [hi.1]
      omega
    · obtain ⟨g, hq, hg⟩ := hall c (List.mem_cons_self _ _) hc
      have ha := shift_nonneg _ hg
      simp only [exact_calc_step, hc, if_false, hq, Option.some_bind] at h
      have hl : spec_lines (c :: cs) = (c :: l0) :: ls := by simp [spec_lines, hc, h0]
      have hw : 0 ≤ spec_line_width tf l0 := by
        apply spec_line_width_nonneg
        intro d hd
        have hmem := spec_lines_mem cs l0 (by rw [h0]; exact List.mem_cons_self _ _) d hd
        obtain ⟨g2, hq2, hg2⟩ := hall2 d hmem.1 hmem.2
        simp only [spec_advance_x, hq2]
        exact shift_nonneg _ hg2
      have hwc : spec_line_width tf (c :: l0) =
          (g.advance_x >>> (6 : Nat)) + spec_line_width tf l0 := by
        simp [spec_line_width, spec_advance_x, hq]
      rw [hl]
      by_cases hgt : st.position.x + (g.advance_x >>> (6 : Nat)) > st.max.x
      · simp only [hgt, if_true] at h
        have hi := ih _ st1 hall2 h (le_refl _) (by simp only; omega)
        rw [h0] at hi
        simp only [lines_width_from, hwc] at hi ⊢
        refine ⟨?_, hi.2⟩
        rw [hi.1]
        omega
      · simp only [hgt, if_false] at h
        have hi := ih _ st1 hall2 h (by simp only; omega) hm
        rw [h0] at hi
        simp only [lines_width_from, hwc] at hi ⊢
        refine ⟨?_, hi.2⟩
        rw [hi.1]
        omega

theorem exact_calc_loop_some (tf : typeface) (s : List Nat) :
    ∀ st : exact_size_state,
      (∀ c ∈ s, c ≠ 10 → ∃ g, tf.query c = some g ∧ 0 ≤ g.advance_y) →
      0 ≤ st.position.y → 0 ≤ st.advance_y →
      ∃ st1, exact_calc_loop tf s st = some st1 ∧ 0 ≤ st1.position.y ∧ 0 ≤ st1.advance_y := by
  induction s with
  | nil => intro st _ h1 h2; exact ⟨st, rfl, h1, h2⟩
  | cons c cs ih =>
    intro st hall h1 h2
    have hall2 : ∀ d ∈ cs, d ≠ 10 → ∃ g, tf.query d = some g ∧ 0 ≤ g.advance_y :=
      fun d hd => hall d (List.mem_cons_of_mem _ hd)
    simp only [exact_calc_loop]
    by_cases hc : c = 10
    · subst hc
      simp only [exact_calc_step, if_true, Option.some_bind]
      have ha := shift_nonneg _ h2
      exact ih _ hall2 (by simp only; omega) h2
    · obtain ⟨g, hq, hg⟩ := hall c (List.mem_cons_self _ _) hc
      simp only [exact_calc_step, hc, if_false, hq, Option.some_bind]
      exact ih _ hall2 h1 hg

/-! ### The `float` loop of `calc_size` against the exact loop -/

theorem calc_finish_x (st : size_state) : (calc_finish st).x = st.max.x := by
  unfold calc_finish
  simp only
  split <;> rfl

theorem calc_finish_exact (st : exact_size_state) (h1 : f32.small (st.advance_y >>> (6 : Nat)))
    (h2 : f32.small (st.position.y + (st.advance_y >>> (6 : Nat)))) :
    calc_finish st.to_float = (exact_calc_finish st).to_float := by
  unfold calc_finish exact_calc_finish exact_size_state.to_float vec2.to_float
  simp only
  rw [add_of_int_exact _ _ h1 h2, gt_exact]
  by_cases h : st.position.y + (st.advance_y >>> (6 : Nat)) > st.max.y
  · simp [h]
  · simp [h]

theorem calc_loop_exact (tf : typeface) (s : List Nat) :
    ∀ st : exact_size_state, exact_calc_ok tf s st →
      calc_loop tf s st.to_float =
        (exact_calc_loop tf s st).map exact_size_state.to_float := by
  induction s with
  | nil =>
    intro st _
    rfl
  | cons c cs ih =>
    intro st hok
    simp only [calc_loop, exact_calc_loop]
    by_cases hc : c = 10
    · subst hc
      simp only [exact_calc_ok, if_true] at hok
      obtain ⟨h1, h2, h3⟩ := hok
      simp only [calc_step, exact_calc_step, if_true, Option.some_bind]
      rw [← ih _ h3]
      congr 1
      simp only [exact_size_state.to_float, add_of_int_exact _ _ h1 h2, exact_zero]
    · simp only [calc_step, exact_calc_step, hc, if_false]
      cases hq : tf.query c with
      | none => simp
      | some g =>
        simp only [exact_calc_ok, hc, if_false, hq] at hok
        obtain ⟨h1, h2, h3⟩ := hok
        simp only [Option.some_bind]
        rw [← ih _ h3]
        congr 1
        simp only [exact_size_state.to_float, add_of_int_exact _ _ h1 h2, gt_exact]
        by_cases h : st.position.x + (g.advance_x >>> (6 : Nat)) > st.max.x
        · simp [h]
        · simp [h]

theorem exact_calc_loop_max_mono (tf : typeface) (s : List Nat) :
    ∀ st st1 : exact_size_state, exact_calc_loop tf s st = some st1 →
      st.max.x ≤ st1.max.x := by
  induction s with
  | nil =>
    intro st st1 h
    simp [exact_calc_loop] at h
    rw [h]
  | cons c cs ih =>
    intro st st1 h
    simp only [exact_calc_loop] at h
    by_cases hc : c = 10
    · subst hc
      simp only [exact_calc_step, if_true, Option.some_bind] at h
      have hi := ih _ st1 h
      exact hi
    · simp only [exact_calc_step, hc, if_false] at h
      cases hq : tf.query c with
      | none => simp [hq] at h
      | some g =>
        simp only [hq, Option.some_bind] at h
        have hi := ih _ st1 h
        simp only at hi
        split at hi
        · simp only at hi
          omega
        · exact hi

theorem exact_calc_loop_y_mono (tf : typeface) (s : List Nat) :
    ∀ st st1 : exact_size_state,
      (∀ c ∈ s, c ≠ 10 → ∃ g, tf.query c = some g ∧ 0 ≤ g.advance_y) →
      0 ≤ st.advance_y → exact_calc_loop tf s st = some st1 →
      st.position.y ≤ st1.position.y ∧ 0 ≤ st1.advance_y := by
  induction s with
  | nil =>
    intro st st1 _ ha h
    simp [exact_calc_loop] at h
    rw [← h]
    exact ⟨le_refl _, ha⟩
  | cons c cs ih =>
    intro st st1 hall ha h
    have hall2 : ∀ d ∈ cs, d ≠ 10 → ∃ g, tf.query d = some g ∧ 0 ≤ g.advance_y :=
      fun d hd => hall d (List.mem_cons_of_mem _ hd)
    simp only [exact_calc_loop] at h
    by_cases hc : c = 10
    · subst hc
      simp only [exact_calc_step, if_true, Option.some_bind] at h
      have hs := shift_nonneg _ ha
      obtain ⟨h1, h2⟩ := ih _ st1 hall2 (by exact ha) h
      simp only at h1
      exact ⟨by omega, h2⟩
    · obtain ⟨g, hq, hg⟩ := hall c (List.mem_cons_self _ _) hc
      simp only [exact_calc_step, hc, if_false, hq, Option.some_bind] at h
      have hi := ih _ st1 hall2 (by exact hg) h
      exact hi

theorem exact_calc_ok_of_bounds (tf : typeface) (s : List Nat) :
    ∀ st st1 : exact_size_state,
      (∀ c ∈ s, c ≠ 10 → ∃ g, tf.query c = some g ∧ 0 ≤ g.advance_x ∧ 0 ≤ g.advance_y) →
      0 ≤ st.position.x → st.position.x ≤ st.max.x → 0 ≤ st.position.y → 0 ≤ st.advance_y →
      exact_calc_loop tf s st = some st1 →
      st1.max.x ≤ 2 ^ 24 → st1.position.y ≤ 2 ^ 24 →
      exact_calc_ok tf s st := by
  induction s with
  | nil =>
    intro st st1 _ _ _ _ _ _ _ _
    simp [exact_calc_ok]
  | cons c cs ih =>
    intro st st1 hall hx hxm hy ha h hw hh
    have hall2 : ∀ d ∈ cs, d ≠ 10 →
        ∃ g, tf.query d = some g ∧ 0 ≤ g.advance_x ∧ 0 ≤ g.advance_y :=
      fun d hd => hall d (List.mem_cons_of_mem _ hd)
    have hally : ∀ d ∈ cs, d ≠ 10 → ∃ g, tf.query d = some g ∧ 0 ≤ g.advance_y := by
      intro d hd hn
      obtain ⟨g, h1, -, h3⟩ := hall2 d hd hn
      exact ⟨g, h1, h3⟩
    simp only [exact_calc_loop] at h
    by_cases hc : c = 10
    · subst hc
      simp only [exact_calc_step, if_true, Option.some_bind] at h
      have hs := shift_nonneg _ ha
      obtain ⟨hm, -⟩ := exact_calc_loop_y_mono tf cs _ st1 hally (by exact ha) h
      simp only at hm
      simp only [exact_calc_ok, if_true]
      refine ⟨?_, ?_, ih _ st1 hall2 (le_refl _) (by simp only; omega) (by simp only; omega) ha
        h hw hh⟩
      · unfold f32.small
        omega
      · unfold f32.small
        omega
    · obtain ⟨g, hq, hgx, hgy⟩ := hall c (List.mem_cons_self _ _) hc
      simp only [exact_calc_step, hc, if_false, hq, Option.some_bind] at h
      have hs := shift_nonneg _ hgx
      have hm := exact_calc_loop_max_mono tf cs _ st1 h
      simp only [exact_calc_ok, hc, if_false, hq]
      have hmx : st.position.x + (g.advance_x >>> (6 : Nat)) ≤ st1.max.x := by
        simp only at hm
        split at hm
        · simpa using hm
        · omega
      refine ⟨?_, ?_, ih _ st1 hall2 (by simp only; omega) ?_ hy hgy h hw hh⟩
      · unfold f32.small
        omega
      · unfold f32.small
        omega
      · simp only
        split
        · exact le_refl _
        · omega

theorem exact_calc_ok_of_width (tf : typeface) (s : List Nat) :
    ∀ st st1 : exact_size_state, (∀ d ∈ s, d ≠ 10) →
      (∀ c ∈ s, ∃ g, tf.query c = some g ∧ 0 ≤ g.advance_x) →
      0 ≤ st.position.x → st.position.x ≤ st.max.x →
      exact_calc_loop tf s st = some st1 → st1.max.x ≤ 2 ^ 24 →
      exact_calc_ok tf s st := by
  induction s with
  | nil =>
    intro st st1 _ _ _ _ _ _
    simp [exact_calc_ok]
  | cons c cs ih =>
    intro st st1 hnl hall hx hxm h hw
    have hc : c ≠ 10 := hnl c (List.mem_cons_self _ _)
    obtain ⟨g, hq, hgx⟩ := hall c (List.mem_cons_self _ _)
    simp only [exact_calc_loop, exact_calc_step, hc, if_false, hq, Option.some_bind] at h
    have hs := shift_nonneg _ hgx
    have hm := exact_calc_loop_max_mono tf cs _ st1 h
    simp only [exact_calc_ok, hc, if_false, hq]
    have hmx : st.position.x + (g.advance_x >>> (6 : Nat)) ≤ st1.max.x := by
      simp only at hm
      split at hm
      · simpa using hm
      · omega
    refine ⟨?_, ?_, ih _ st1 (fun d hd => hnl d (List.mem_cons_of_mem _ hd))
      (fun d hd => hall d (List.mem_cons_of_mem _ hd)) (by simp only; omega) ?_ h hw⟩
    · unfold f32.small
      omega
    · unfold f32.small
      omega
    · simp only
      split
      · exact le_refl _
      · omega

/-- The exact loop of `calc_size` from the initial state, for glyphs with non-negative
advances: the width and the height of the specification. -/
theorem exact_calc_loop_spec (tf : typeface) (s : List Nat)
    (hall : ∀ c ∈ s, c ≠ 10 →
      ∃ g, tf.query c = some g ∧ 0 ≤ g.advance_x ∧ 0 ≤ g.advance_y) :
    ∃ st1, exact_calc_loop tf s { position := ⟨0, 0⟩, max := ⟨0, 0⟩, advance_y := 0 } =
        some st1 ∧
      st1.max.x = spec_width tf s ∧ st1.max.y = 0 ∧
      st1.position.y + (st1.advance_y >>> (6 : Nat)) = spec_height tf s ∧
      0 ≤ st1.position.y ∧ 0 ≤ st1.advance_y := by
  have hx : ∀ c ∈ s, c ≠ 10 → ∃ g, tf.query c = some g ∧ 0 ≤ g.advance_x := by
    intro c hc hn
    obtain ⟨g, h1, h2, -⟩ := hall c hc hn
    exact ⟨g, h1, h2⟩
  have hy : ∀ c ∈ s, c ≠ 10 → ∃ g, tf.query c = some g ∧ 0 ≤ g.advance_y := by
    intro c hc hn
    obtain ⟨g, h1, -, h3⟩ := hall c hc hn
    exact ⟨g, h1, h3⟩
  obtain ⟨st1, h1, hy1, ha1⟩ :=
    exact_calc_loop_some tf s { position := ⟨0, 0⟩, max := ⟨0, 0⟩, advance_y := 0 } hy
      (le_refl _) (le_refl _)
  obtain ⟨hw, hmy⟩ := exact_calc_loop_width tf s _ st1 hx h1 (le_refl _) (le_refl _)
  have hh := exact_calc_loop_height tf s _ st1 h1
  obtain ⟨l0, ls, hl⟩ := spec_lines_ne_nil s
  have hr := foldr_max_nonneg (ls.map (spec_line_width tf))
  simp only [zero_add] at hh
  simp only [hl, lines_width_from, zero_add] at hw
  refine ⟨st1, h1, ?_, hmy, hh, hy1, ha1⟩
  rw [hw]
  simp only [spec_width, hl, List.map_cons, List.foldr_cons]
  omega

/-- In the range where every sum is exact, `calc_size` returns the width and the height of
the specification. -/
theorem calc_size_on_exact (tf : typeface) (s : List Nat)
    (hall : ∀ c ∈ s, c ≠ 10 →
      ∃ g, tf.query c = some g ∧ 0 ≤ g.advance_x ∧ 0 ≤ g.advance_y)
    (hw : spec_width tf s ≤ 2 ^ 24) (hh : spec_height tf s ≤ 2 ^ 24) :
    calc_size_on tf s = some ⟨f32.exact (spec_width tf s), f32.exact (spec_height tf s)⟩ := by
  obtain ⟨st1, h1, hmx, hmy, hy, hp, ha⟩ := exact_calc_loop_spec tf s hall
  have hs := shift_nonneg _ ha
  have hok := exact_calc_ok_of_bounds tf s _ st1 hall (le_refl _) (le_refl _) (le_refl _)
    (le_refl _) h1 (by rw [hmx]; exact hw) (by omega)
  have hloop := calc_loop_exact tf s _ hok
  rw [h1] at hloop
  have hfin := calc_finish_exact st1 (by unfold f32.small; omega) (by unfold f32.small; omega)
  have hinit : calc_size_on tf s =
      (calc_loop tf s (exact_size_state.to_float ⟨⟨0, 0⟩, ⟨0, 0⟩, 0⟩)).map calc_finish := rfl
  rw [hinit, hloop]
  simp only [Option.map_some', hfin, Option.some.injEq]
  unfold exact_calc_finish vec2.to_float
  simp only
  split
  · rw [hmx, hy]
  · next hle =>
    have : spec_height tf s = 0 := by omega
    rw [hmx, hmy, this]

/-! ## Lemmas on `push`, `text`, `begin` and `end` -/

theorem character_eq_spec (b : batch) (gh : glyph) (pos : vec3) (color : vec4) (uv : vec2) :
    b.character gh pos color uv = float_record b.size gh pos color uv := rfl

theorem take_set_self {α : Type} (l : List α) (n : Nat) (a : α) :
    (l.set n a).take n = l.take n := by
  apply List.ext_getElem?
  intro i
  rw [List.getElem?_take, List.getElem?_take]
  split
  · next h => rw [List.getElem?_set_ne (by omega)]
  · rfl

theorem push_some (b : batch) (gh : glyph) (pos : vec3) (color : vec4) (uv : vec2)
    (huv : b.code_uvs gh.codepoint = some uv) (hinv : b.count ≤ b.cache.length) :
    ∃ b1, b.push gh pos color = some b1 ∧ b1.count = b.count + 1 ∧
      b1.cache.take (b.count + 1) = b.cache.take b.count ++ [float_record b.size gh pos color uv] ∧
      b1.count ≤ b1.cache.length ∧ b1.code_uvs = b.code_uvs ∧ b1.size = b.size ∧
      b1.atlas = b.atlas ∧ b1.uv = b.uv := by
  unfold batch.push
  rw [huv]
  simp only [character_eq_spec]
  by_cases hlt : b.count < b.cache.length
  · rw [if_pos hlt]
    refine ⟨_, rfl, rfl, ?_, by simp; omega, rfl, rfl, rfl, rfl⟩
    simp only
    rw [List.take_succ, List.getElem?_set_self hlt, take_set_self]
    rfl
  · rw [if_neg hlt]
    have heq : b.count = b.cache.length := by omega
    refine ⟨_, rfl, rfl, ?_, by simp; omega, rfl, rfl, rfl, rfl⟩
    simp only
    rw [heq, List.take_length, List.take_of_length_le (by simp)]

theorem text_loop_append (tf : typeface) (color : vec4) (s1 s2 : List Nat) :
    ∀ st, text_loop tf color (s1 ++ s2) st =
      (text_loop tf color s1 st).bind (text_loop tf color s2) := by
  induction s1 with
  | nil => intro st; simp [text_loop]
  | cons c cs ih =>
    intro st
    simp only [List.cons_append, text_loop]
    cases text_step tf color st c with
    | none => simp
    | some st2 => simpa using ih st2

theorem text_loop_instances (tf : typeface) (color : vec4) (s : List Nat) :
    ∀ st : text_state,
      (∀ c ∈ s, c ≠ 10 → ∃ g uv, tf.query c = some g ∧ st.b.code_uvs g.codepoint = some uv) →
      st.b.count ≤ st.b.cache.length →
      ∃ st1, text_loop tf color s st = some st1 ∧
        st1.b.count = st.b.count + (s.filter fun c => c ≠ 10).length ∧
        st1.b.cache.take st1.b.count = st.b.cache.take st.b.count ++
          float_instances tf st.b.size st.b.code_uvs color s st.pos st.advance_y ∧
        st1.b.count ≤ st1.b.cache.length ∧ st1.b.code_uvs = st.b.code_uvs ∧
        st1.b.size = st.b.size ∧ st1.b.atlas = st.b.atlas ∧ st1.b.uv = st.b.uv := by
  induction s with
  | nil =>
    intro st _ hinv
    exact ⟨st, rfl, by simp, by simp [float_instances], hinv, rfl, rfl, rfl, rfl⟩
  | cons c cs ih =>
    intro st hall hinv
    by_cases hc : c = 10
    · subst hc
      have hall2 : ∀ d ∈ cs, d ≠ 10 →
          ∃ g uv, tf.query d = some g ∧ st.b.code_uvs g.codepoint = some uv :=
        fun d hd => hall d (List.mem_cons_of_mem _ hd)
      obtain ⟨st1, h1, h2, h3, h4, h5, h6, h7, h8⟩ :=
        ih { st with pos := ⟨f32.finite 0, f32.sub st.pos.y (f32.of_int (st.advance_y >>> (6 : Nat))), st.pos.z⟩ } hall2 hinv
      refine ⟨st1, by simpa [text_loop, text_step] using h1, by simpa using h2, ?_, h4, h5, h6,
        h7, h8⟩
      rw [h3]
      simp [float_instances]
    · obtain ⟨g, uv, hq, huv⟩ := hall c (List.mem_cons_self _ _) hc
      obtain ⟨b2, hp, hcnt, htake, hinv2, hcu, hsz, hat, huv2⟩ :=
        push_some st.b g st.pos color uv huv hinv
      have hall2 : ∀ d ∈ cs, d ≠ 10 →
          ∃ g uv, tf.query d = some g ∧ b2.code_uvs g.codepoint = some uv := by
        intro d hd hn
        rw [hcu]
        exact hall d (List.mem_cons_of_mem _ hd) hn
      obtain ⟨st1, h1, h2, h3, h4, h5, h6, h7, h8⟩ :=
        ih { pos := ⟨f32.add st.pos.x (f32.of_int (g.advance_x >>> (6 : Nat))), st.pos.y, st.pos.z⟩,
             advance_y := g.advance_y, b := b2 } hall2 hinv2
      refine ⟨st1, by simp [text_loop, text_step, hc, hq, hp, h1], ?_, ?_, h4,
        by rw [h5, hcu], by rw [h6, hsz], by rw [h7, hat], by rw [h8, huv2]⟩
      · rw [h2]
        simp only [hcnt]
        simp [hc]
        omega
      · rw [h3]
        simp only [hcnt, htake, hcu, hsz]
        simp [float_instances, hc, hq, huv]

theorem find_store_batch_none (tf : typeface) (b : batch) (x : Nat)
    (l : List (typeface × batch)) (h : l.find? (fun r => r.1.id == x) = none) :
    (store_batch tf b l).find? (fun r => r.1.id == x) = none := by
  induction l with
  | nil => simp [store_batch]
  | cons r rest ih =>
    rw [List.find?_cons] at h
    cases hr : (r.1.id == x) with
    | true => simp [hr] at h
    | false =>
      rw [hr] at h
      unfold store_batch
      cases hrt : (r.1.id == tf.id) with
      | true =>
        have h1 : r.1.id = tf.id := by simpa using hrt
        have h2 : (tf.id == x) = false := by rw [← h1]; exact hr
        simp only [if_true]
        rw [List.find?_cons]
        simp only [h2]
        exact h
      | false =>
        simp only [Bool.false_eq_true, if_false]
        rw [List.find?_cons, hr]
        exact ih h

theorem find_id (e : text_engine) (tf : typeface) (p : typeface × batch)
    (h : e.find tf = some p) : p.1.id = tf.id := by
  unfold text_engine.find at h
  have := List.find?_some h
  simpa using this

/-- The resolved batch after storing a new batch under the resolved key. -/
theorem resolve_store (e : text_engine) (tf0 tf : typeface) (b b1 : batch)
    (h : e.resolve tf0 = some (tf, b)) :
    ({ e with m_batches := store_batch tf b1 e.m_batches } : text_engine).resolve tf0 =
      some (tf, b1) := by
  unfold text_engine.resolve at h ⊢
  cases hf : e.find tf0 with
  | some p =>
    rw [hf] at h
    simp only [Option.some.injEq] at h
    have hid := find_id e tf0 p hf
    rw [h] at hid hf
    simp only at hid
    have := find_store_batch tf b1 e.m_batches (tf, b) (by
      unfold text_engine.find at hf
      rw [hid]
      exact hf)
    have h2 : ({ e with m_batches := store_batch tf b1 e.m_batches } : text_engine).find tf0 =
        some (tf, b1) := by
      unfold text_engine.find
      rw [← hid]
      exact this
    rw [h2]
  | none =>
    rw [hf] at h
    simp only at h
    have hid := find_id e e.m_typeface (tf, b) h
    simp only at hid
    have h2 : ({ e with m_batches := store_batch tf b1 e.m_batches } : text_engine).find tf0 =
        none := by
      unfold text_engine.find at hf ⊢
      exact find_store_batch_none tf b1 tf0.id e.m_batches hf
    have h3 : ({ e with m_batches := store_batch tf b1 e.m_batches } : text_engine).find
        e.m_typeface = some (tf, b1) := by
      unfold text_engine.find at h ⊢
      rw [← hid] at h ⊢
      exact find_store_batch tf b1 e.m_batches (tf, b) h
    rw [h2]
    exact h3

theorem begin_find (e : text_engine) (tf : typeface) :
    e.begin.find tf = (e.find tf).map fun p => (p.1, { p.2 with count := 0 }) := by
  unfold text_engine.begin text_engine.find
  simp only
  rw [List.find?_map]
  rfl

theorem begin_resolve (e : text_engine) (tf0 : typeface) :
    e.begin.resolve tf0 = (e.resolve tf0).map fun p => (p.1, { p.2 with count := 0 }) := by
  unfold text_engine.resolve
  rw [begin_find]
  cases e.find tf0 with
  | some p => rfl
  | none =>
    simp only [Option.map_none']
    exact begin_find e e.m_typeface

/-! ### Exact cases of the records and of the pen -/

theorem float_record_exact (size : Nat) (gh : glyph) (px py : Int) (z : f32) (color : vec4)
    (uv : vec2) (h : record_in_range size gh px py uv) :
    float_record size gh ⟨f32.exact px, f32.exact py, z⟩ color uv =
      spec_record size gh px py z color uv := by
  obtain ⟨-, -, hbl, hbt, hw, hh, hs, hu, hv, h1, h2, h3, h4⟩ := h
  have h5 : f32.small (-((gh.bitmap.height : Int) - gh.bearing_top - py) - (size : Int)) := by
    have e : -((gh.bitmap.height : Int) - gh.bearing_top - py) - (size : Int) =
        py + gh.bearing_top - (gh.bitmap.height : Int) - (size : Int) := by ring
    rw [e]
    exact h4
  have e1 : gh.bearing_left + px = px + gh.bearing_left := by ring
  have e2 : -((gh.bitmap.height : Int) - gh.bearing_top - py) - (size : Int) =
      py + gh.bearing_top - (gh.bitmap.height : Int) - (size : Int) := by ring
  unfold float_record spec_record
  simp only
  rw [of_int_exact _ hbl, of_int_exact _ hbt, of_int_exact _ hw, of_int_exact _ hh,
    of_int_exact _ hs, of_int_exact _ hu, of_int_exact _ hv, add_exact _ _ h1,
    sub_exact _ _ h2, sub_exact _ _ h3, neg_exact, sub_exact _ _ h5, e1, e2]

theorem text_loop_pen (tf : typeface) (color : vec4) (s : List Nat) :
    ∀ st st1 : text_state, (∀ d ∈ s, d ≠ 10) → text_loop tf color s st = some st1 →
      st1.pos.x = float_pen_x tf st.pos.x s ∧ st1.pos.y = st.pos.y ∧
        st1.pos.z = st.pos.z := by
  induction s with
  | nil =>
    intro st st1 _ h
    simp [text_loop] at h
    rw [← h]
    simp [float_pen_x]
  | cons c cs ih =>
    intro st st1 hnl h
    have hc : c ≠ 10 := hnl c (List.mem_cons_self _ _)
    simp only [text_loop, text_step, hc, if_false] at h
    cases hq : tf.query c with
    | none => simp [hq] at h
    | some g =>
      simp only [hq] at h
      cases hp : st.b.push g st.pos color with
      | none => simp [hp] at h
      | some b2 =>
        simp only [hp, Option.some_bind] at h
        obtain ⟨h1, h2, h3⟩ := ih _ st1 (fun d hd => hnl d (List.mem_cons_of_mem _ hd)) h
        refine ⟨?_, h2, h3⟩
        rw [h1]
        simp only [float_pen_x, List.foldl_cons, spec_advance_x, hq]

theorem float_pen_x_exact (tf : typeface) (s : List Nat) :
    ∀ px : Int, (∀ d ∈ s, f32.small (spec_advance_x tf d)) →
      (∀ k, k ≤ s.length → f32.small (px + ((s.take k).map (spec_advance_x tf)).sum)) →
      float_pen_x tf (f32.exact px) s = f32.exact (px + (s.map (spec_advance_x tf)).sum) := by
  induction s with
  | nil =>
    intro px _ _
    simp [float_pen_x]
  | cons c cs ih =>
    intro px hs hk
    have h1 : f32.small (px + spec_advance_x tf c) := by
      have := hk 1 (by simp)
      simpa using this
    have hstep : float_pen_x tf (f32.exact px) (c :: cs) =
        float_pen_x tf (f32.exact (px + spec_advance_x tf c)) cs := by
      simp only [float_pen_x, List.foldl_cons]
      rw [add_of_int_exact _ _ (hs c (List.mem_cons_self _ _)) h1]
    rw [hstep, ih _ (fun d hd => hs d (List.mem_cons_of_mem _ hd))]
    · simp only [List.map_cons, List.sum_cons]
      congr 1
      ring
    · intro k hkl
      have := hk (k + 1) (by simpa using hkl)
      simp only [List.take_succ_cons, List.map_cons, List.sum_cons] at this
      rw [add_assoc]
      exact this

/-! ## C8: `calc_size` -/

/-- C8 (counterexample): the glyph `A` of `ex_typeface_wide` has the non-negative advances
`(16777217, 16)` pixels, so the width of the string `A` by the claim is `16777217`; the
`float` sum of `calc_size` cannot hold that value and the width returned is `16777216`. -/
theorem C8_width_is_rounded :
    (ex_typeface_wide.query 65).map (fun g => (g.advance_x, g.advance_y)) =
      some (1073741888, 1024) ∧
    spec_advance_x ex_typeface_wide 65 = 16777217 ∧
    spec_width ex_typeface_wide [65] = 16777217 ∧
    spec_height ex_typeface_wide [65] = 16 ∧
    ex_engine_wide.calc_size [65] ex_typeface_wide =
      some ⟨f32.exact 16777216, f32.exact 16⟩ ∧
    f32.exact 16777216 ≠ f32.exact (spec_width ex_typeface_wide [65]) := by
  refine ⟨by decide, by decide, by decide, by decide, by decide, by decide⟩

/-- C8 (amended): for a string whose characters other than the newline have glyphs in the
resolved typeface with non-negative advances, and whose width and height as below are at
most `2^24` pixels, `calc_size` returns exactly the maximum over the lines of the summed
horizontal advances (`advance_x >> 6`) as width and the sum of the line vertical advances
(`advance_y >> 6` of the last glyph at or before the end of each line) over all lines, the
trailing line included, as height. -/
theorem C8_calc_size (e : text_engine) (tf0 : typeface) (p : typeface × batch) (s : List Nat)
    (hres : e.resolve tf0 = some p)
    (hall : ∀ c ∈ s, c ≠ 10 →
      ∃ g, p.1.query c = some g ∧ 0 ≤ g.advance_x ∧ 0 ≤ g.advance_y)
    (hw : spec_width p.1 s ≤ 2 ^ 24) (hh : spec_height p.1 s ≤ 2 ^ 24) :
    e.calc_size s tf0 =
      some ⟨f32.exact (spec_width p.1 s), f32.exact (spec_height p.1 s)⟩ := by
  simp only [text_engine.calc_size, hres]
  exact calc_size_on_exact p.1 s hall hw hh

theorem C8_calc_size_witness :
    spec_width (ex_typeface 2 16 1 1) [65, 66, 10, 10, 66] = 16 ∧
    spec_height (ex_typeface 2 16 1 1) [65, 66, 10, 10, 66] = 48 ∧
    ex_text_engine.calc_size [65, 66, 10, 10, 66] (ex_typeface 2 16 1 1) =
      some ⟨f32.exact 16, f32.exact 48⟩ :=
  ⟨by decide, by decide,
    C8_calc_size ex_text_engine (ex_typeface 2 16 1 1) (ex_typeface 2 16 1 1, ex_text_batch)
      [65, 66, 10, 10, 66] rfl (by
        intro c hc hn
        simp only [List.mem_cons, List.mem_singleton, List.not_mem_nil, or_false] at hc
        rcases hc with h | h | h | h | h
        · exact ⟨ex_glyph 65 1 1, by rw [h]; rfl, by decide, by decide⟩
        · exact ⟨ex_glyph 66 1 1, by rw [h]; rfl, by decide, by decide⟩
        · exact absurd h hn
        · exact absurd h hn
        · exact ⟨ex_glyph 66 1 1, by rw [h]; rfl, by decide, by decide⟩) (by decide) (by decide)⟩

/-! ## C9: instances appended by `text` -/

/-- C9 (counterexample): with the pen at `y = -268435456` the string `A`, newline, `B`
gives two instances, but the pen after the newline is still at `y = -268435456` and not at
`-268435456 - 16`: the vertical advance `16` of `A` is lost when the `float` difference is
rounded, and the two instances have the same `y`. -/
theorem C9_newline_step_is_rounded :
    spec_advance_y (ex_typeface 2 16 1 1) 65 = 16 ∧
    (text_loop (ex_typeface 2 16 1 1) ex_color [65, 10]
      { pos := ⟨f32.exact 5, f32.exact (-268435456), f32.exact 0⟩, advance_y := 0,
        b := ex_text_batch }).map (fun st => st.pos) =
      some ⟨f32.finite 0, f32.exact (-268435456), f32.exact 0⟩ ∧
    f32.exact (-268435456) ≠ f32.exact (-268435456 - 16) ∧
    ((ex_text_engine.text [65, 10, 66] ⟨f32.exact 5, f32.exact (-268435456), f32.exact 0⟩
        ex_color (ex_typeface 2 16 1 1)).bind fun e1 =>
      (e1.resolve (ex_typeface 2 16 1 1)).map fun p =>
        (p.2.count, p.2.cache.map fun r => r.position.y)) =
      some (2, [f32.exact (-268435456), f32.exact (-268435456)]) := by
  refine ⟨by decide, by decide, by decide, by decide⟩

/-- C9 (amended): when every code point of the string other than the newline has a glyph
with a UV entry, `text` succeeds, raises `count` by the number of non-newline code points
and appends to the valid part of the cache exactly the instances of those code points in
order, none for a newline; for a string `c, newline, d` these are the record of `c` at the
start position and the record of `d` at the pen with `x = 0` and `y` the `float` difference
`pos.y - float(advance_y(c) >> 6)`, so `count` grows by 2.  When the start position is
integral and the operands and intermediate values of both records and the advance have
magnitude at most `2^24`, the two records are the exact ones at the pens `(px, py)` and
`(0, py - (advance_y(c) >> 6))`.  In general the pen of the instance that follows
`c, newline` has `x = 0` and `y` equal to the `float` difference of the pen `y` of `c` and
`float(advance_y(c) >> 6)`. -/
theorem C9_text_instances (e : text_engine) (tf0 tf : typeface) (b : batch) (s : List Nat)
    (pos : vec3) (color : vec4)
    (hres : e.resolve tf0 = some (tf, b))
    (hall : ∀ c ∈ s, c ≠ 10 → ∃ g uv, tf.query c = some g ∧ b.code_uvs g.codepoint = some uv)
    (hinv : b.count ≤ b.cache.length) :
    (∃ e1 b1, e.text s pos color tf0 = some e1 ∧ e1.resolve tf0 = some (tf, b1) ∧
      b1.count = b.count + (s.filter fun c => c ≠ 10).length ∧
      b1.cache.take b1.count =
        b.cache.take b.count ++ float_instances tf b.size b.code_uvs color s pos 0 ∧
      (∀ (c d : Nat) (gc gd : glyph) (uvc uvd : vec2), s = [c, 10, d] → c ≠ 10 → d ≠ 10 →
        tf.query c = some gc → tf.query d = some gd →
        b.code_uvs gc.codepoint = some uvc → b.code_uvs gd.codepoint = some uvd →
        b1.count = b.count + 2 ∧
        b1.cache.take b1.count = b.cache.take b.count ++
          [float_record b.size gc pos color uvc,
           float_record b.size gd
             ⟨f32.finite 0, f32.sub pos.y (f32.of_int (gc.advance_y >>> (6 : Nat))), pos.z⟩
             color uvd] ∧
        (∀ px py : Int, pos.x = f32.exact px → pos.y = f32.exact py →
          record_in_range b.size gc px py uvc →
          f32.small (gc.advance_y >>> (6 : Nat)) →
          record_in_range b.size gd 0 (py - (gc.advance_y >>> (6 : Nat))) uvd →
          b1.cache.take b1.count = b.cache.take b.count ++
            [spec_record b.size gc px py pos.z color uvc,
             spec_record b.size gd 0 (py - (gc.advance_y >>> (6 : Nat))) pos.z color uvd]))) ∧
    (∀ (s1 : List Nat) (c d : Nat) (gc gd : glyph) (st0 st1 : text_state),
      text_loop tf color s1 st0 = some st1 → c ≠ 10 → d ≠ 10 →
      tf.query c = some gc → tf.query d = some gd →
      text_loop tf color (s1 ++ [c, 10, d]) st0 =
        (st1.b.push gc st1.pos color).bind fun b2 =>
          (b2.push gd
              ⟨f32.finite 0, f32.sub st1.pos.y (f32.of_int (gc.advance_y >>> (6 : Nat))),
                st1.pos.z⟩ color).map
            fun b3 =>
              { pos := ⟨f32.add (f32.finite 0) (f32.of_int (gd.advance_x >>> (6 : Nat))),
                  f32.sub st1.pos.y (f32.of_int (gc.advance_y >>> (6 : Nat))), st1.pos.z⟩,
                advance_y := gd.advance_y, b := b3 }) := by
  constructor
  · obtain ⟨st1, h1, h2, h3, -, -, -, -, -⟩ :=
      text_loop_instances tf color s { pos := pos, advance_y := 0, b := b } hall hinv
    refine ⟨_, st1.b, by simp only [text_engine.text, hres, h1, Option.map_some'],
      resolve_store e tf0 tf b st1.b hres, h2, h3, ?_⟩
    intro c d gc gd uvc uvd hs hc hd hqc hqd huc hud
    have hrec : st1.b.cache.take st1.b.count = b.cache.take b.count ++
        [float_record b.size gc pos color uvc,
         float_record b.size gd
           ⟨f32.finite 0, f32.sub pos.y (f32.of_int (gc.advance_y >>> (6 : Nat))), pos.z⟩
           color uvd] := by
      rw [h3, hs]
      simp [float_instances, hc, hd, hqc, hqd, huc, hud]
    refine ⟨?_, hrec, ?_⟩
    · rw [h2, hs]
      simp [hc, hd]
    · intro px py hx hy hr1 hadv hr2
      rw [hrec]
      have hp : pos = ⟨f32.exact px, f32.exact py, pos.z⟩ := by
        cases pos
        simp only at hx hy
        rw [hx, hy]
      have hsub : f32.sub pos.y (f32.of_int (gc.advance_y >>> (6 : Nat))) =
          f32.exact (py - (gc.advance_y >>> (6 : Nat))) := by
        rw [hy]
        exact sub_of_int_exact _ _ hadv hr2.2.1
      rw [hsub]
      rw [← exact_zero, float_record_exact b.size gd 0 _ pos.z color uvd hr2]
      nth_rewrite 1 [hp]
      rw [float_record_exact b.size gc px py pos.z color uvc hr1]
  · intro s1 c d gc gd st0 st1 h1 hc hd hqc hqd
    rw [text_loop_append, h1]
    simp only [Option.some_bind, text_loop, text_step, hc, hd, if_false, if_true, hqc, hqd]
    cases st1.b.push gc st1.pos color with
    | none => rfl
    | some b2 =>
      simp only [Option.some_bind]
      cases b2.push gd
        ⟨f32.finite 0, f32.sub st1.pos.y (f32.of_int (gc.advance_y >>> (6 : Nat))),
          st1.pos.z⟩ color with
      | none => rfl
      | some b3 => rfl

theorem C9_text_instances_witness :
    ∃ e1 b1, ex_text_engine.text [65, 10, 66] ex_pos ex_color (ex_typeface 2 16 1 1) =
        some e1 ∧
      e1.resolve (ex_typeface 2 16 1 1) = some (ex_typeface 2 16 1 1, b1) ∧
      b1.count = 2 ∧
      b1.cache.take b1.count =
        [spec_record 13 (ex_glyph 65 1 1) 5 7 (f32.exact 0) ex_color ⟨0, 31⟩,
         spec_record 13 (ex_glyph 66 1 1) 0 (7 - 16) (f32.exact 0) ex_color ⟨0, 15⟩] := by
  obtain ⟨⟨e1, b1, h1, h2, -, -, h5⟩, -⟩ :=
    C9_text_instances ex_text_engine (ex_typeface 2 16 1 1) (ex_typeface 2 16 1 1)
      ex_text_batch [65, 10, 66] ex_pos ex_color rfl (by
        intro c hc hn
        simp only [List.mem_cons, List.mem_singleton, List.not_mem_nil, or_false] at hc
        rcases hc with h | h | h
        · exact ⟨ex_glyph 65 1 1, ⟨0, 31⟩, by rw [h]; rfl, rfl⟩
        · exact absurd h hn
        · exact ⟨ex_glyph 66 1 1, ⟨0, 15⟩, by rw [h]; rfl, rfl⟩) (by decide)
  obtain ⟨h6, -, h7⟩ := h5 65 66 (ex_glyph 65 1 1) (ex_glyph 66 1 1) ⟨0, 31⟩ ⟨0, 15⟩ rfl
    (by decide) (by decide) rfl rfl rfl rfl
  exact ⟨e1, b1, h1, h2, h6, h7 5 7 rfl rfl (by decide) (by decide) (by decide)⟩

/-! ## C10: the record stored by `push` -/

/-- C10 (counterexample): with `pos.x = 16777216` and `bearing_left = 1` the record stored
by `begin(); text("A", pos, color); end();` has `x = 16777216`, not
`pos.x + bearing_left = 16777217`: the `float` sum is rounded. -/
theorem C10_position_is_rounded :
    (ex_glyph 65 1 1).bearing_left = 1 ∧
    ((ex_text_engine.begin.text [65] ⟨f32.exact 16777216, f32.exact 7, f32.exact 0⟩ ex_color
        (ex_typeface 2 16 1 1)).bind fun e1 =>
      ((e1.end_).1.resolve (ex_typeface 2 16 1 1)).map fun p =>
        (p.2.count, p.2.cache.map fun r => r.position.x)) =
      some (1, [f32.exact 16777216]) ∧
    f32.exact 16777216 ≠ f32.exact (16777216 + (ex_glyph 65 1 1).bearing_left) := by
  refine ⟨by decide, by decide, by decide⟩

/-- C10 (amended): after `begin(); text("A", pos, color); end();` the batch of the resolved
typeface has `count = 1` and its first cache record has the position
`(float(bearing_left) + pos.x, -(float(bitmap_height) - float(bearing_top) - pos.y) -
float(batch.size), pos.z)` computed in binary32, the size
`(float(bitmap width), float(bitmap height))`, the UV entry of `A` as floats and the given
colour; when `pos.x` and `pos.y` are integers and the operands and intermediate values have
magnitude at most `2^24`, the position is exactly
`(pos.x + bearing_left, pos.y + bearing_top - bitmap_height - batch.size, pos.z)`.  `push`
on any batch with `count ≤ cache length` stores this record at index `count` for any glyph
whose code point is in the map. -/
theorem C10_text_single_glyph (e : text_engine) (tf0 tf : typeface) (b : batch) (pos : vec3)
    (color : vec4) (gh : glyph) (uv : vec2)
    (hres : e.resolve tf0 = some (tf, b)) (hq : tf.query 65 = some gh)
    (hcode : gh.codepoint = 65) (huv : b.code_uvs 65 = some uv) :
    (∃ e1 b1, e.begin.text [65] pos color tf0 = some e1 ∧
      (e1.end_).1.resolve tf0 = some (tf, b1) ∧ b1.count = 1 ∧
      b1.cache[0]? = some
        { color := color,
          size := ⟨f32.of_int (gh.bitmap.width : Int), f32.of_int (gh.bitmap.height : Int)⟩,
          uv_offset := ⟨f32.of_int uv.x, f32.of_int uv.y⟩,
          position := ⟨f32.add (f32.of_int gh.bearing_left) pos.x,
            f32.sub (f32.neg (f32.sub
              (f32.sub (f32.of_int (gh.bitmap.height : Int)) (f32.of_int gh.bearing_top))
              pos.y)) (f32.of_int (b.size : Int)), pos.z⟩ } ∧
      (∀ px py : Int, pos.x = f32.exact px → pos.y = f32.exact py →
        record_in_range b.size gh px py uv →
        b1.cache[0]? = some
          { color := color,
            size := ⟨f32.exact (gh.bitmap.width : Int), f32.exact (gh.bitmap.height : Int)⟩,
            uv_offset := ⟨f32.exact uv.x, f32.exact uv.y⟩,
            position := ⟨f32.exact (px + gh.bearing_left),
              f32.exact (py + gh.bearing_top - (gh.bitmap.height : Int) - (b.size : Int)),
              pos.z⟩ })) ∧
    (∀ (b2 : batch) (g2 : glyph) (p2 : vec3) (c2 : vec4) (uv2 : vec2),
      b2.code_uvs g2.codepoint = some uv2 → b2.count ≤ b2.cache.length →
      ∃ b3, b2.push g2 p2 c2 = some b3 ∧ b3.count = b2.count + 1 ∧
        b3.cache[b2.count]? = some
          { color := c2,
            size := ⟨f32.of_int (g2.bitmap.width : Int), f32.of_int (g2.bitmap.height : Int)⟩,
            uv_offset := ⟨f32.of_int uv2.x, f32.of_int uv2.y⟩,
            position := ⟨f32.add (f32.of_int g2.bearing_left) p2.x,
              f32.sub (f32.neg (f32.sub
                (f32.sub (f32.of_int (g2.bitmap.height : Int)) (f32.of_int g2.bearing_top))
                p2.y)) (f32.of_int (b2.size : Int)), p2.z⟩ } ∧
        (∀ px py : Int, p2.x = f32.exact px → p2.y = f32.exact py →
          record_in_range b2.size g2 px py uv2 →
          b3.cache[b2.count]? = some
            { color := c2,
              size := ⟨f32.exact (g2.bitmap.width : Int), f32.exact (g2.bitmap.height : Int)⟩,
              uv_offset := ⟨f32.exact uv2.x, f32.exact uv2.y⟩,
              position := ⟨f32.exact (px + g2.bearing_left),
                f32.exact (py + g2.bearing_top - (g2.bitmap.height : Int) - (b2.size : Int)),
                p2.z⟩ })) := by
  have hpush : ∀ (b2 : batch) (g2 : glyph) (p2 : vec3) (c2 : vec4) (uv2 : vec2),
      b2.code_uvs g2.codepoint = some uv2 → b2.count ≤ b2.cache.length →
      ∃ b3, b2.push g2 p2 c2 = some b3 ∧ b3.count = b2.count + 1 ∧
        b3.cache[b2.count]? = some (float_record b2.size g2 p2 c2 uv2) ∧
        (∀ px py : Int, p2.x = f32.exact px → p2.y = f32.exact py →
          record_in_range b2.size g2 px py uv2 →
          b3.cache[b2.count]? = some (spec_record b2.size g2 px py p2.z c2 uv2)) := by
    intro b2 g2 p2 c2 uv2 h1 h2
    obtain ⟨b3, h3, h4, h5, -⟩ := push_some b2 g2 p2 c2 uv2 h1 h2
    have h6 : (b3.cache.take (b2.count + 1))[b2.count]? =
        (b2.cache.take b2.count ++ [float_record b2.size g2 p2 c2 uv2])[b2.count]? := by
      rw [h5]
    rw [List.getElem?_take, if_pos (Nat.lt_succ_self _)] at h6
    have h7 : b3.cache[b2.count]? = some (float_record b2.size g2 p2 c2 uv2) := by
      rw [h6, List.getElem?_append_right (by simp)]
      simp [Nat.min_eq_left h2]
    refine ⟨b3, h3, h4, h7, ?_⟩
    intro px py hx hy hr
    rw [h7, ← float_record_exact b2.size g2 px py p2.z c2 uv2 hr]
    cases p2
    simp only at hx hy
    rw [hx, hy]
  refine ⟨?_, hpush⟩
  have hres2 : e.begin.resolve tf0 = some (tf, { b with count := 0 }) := by
    rw [begin_resolve, hres]
    rfl
  obtain ⟨b3, h3, h4, h5, h6⟩ := hpush { b with count := 0 } gh pos color uv
    (by rw [hcode]; exact huv) (Nat.zero_le _)
  have hloop : text_loop tf color [65] { pos := pos, advance_y := 0, b := { b with count := 0 } } =
      some { pos := ⟨f32.add pos.x (f32.of_int (gh.advance_x >>> (6 : Nat))), pos.y, pos.z⟩,
             advance_y := gh.advance_y, b := b3 } := by
    simp [text_loop, text_step, hq, h3]
  have htext : e.begin.text [65] pos color tf0 =
      some { e.begin with m_batches := store_batch tf b3 e.begin.m_batches } := by
    simp only [text_engine.text, hres2, hloop, Option.map_some']
  exact ⟨_, b3, htext, resolve_store e.begin tf0 tf _ b3 hres2, h4, h5, h6⟩

theorem C10_text_single_glyph_witness :
    ∃ e1 b1, ex_text_engine.begin.text [65] ex_pos ex_color (ex_typeface 2 16 1 1) =
        some e1 ∧
      (e1.end_).1.resolve (ex_typeface 2 16 1 1) = some (ex_typeface 2 16 1 1, b1) ∧
      b1.count = 1 ∧
      b1.cache[0]? = some
        { color := ex_color,
          size := ⟨f32.exact 1, f32.exact 1⟩,
          uv_offset := ⟨f32.exact 0, f32.exact 31⟩,
          position := ⟨f32.exact 6, f32.exact 2, f32.exact 0⟩ } := by
  obtain ⟨⟨e1, b1, h1, h2, h3, -, h5⟩, -⟩ :=
    C10_text_single_glyph ex_text_engine (ex_typeface 2 16 1 1) (ex_typeface 2 16 1 1)
      ex_text_batch ex_pos ex_color (ex_glyph 65 1 1) ⟨0, 31⟩ rfl rfl rfl rfl
  exact ⟨e1, b1, h1, h2, h3, h5 5 7 rfl rfl (by decide)⟩

/-! ## Lemmas on `end` and on the batch map -/

theorem end_batch_of_zero (tf : typeface) (b : batch) (h : b.count = 0) : end_batch tf b = [] := by
  simp [end_batch, h]

theorem end_batch_draw (tf : typeface) (b : batch) (h : b.count ≠ 0)
    (hm : tf.mode ≠ text_render_mode.subpixel) :
    end_batch tf b =
      [gpu_cmd.buffer_resize tf.id b.count, gpu_cmd.buffer_sub tf.id (b.cache.take b.count),
        gpu_cmd.draw_instanced tf.id b.count] := by
  simp [end_batch, h, hm]

theorem end_batch_subpixel (tf : typeface) (b : batch) (h : b.count ≠ 0)
    (hm : tf.mode = text_render_mode.subpixel) :
    end_batch tf b =
      [gpu_cmd.buffer_resize tf.id b.count, gpu_cmd.buffer_sub tf.id (b.cache.take b.count)] := by
  simp [end_batch, h, hm]

theorem flatMap_end_batch_zero (l : List (typeface × batch)) (h : ∀ p ∈ l, p.2.count = 0) :
    (l.flatMap fun p => end_batch p.1 p.2) = [] := by
  induction l with
  | nil => rfl
  | cons p rest ih =>
    rw [List.flatMap_cons, end_batch_of_zero p.1 p.2 (h p (List.mem_cons_self _ _)),
      ih (fun q hq => h q (List.mem_cons_of_mem _ hq))]
    rfl

theorem store_batch_length (tf : typeface) (b : batch) (l : List (typeface × batch)) :
    (store_batch tf b l).length = l.length := by
  induction l with
  | nil => rfl
  | cons r rest ih =>
    unfold store_batch
    split
    · simp
    · simp [ih]

theorem store_batch_other (tf : typeface) (b : batch) (l : List (typeface × batch)) :
    ∀ (i : Nat) (p : typeface × batch), l[i]? = some p → p.1.id ≠ tf.id →
      (store_batch tf b l)[i]? = some p := by
  induction l with
  | nil => intro i p h; simp at h
  | cons r rest ih =>
    intro i p h hne
    unfold store_batch
    cases i with
    | zero =>
      simp only [List.getElem?_cons_zero, Option.some.injEq] at h
      subst h
      simp [hne]
    | succ j =>
      simp only [List.getElem?_cons_succ] at h
      split
      · simpa using h
      · simpa using ih j p h hne

theorem find_store_batch_other (tf : typeface) (b : batch) (x : Nat) (hx : x ≠ tf.id)
    (l : List (typeface × batch)) :
    (store_batch tf b l).find? (fun r => r.1.id == x) = l.find? (fun r => r.1.id == x) := by
  induction l with
  | nil => rfl
  | cons r rest ih =>
    unfold store_batch
    cases hrt : (r.1.id == tf.id) with
    | true =>
      have h1 : r.1.id = tf.id := by simpa using hrt
      have h2 : (tf.id == x) = false := by simpa using Ne.symm hx
      have h3 : (r.1.id == x) = false := by rw [h1]; exact h2
      simp only [if_true]
      rw [List.find?_cons, List.find?_cons]
      simp only [h2, h3]
    | false =>
      simp only [Bool.false_eq_true, if_false]
      rw [List.find?_cons, List.find?_cons, ih]

/-! ## C11: an empty frame -/

/-- C11: for every engine state, `begin()` followed at once by `end()` issues no command to
the graphics layer: no buffer resize, no upload and no draw call. -/
theorem C11_empty_frame_is_silent (e : text_engine) :
    (e.begin.end_).2 = [] ∧
    ((e.begin.end_).2.filter gpu_cmd.is_upload).length = 0 ∧
    ((e.begin.end_).2.filter gpu_cmd.is_draw).length = 0 := by
  have h : (e.begin.end_).2 = [] := by
    unfold text_engine.end_ text_engine.begin
    apply flatMap_end_batch_zero
    intro p hp
    obtain ⟨q, -, rfl⟩ := List.mem_map.1 hp
    rfl
  rw [h]
  exact ⟨rfl, rfl, rfl⟩

/-! ## C12: `begin` -/

/-- C12: `begin()` keeps the font manager, the default typeface and the number and keys of the
batches, sets the count of every batch to zero and leaves the cache, the atlas, the UV
cursor, the code-to-UV map and the size of every batch unchanged. -/
theorem C12_begin_resets_counts (e : text_engine) :
    e.begin.m_manager = e.m_manager ∧ e.begin.m_typeface = e.m_typeface ∧
    e.begin.m_batches.length = e.m_batches.length ∧
    (∀ q ∈ e.begin.m_batches, q.2.count = 0) ∧
    (∀ (i : Nat) (p : typeface × batch), e.m_batches[i]? = some p →
      ∃ q, e.begin.m_batches[i]? = some q ∧ q.1 = p.1 ∧ q.2.count = 0 ∧
        q.2.cache = p.2.cache ∧ q.2.cache.length = p.2.cache.length ∧
        q.2.atlas = p.2.atlas ∧ q.2.uv = p.2.uv ∧ q.2.code_uvs = p.2.code_uvs ∧
        q.2.size = p.2.size) := by
  refine ⟨rfl, rfl, by simp [text_engine.begin], ?_, ?_⟩
  · intro q hq
    unfold text_engine.begin at hq
    obtain ⟨p, -, rfl⟩ := List.mem_map.1 hq
    rfl
  · intro i p hp
    refine ⟨(p.1, { p.2 with count := 0 }), ?_, rfl, rfl, rfl, rfl, rfl, rfl, rfl, rfl⟩
    unfold text_engine.begin
    simp [List.getElem?_map, hp]

/-! ## C13: the frame of `text` -/

theorem push_frame (b : batch) (gh : glyph) (pos : vec3) (color : vec4) (uv : vec2)
    (huv : b.code_uvs gh.codepoint = some uv) :
    ∃ b1, b.push gh pos color = some b1 ∧ b1.code_uvs = b.code_uvs ∧ b1.size = b.size ∧
      b1.atlas = b.atlas ∧ b1.uv = b.uv := by
  unfold batch.push
  rw [huv]
  simp only
  split
  · exact ⟨_, rfl, rfl, rfl, rfl, rfl⟩
  · exact ⟨_, rfl, rfl, rfl, rfl, rfl⟩

theorem text_loop_frame (tf : typeface) (color : vec4) (s : List Nat) :
    ∀ st : text_state,
      (∀ c ∈ s, c ≠ 10 → ∃ g uv, tf.query c = some g ∧ st.b.code_uvs g.codepoint = some uv) →
      ∃ st1, text_loop tf color s st = some st1 ∧ st1.b.code_uvs = st.b.code_uvs ∧
        st1.b.size = st.b.size ∧ st1.b.atlas = st.b.atlas ∧ st1.b.uv = st.b.uv := by
  induction s with
  | nil => intro st _; exact ⟨st, rfl, rfl, rfl, rfl, rfl⟩
  | cons c cs ih =>
    intro st hall
    by_cases hc : c = 10
    · subst hc
      obtain ⟨st1, h1, h2, h3, h4, h5⟩ :=
        ih { st with pos := ⟨f32.finite 0, f32.sub st.pos.y (f32.of_int (st.advance_y >>> (6 : Nat))), st.pos.z⟩ }
          (fun d hd => hall d (List.mem_cons_of_mem _ hd))
      exact ⟨st1, by simpa [text_loop, text_step] using h1, h2, h3, h4, h5⟩
    · obtain ⟨g, uv, hq, huv⟩ := hall c (List.mem_cons_self _ _) hc
      obtain ⟨b2, hp, hcu, hsz, hat, huv2⟩ := push_frame st.b g st.pos color uv huv
      obtain ⟨st1, h1, h2, h3, h4, h5⟩ :=
        ih { pos := ⟨f32.add st.pos.x (f32.of_int (g.advance_x >>> (6 : Nat))), st.pos.y, st.pos.z⟩,
             advance_y := g.advance_y, b := b2 } (by
          intro d hd hn
          rw [hcu]
          exact hall d (List.mem_cons_of_mem _ hd) hn)
      exact ⟨st1, by simp [text_loop, text_step, hc, hq, hp, h1], by rw [h2, hcu],
        by rw [h3, hsz], by rw [h4, hat], by rw [h5, huv2]⟩

/-- C13: `text` works on the selected batch only (that of the requested typeface, or of the
default one when the requested typeface has none).  When every code point of the string
other than the newline has a glyph with a UV entry in that batch, `text` succeeds, the
selected batch keeps its atlas, cursor, code-to-UV map and size, every batch stored under
another typeface is exactly as before (count and cache included), and the font manager,
the default typeface and the number of batches are unchanged. -/
theorem C13_text_touches_one_batch (e : text_engine) (tf0 tf : typeface) (b : batch)
    (s : List Nat) (pos : vec3) (color : vec4)
    (hres : e.resolve tf0 = some (tf, b))
    (hall : ∀ c ∈ s, c ≠ 10 → ∃ g uv, tf.query c = some g ∧ b.code_uvs g.codepoint = some uv) :
    ∃ e1 b1, e.text s pos color tf0 = some e1 ∧ e1.resolve tf0 = some (tf, b1) ∧
      b1.atlas = b.atlas ∧ b1.uv = b.uv ∧ b1.code_uvs = b.code_uvs ∧ b1.size = b.size ∧
      e1.m_manager = e.m_manager ∧ e1.m_typeface = e.m_typeface ∧
      e1.m_batches.length = e.m_batches.length ∧
      (∀ (i : Nat) (p : typeface × batch), e.m_batches[i]? = some p → p.1.id ≠ tf.id →
        e1.m_batches[i]? = some p) ∧
      (∀ tf2 : typeface, tf2.id ≠ tf.id → e1.find tf2 = e.find tf2) := by
  obtain ⟨st1, h1, h2, h3, h4, h5⟩ :=
    text_loop_frame tf color s { pos := pos, advance_y := 0, b := b } hall
  have htext : e.text s pos color tf0 =
      some { e with m_batches := store_batch tf st1.b e.m_batches } := by
    simp only [text_engine.text, hres, h1, Option.map_some']
  refine ⟨_, st1.b, htext, resolve_store e tf0 tf b st1.b hres, h4, h5, h2, h3, rfl, rfl,
    store_batch_length tf st1.b e.m_batches, ?_, ?_⟩
  · intro i p hp hne
    exact store_batch_other tf st1.b e.m_batches i p hp hne
  · intro tf2 hne
    unfold text_engine.find
    exact find_store_batch_other tf st1.b tf2.id hne e.m_batches

theorem C13_text_touches_one_batch_witness :
    ∃ e1 b1, ex_engine_two.text [65, 10, 160] ex_pos ex_color ex_typeface_space = some e1 ∧
      e1.resolve ex_typeface_space = some (ex_typeface_space, b1) ∧
      b1.atlas = ex_space_batch.atlas ∧ b1.uv = ex_space_batch.uv ∧
      b1.code_uvs = ex_space_batch.code_uvs ∧ b1.size = ex_space_batch.size ∧
      e1.m_batches.length = 2 ∧
      e1.m_batches[0]? = some (ex_typeface 2 16 1 1, ex_used_batch) ∧
      e1.find (ex_typeface 2 16 1 1) = some (ex_typeface 2 16 1 1, ex_used_batch) ∧
      ex_used_batch.count = 1 ∧ ex_used_batch.cache.length = 2 := by
  obtain ⟨e1, b1, h1, h2, h3, h4, h5, h6, -, -, h9, h10, h11⟩ :=
    C13_text_touches_one_batch ex_engine_two ex_typeface_space ex_typeface_space
      ex_space_batch [65, 10, 160] ex_pos ex_color rfl (by
        intro c hc hn
        simp only [List.mem_cons, List.mem_singleton, List.not_mem_nil, or_false] at hc
        rcases hc with h | h | h
        · exact ⟨ex_glyph 65 16 16, ⟨0, 31⟩, by rw [h]; rfl, rfl⟩
        · exact absurd h hn
        · exact ⟨ex_glyph 160 0 0, ⟨16, 31⟩, by rw [h]; rfl, rfl⟩)
  exact ⟨e1, b1, h1, h2, h3, h4, h5, h6, h9,
    h10 0 (ex_typeface 2 16 1 1, ex_used_batch) rfl (by decide),
    (h11 (ex_typeface 2 16 1 1) (by decide)).trans rfl, rfl, rfl⟩

/-! ## C14: fallback to the default typeface -/

/-- C14: for a typeface without a batch, when the default typeface has one, `calc_size` and
`text` resolve to the batch of the default typeface: they return what they return for the
default typeface, `calc_size` being the size computed with the default typeface. -/
theorem C14_unknown_typeface_falls_back (e : text_engine) (tf : typeface)
    (p : typeface × batch) (hnone : e.find tf = none) (hdef : e.find e.m_typeface = some p) :
    e.resolve tf = some p ∧ e.resolve e.m_typeface = some p ∧
    (∀ s : List Nat, e.calc_size s tf = e.calc_size s e.m_typeface ∧
      e.calc_size s tf = calc_size_on p.1 s) ∧
    (∀ (s : List Nat) (pos : vec3) (color : vec4),
      e.text s pos color tf = e.text s pos color e.m_typeface) := by
  have h1 : e.resolve tf = some p := by
    simp only [text_engine.resolve, hnone]
    exact hdef
  have h2 : e.resolve e.m_typeface = some p := by
    simp only [text_engine.resolve, hdef]
  refine ⟨h1, h2, ?_, ?_⟩
  · intro s
    simp only [text_engine.calc_size, h1, h2, and_self]
  · intro s pos color
    simp only [text_engine.text, h1, h2]

theorem C14_unknown_typeface_falls_back_witness :
    ex_text_engine.resolve ex_typeface_space = some (ex_typeface 2 16 1 1, ex_text_batch) ∧
    ex_text_engine.resolve ex_text_engine.m_typeface =
      some (ex_typeface 2 16 1 1, ex_text_batch) ∧
    (∀ s : List Nat, ex_text_engine.calc_size s ex_typeface_space =
        ex_text_engine.calc_size s ex_text_engine.m_typeface ∧
      ex_text_engine.calc_size s ex_typeface_space =
        calc_size_on (ex_typeface 2 16 1 1, ex_text_batch).1 s) ∧
    (∀ (s : List Nat) (pos : vec3) (color : vec4),
      ex_text_engine.text s pos color ex_typeface_space =
        ex_text_engine.text s pos color ex_text_engine.m_typeface) :=
  C14_unknown_typeface_falls_back ex_text_engine ex_typeface_space
    (ex_typeface 2 16 1 1, ex_text_batch) rfl rfl

/-! ## C15: `push` and the cache -/

/-- C15: for a batch with `cache length ≥ count` and a glyph whose code point is in the
code-to-UV map, `push` succeeds, increments `count` by one, writes the new record at index
`count`, leaves the records below `count` unchanged, grows the cache by one exactly when
`count` equals the cache length, and keeps `cache length ≥ count`. -/
theorem C15_push_appends (b : batch) (gh : glyph) (pos : vec3) (color : vec4) (uv : vec2)
    (huv : b.code_uvs gh.codepoint = some uv) (hinv : b.count ≤ b.cache.length) :
    ∃ b1, b.push gh pos color = some b1 ∧ b1.count = b.count + 1 ∧
      b1.cache[b.count]? = some (b.character gh pos color uv) ∧
      (∀ i, i < b.count → b1.cache[i]? = b.cache[i]?) ∧
      (b.count = b.cache.length → b1.cache.length = b.cache.length + 1) ∧
      (b.count < b.cache.length → b1.cache.length = b.cache.length) ∧
      b1.count ≤ b1.cache.length := by
  unfold batch.push
  rw [huv]
  simp only
  by_cases hlt : b.count < b.cache.length
  · rw [if_pos hlt]
    refine ⟨_, rfl, rfl, ?_, ?_, ?_, ?_, ?_⟩
    · simp only
      exact List.getElem?_set_self hlt
    · intro i hi
      simp only
      exact List.getElem?_set_ne (by omega)
    · intro h
      omega
    · intro _
      simp
    · simp only [List.length_set]
      omega
  · rw [if_neg hlt]
    have heq : b.count = b.cache.length := by omega
    refine ⟨_, rfl, rfl, ?_, ?_, ?_, ?_, ?_⟩
    · simp only
      rw [heq, List.getElem?_append_right (le_refl _)]
      simp
    · intro i hi
      simp only
      rw [List.getElem?_append_left (by omega)]
    · intro _
      simp
    · intro h
      omega
    · simp only [List.length_append, List.length_singleton]
      omega

theorem C15_push_appends_witness :
    ∃ b1, ex_text_batch.push (ex_glyph 65 1 1) ex_pos ex_color = some b1 ∧
      b1.count = ex_text_batch.count + 1 ∧
      b1.cache[ex_text_batch.count]? =
        some (ex_text_batch.character (ex_glyph 65 1 1) ex_pos ex_color ⟨0, 31⟩) ∧
      (∀ i, i < ex_text_batch.count → b1.cache[i]? = ex_text_batch.cache[i]?) ∧
      (ex_text_batch.count = ex_text_batch.cache.length →
        b1.cache.length = ex_text_batch.cache.length + 1) ∧
      (ex_text_batch.count < ex_text_batch.cache.length →
        b1.cache.length = ex_text_batch.cache.length) ∧
      b1.count ≤ b1.cache.length :=
  C15_push_appends ex_text_batch (ex_glyph 65 1 1) ex_pos ex_color ⟨0, 31⟩ rfl
    (by decide)

/-! ## C16: `end` -/

theorem filter_end_batch_upload (tf : typeface) (b : batch) :
    ((end_batch tf b).filter gpu_cmd.is_upload).length = if b.count = 0 then 0 else 2 := by
  unfold end_batch
  by_cases h : b.count = 0
  · simp [h]
  · by_cases hm : tf.mode = text_render_mode.subpixel
    · simp [h, hm, gpu_cmd.is_upload]
    · simp [h, hm, gpu_cmd.is_upload]

theorem filter_end_batch_draw (tf : typeface) (b : batch) :
    ((end_batch tf b).filter gpu_cmd.is_draw).length =
      if b.count ≠ 0 ∧ tf.mode ≠ text_render_mode.subpixel then 1 else 0 := by
  unfold end_batch
  by_cases h : b.count = 0
  · simp [h]
  · by_cases hm : tf.mode = text_render_mode.subpixel
    · simp [h, hm, gpu_cmd.is_draw]
    · simp [h, hm, gpu_cmd.is_draw]

/-- C16: `end()` leaves the engine (every count and cache) as it is and issues, batch by
batch in map order, the following commands: nothing for a batch with `count = 0`; for a
batch with `count > 0` a resize of the instance buffer to `count` records and an upload of
the first `count` cache records, followed by one instanced draw of `count` instances unless
the typeface is in subpixel mode, in which case no draw is issued.  So the uploads number
two per non-empty batch and the draws one per non-empty batch that is not subpixel. -/
theorem C16_end_commands (e : text_engine) :
    (e.end_).1 = e ∧
    (e.end_).2 = (e.m_batches.map fun p => end_batch p.1 p.2).flatten ∧
    (∀ (tf : typeface) (b : batch),
      (b.count = 0 → end_batch tf b = []) ∧
      (0 < b.count → tf.mode ≠ text_render_mode.subpixel →
        end_batch tf b =
          [gpu_cmd.buffer_resize tf.id b.count, gpu_cmd.buffer_sub tf.id (b.cache.take b.count),
            gpu_cmd.draw_instanced tf.id b.count]) ∧
      (0 < b.count → tf.mode = text_render_mode.subpixel →
        end_batch tf b =
          [gpu_cmd.buffer_resize tf.id b.count,
            gpu_cmd.buffer_sub tf.id (b.cache.take b.count)])) ∧
    ((e.end_).2.filter gpu_cmd.is_upload).length =
      2 * (e.m_batches.filter fun p => decide (p.2.count ≠ 0)).length ∧
    ((e.end_).2.filter gpu_cmd.is_draw).length =
      (e.m_batches.filter fun p =>
        decide (p.2.count ≠ 0 ∧ p.1.mode ≠ text_render_mode.subpixel)).length := by
  refine ⟨rfl, ?_, ?_, ?_, ?_⟩
  · simp [text_engine.end_, List.flatMap]
  · intro tf b
    exact ⟨end_batch_of_zero tf b, fun h hm => end_batch_draw tf b (by omega) hm,
      fun h hm => end_batch_subpixel tf b (by omega) hm⟩
  · unfold text_engine.end_
    simp only
    induction e.m_batches with
    | nil => rfl
    | cons p rest ih =>
      rw [List.flatMap_cons, List.filter_append, List.length_append, ih,
        filter_end_batch_upload, List.filter_cons]
      by_cases h : p.2.count = 0
      · simp [h]
      · simp [h]
        omega
  · unfold text_engine.end_
    simp only
    induction e.m_batches with
    | nil => rfl
    | cons p rest ih =>
      rw [List.flatMap_cons, List.filter_append, List.length_append, ih,
        filter_end_batch_draw, List.filter_cons]
      by_cases h : p.2.count ≠ 0 ∧ p.1.mode ≠ text_render_mode.subpixel
      · simp [h]
        omega
      · simp [h]

/-! ## C17: the pixels written by `insert_atlas` -/

theorem usize_natCast (n : Nat) (h : n < 2 ^ 64) : usize (n : Int) = n := by
  unfold usize
  omega

theorem atlas_writes_eq (bm : image) (xn yn : Nat) (hx : xn + bm.width < 2 ^ 64)
    (hy : bm.height ≤ yn + 1) (hy64 : yn < 2 ^ 64) :
    atlas_writes bm ⟨xn, yn⟩ =
      (List.range bm.height).flatMap fun (i : Nat) =>
        (List.range bm.width).map fun (j : Nat) => (xn + j, yn - i, bm.pixel j i) := by
  unfold atlas_writes
  apply List.flatMap_congr
  intro i hi
  apply List.map_congr_left
  intro j hj
  have hi2 : i < bm.height := List.mem_range.1 hi
  have hj2 : j < bm.width := List.mem_range.1 hj
  simp only
  rw [usize_natCast xn (by omega), usize_natCast yn hy64]
  have e1 : ((xn : Int) + (j : Int)) = ((xn + j : Nat) : Int) := by push_cast; ring
  have e2 : ((yn : Int) - (i : Int)) = ((yn - i : Nat) : Int) := by omega
  rw [e1, e2, usize_natCast _ (by omega), usize_natCast _ (by omega)]

theorem set_data_inside (a : image) (x y v : Nat) (hx : x < a.width) (hy : y < a.height)
    (p q : Nat) :
    (a.set x y v).data p q = if p = x ∧ q = y then v else a.data p q := by
  unfold image.set
  rw [if_pos ⟨hx, hy⟩]

theorem foldl_set_spec (ws : List (Nat × Nat × Nat)) :
    ∀ a : image, (∀ w ∈ ws, w.1 < a.width ∧ w.2.1 < a.height) →
      (ws.map fun w => (w.1, w.2.1)).Nodup →
      ∀ p q : Nat,
        (∀ v, (p, q, v) ∈ ws →
          (ws.foldl (fun a w => a.set w.1 w.2.1 w.2.2) a).data p q = v) ∧
        ((p, q) ∉ (ws.map fun w => (w.1, w.2.1)) →
          (ws.foldl (fun a w => a.set w.1 w.2.1 w.2.2) a).data p q = a.data p q) := by
  induction ws with
  | nil =>
    intro a _ _ p q
    exact ⟨fun v hv => absurd hv (List.not_mem_nil _), fun _ => rfl⟩
  | cons w rest ih =>
    intro a hin hnd p q
    have hw := hin w (List.mem_cons_self _ _)
    have hd := set_dims a w.1 w.2.1 w.2.2
    have hin2 : ∀ u ∈ rest, u.1 < (a.set w.1 w.2.1 w.2.2).width ∧
        u.2.1 < (a.set w.1 w.2.1 w.2.2).height := by
      intro u hu
      rw [hd.1, hd.2.1]
      exact hin u (List.mem_cons_of_mem _ hu)
    simp only [List.map_cons, List.nodup_cons] at hnd
    have hrec := ih (a.set w.1 w.2.1 w.2.2) hin2 hnd.2 p q
    simp only [List.foldl_cons]
    constructor
    · intro v hv
      rcases List.mem_cons.1 hv with hvw | hvr
      · have hnot : (p, q) ∉ rest.map fun u => (u.1, u.2.1) := by
          rw [← hvw] at hnd
          exact hnd.1
        rw [hrec.2 hnot, set_data_inside a _ _ _ hw.1 hw.2, ← hvw]
        simp
      · exact hrec.1 v hvr
    · intro hnot
      simp only [List.map_cons, List.mem_cons, not_or] at hnot
      rw [hrec.2 hnot.2, set_data_inside a _ _ _ hw.1 hw.2]
      have hne : ¬ (p = w.1 ∧ q = w.2.1) := by
        intro h
        apply hnot.1
        rw [h.1, h.2]
      rw [if_neg hne]

theorem glyph_targets_nodup (w h xn yn : Nat) (hy : h ≤ yn + 1) :
    ((List.range h).flatMap fun (i : Nat) =>
      (List.range w).map fun (j : Nat) => (xn + j, yn - i)).Nodup := by
  rw [List.nodup_flatMap]
  constructor
  · intro i _
    apply List.Nodup.map_on _ (List.nodup_range w)
    intro j1 _ j2 _ heq
    simp only [Prod.mk.injEq] at heq
    omega
  · have hp : List.Pairwise (fun a b : Nat => a ≠ b) (List.range h) := List.nodup_range h
    refine List.Pairwise.imp_of_mem ?_ hp
    intro i1 i2 h1 h2 hne
    have h1b : i1 < h := List.mem_range.1 h1
    have h2b : i2 < h := List.mem_range.1 h2
    intro t ht1 ht2
    obtain ⟨j1, -, e1⟩ := List.mem_map.1 ht1
    obtain ⟨j2, -, e2⟩ := List.mem_map.1 ht2
    rw [← e2] at e1
    simp only [Prod.mk.injEq] at e1
    omega

/-- C17: for a glyph with a `w × h` bitmap inserted at a cursor `(x, y)` where the bitmap
lies inside the atlas (`x + w ≤ width`, `y < height`, `h ≤ y + 1`), `insert_atlas` succeeds;
afterwards the atlas pixel at `(x + j, y - i)` is the bitmap pixel `(j, i)` for all `j < w`,
`i < h`, every atlas pixel outside that rectangle is unchanged, the atlas keeps its
dimensions, and the code-to-UV map sends the code point of the glyph to `(x, y - (h - 1))`
and is unchanged at every other code point. -/
theorem C17_insert_atlas_pixels (gh : glyph) (tf : typeface) (b : batch) (a : image)
    (xn yn : Nat) (ha : b.atlas = some a) (huv : b.uv = ⟨(xn : Int), (yn : Int)⟩)
    (hx : xn + gh.bitmap.width ≤ a.width) (hyh : yn < a.height)
    (hy : gh.bitmap.height ≤ yn + 1) (hw64 : a.width < 2 ^ 64) (hh64 : a.height < 2 ^ 64) :
    ∃ b1 a1, insert_atlas gh tf b = some b1 ∧ b1.atlas = some a1 ∧
      a1.width = a.width ∧ a1.height = a.height ∧
      (∀ i j, i < gh.bitmap.height → j < gh.bitmap.width →
        a1.pixel (xn + j) (yn - i) = gh.bitmap.pixel j i) ∧
      (∀ p q, ¬ (xn ≤ p ∧ p < xn + gh.bitmap.width ∧ q ≤ yn ∧ yn < q + gh.bitmap.height) →
        a1.pixel p q = a.pixel p q) ∧
      b1.code_uvs gh.codepoint = some ⟨(xn : Int), (yn : Int) - ((gh.bitmap.height : Int) - 1)⟩ ∧
      (∀ c, c ≠ gh.codepoint → b1.code_uvs c = b.code_uvs c) := by
  have hweq := atlas_writes_eq gh.bitmap xn yn (by omega) hy (by omega)
  have hin : ∀ w ∈ atlas_writes gh.bitmap ⟨(xn : Int), (yn : Int)⟩,
      w.1 < a.width ∧ w.2.1 < a.height := by
    intro w hw
    rw [hweq] at hw
    obtain ⟨i, -, hw2⟩ := List.mem_flatMap.1 hw
    obtain ⟨j, hj, rfl⟩ := List.mem_map.1 hw2
    have hj2 : j < gh.bitmap.width := List.mem_range.1 hj
    simp only
    omega
  have hnd : ((atlas_writes gh.bitmap ⟨(xn : Int), (yn : Int)⟩).map
      fun w => (w.1, w.2.1)).Nodup := by
    rw [hweq, List.map_flatMap]
    simp only [List.map_map, Function.comp_def]
    exact glyph_targets_nodup gh.bitmap.width gh.bitmap.height xn yn hy
  have hspec := foldl_set_spec _ a hin hnd
  have hd := foldl_set_dims (atlas_writes gh.bitmap ⟨(xn : Int), (yn : Int)⟩) a
  simp only [insert_atlas, ha, huv]
  refine ⟨_, _, rfl, rfl, hd.1, hd.2.1, ?_, ?_, ?_, ?_⟩
  · intro i j hi hj
    apply (hspec (xn + j) (yn - i)).1
    rw [hweq]
    exact List.mem_flatMap.2 ⟨i, List.mem_range.2 hi,
      List.mem_map.2 ⟨j, List.mem_range.2 hj, rfl⟩⟩
  · intro p q hout
    apply (hspec p q).2
    intro hmem
    apply hout
    rw [hweq, List.map_flatMap] at hmem
    obtain ⟨i, hi, hm2⟩ := List.mem_flatMap.1 hmem
    simp only [List.map_map, Function.comp_def] at hm2
    obtain ⟨j, hj, heq⟩ := List.mem_map.1 hm2
    have hi2 : i < gh.bitmap.height := List.mem_range.1 hi
    have hj2 : j < gh.bitmap.width := List.mem_range.1 hj
    simp only [Prod.mk.injEq] at heq
    omega
  · simp [insert_or_assign]
  · intro c hc
    simp [insert_or_assign, hc]

theorem C17_insert_atlas_pixels_witness :
    ∃ b1 a1, insert_atlas (ex_glyph 65 13 13) (ex_typeface 4 13 13 13) ex_batch_mid = some b1 ∧
      b1.atlas = some a1 ∧
      a1.width = (make_image_u8 32 32 1).width ∧ a1.height = (make_image_u8 32 32 1).height ∧
      (∀ i j, i < (ex_glyph 65 13 13).bitmap.height → j < (ex_glyph 65 13 13).bitmap.width →
        a1.pixel (13 + j) (18 - i) = (ex_glyph 65 13 13).bitmap.pixel j i) ∧
      (∀ p q, ¬ (13 ≤ p ∧ p < 13 + (ex_glyph 65 13 13).bitmap.width ∧ q ≤ 18 ∧
          18 < q + (ex_glyph 65 13 13).bitmap.height) →
        a1.pixel p q = (make_image_u8 32 32 1).pixel p q) ∧
      b1.code_uvs (ex_glyph 65 13 13).codepoint =
        some ⟨((13 : Nat) : Int),
          ((18 : Nat) : Int) - (((ex_glyph 65 13 13).bitmap.height : Int) - 1)⟩ ∧
      (∀ c, c ≠ (ex_glyph 65 13 13).codepoint → b1.code_uvs c = ex_batch_mid.code_uvs c) :=
  C17_insert_atlas_pixels (ex_glyph 65 13 13) (ex_typeface 4 13 13 13) ex_batch_mid
    (make_image_u8 32 32 1) 13 18 rfl rfl (by decide) (by decide) (by decide) (by decide)
    (by decide)

/-! ## C18: the rows of the packing -/

theorem capacity_le_iff (W g n : Nat) (hg : 0 < g) :
    (W - g + (g - 1)) / g ≤ n ↔ W - g ≤ n * g := by
  rw [← Nat.lt_succ_iff, Nat.div_lt_iff_lt_mul hg, Nat.succ_mul]
  omega

theorem succ_div_mod (k r : Nat) (hr : 0 < r) :
    (k % r + 1 = r → (k + 1) % r = 0 ∧ (k + 1) / r = k / r + 1) ∧
    (k % r + 1 < r → (k + 1) % r = k % r + 1 ∧ (k + 1) / r = k / r) := by
  have h1 := Nat.div_add_mod k r
  constructor
  · intro h
    have := (Nat.div_mod_unique (a := k + 1) (d := k / r + 1) (c := 0) hr).2
      ⟨by rw [Nat.mul_add]; omega, hr⟩
    exact ⟨this.2, this.1⟩
  · intro h
    have := (Nat.div_mod_unique (a := k + 1) (d := k / r) (c := k % r + 1) hr).2
      ⟨by omega, h⟩
    exact ⟨this.2, this.1⟩

theorem row_capacity_pos (W g : Nat) : 0 < spec_row_capacity W g := by
  unfold spec_row_capacity
  omega

theorem wrap_iff (W g m : Nat) (hg : 0 < g) (hm : m < spec_row_capacity W g) :
    (((g * m : Nat) : Int) + (g : Int) ≥ (W : Int) - (g : Int)) ↔
      m + 1 = spec_row_capacity W g := by
  unfold spec_row_capacity at *
  have h1 := capacity_le_iff W g (m + 1) hg
  have h2 := capacity_le_iff W g m hg
  rw [Nat.succ_mul] at h1
  rw [Nat.mul_comm m g] at h1 h2
  constructor
  · intro h
    have h3 : W - g ≤ g * m + g := by omega
    have h4 := h1.2 h3
    omega
  · intro h
    have h4 : (W - g + (g - 1)) / g ≤ m + 1 := by omega
    have h3 := h1.1 h4
    omega

theorem below_last_column (W g m : Nat) (hg : 0 < g) (hm : m < spec_row_capacity W g)
    (h0 : m ≠ 0) : ((g * m : Nat) : Int) < (W : Int) - (g : Int) := by
  unfold spec_row_capacity at hm
  have h2 := capacity_le_iff W g m hg
  rw [Nat.mul_comm m g] at h2
  have h3 : ¬ (W - g + (g - 1)) / g ≤ m := by omega
  have h4 : ¬ W - g ≤ g * m := fun h => h3 (h2.2 h)
  omega

/-- Closed form of the cursor after a run of insertions from the reset cursor. -/
theorem insert_glyphs_closed_form (tf : typeface) (a : image) (top : Int)
    (hg : 0 < tf.glyph_size) (l : List (Nat × glyph)) :
    ∀ b : batch, b.atlas = some a → b.uv = ⟨0, top⟩ →
      ∃ b1 a1, insert_glyphs tf l b = some b1 ∧ b1.atlas = some a1 ∧ a1.width = a.width ∧
        b1.uv = ⟨((tf.glyph_size * (l.length % spec_row_capacity a.width tf.glyph_size) : Nat) :
            Int),
          top - ((tf.glyph_size * (l.length / spec_row_capacity a.width tf.glyph_size) : Nat) :
            Int)⟩ := by
  induction l using List.reverseRecOn with
  | nil =>
    intro b ha huv
    exact ⟨b, a, rfl, ha, rfl, by simp [huv]⟩
  | append_singleton l p ih =>
    intro b ha huv
    obtain ⟨bk, ak, hk, hak, hwk, huvk⟩ := ih b ha huv
    obtain ⟨b1, a1, h1, ha1, hw1, -, -, huv1, -⟩ := insert_atlas_some p.2 tf bk ak hak
    have hr := row_capacity_pos a.width tf.glyph_size
    have hm := Nat.mod_lt l.length hr
    have hsd := succ_div_mod l.length (spec_row_capacity a.width tf.glyph_size) hr
    have hwi := wrap_iff a.width tf.glyph_size _ hg hm
    refine ⟨b1, a1, ?_, ha1, by rw [hw1, hwk], ?_⟩
    · rw [insert_glyphs_append, hk]
      simp [insert_glyphs, h1]
    · rw [huv1, huvk, hwk]
      simp only [List.length_append, List.length_singleton]
      by_cases hlast : l.length % spec_row_capacity a.width tf.glyph_size + 1 =
          spec_row_capacity a.width tf.glyph_size
      · rw [if_pos (hwi.2 hlast), (hsd.1 hlast).1, (hsd.1 hlast).2]
        simp only [Nat.mul_zero, Nat.cast_zero, vec2.mk.injEq, true_and]
        rw [Nat.mul_add]
        push_cast
        ring
      · have hlt : l.length % spec_row_capacity a.width tf.glyph_size + 1 <
            spec_row_capacity a.width tf.glyph_size := by omega
        rw [if_neg (fun h => hlast (hwi.1 h)), (hsd.2 hlt).1, (hsd.2 hlt).2]
        simp only [vec2.mk.injEq, and_true]
        rw [Nat.mul_add]
        push_cast
        ring

/-- C18: starting from the reset cursor `(0, size - 1)` of an atlas of width `size`, after
any run of `k` insertions with `glyph_size > 0` the cursor is
`(glyph_size * (k mod r), size - 1 - glyph_size * floor(k / r))` with the row capacity
`r = max(1, ceil((size - glyph_size) / glyph_size))`; its `x` is a multiple of `glyph_size`
and is `0` or below `size - glyph_size`, so the rightmost column of a row is never used.
The same closed form gives the cursor of every glyph in `create_batch` on a fresh batch. -/
theorem C18_cursor_rows (tf : typeface) (b : batch) (a : image) (l : List (Nat × glyph))
    (ha : b.atlas = some a) (huv : b.uv = ⟨0, (a.width : Int) - 1⟩)
    (hg : 0 < tf.glyph_size) :
    (∃ b1, insert_glyphs tf l b = some b1 ∧
      b1.uv.x =
        ((tf.glyph_size * (l.length % spec_row_capacity a.width tf.glyph_size) : Nat) : Int) ∧
      (tf.glyph_size : Int) ∣ b1.uv.x ∧
      (b1.uv.x = 0 ∨ b1.uv.x < (a.width : Int) - (tf.glyph_size : Int)) ∧
      b1.uv.y = (a.width : Int) - 1 -
        ((tf.glyph_size * (l.length / spec_row_capacity a.width tf.glyph_size) : Nat) : Int)) ∧
    (∀ (b0 : batch) (k : Nat), b0.atlas = none → k ≤ tf.glyphs.length →
      ∃ bk, packing_state tf b0 k = some bk ∧
        bk.uv = ⟨((tf.glyph_size * (k % spec_row_capacity (atlas_size tf) tf.glyph_size) : Nat) :
            Int),
          (atlas_size tf : Int) - 1 -
            ((tf.glyph_size * (k / spec_row_capacity (atlas_size tf) tf.glyph_size) : Nat) :
              Int)⟩) := by
  constructor
  · obtain ⟨b1, a1, h1, -, -, h2⟩ :=
      insert_glyphs_closed_form tf a ((a.width : Int) - 1) hg l b ha huv
    have hr := row_capacity_pos a.width tf.glyph_size
    have hm := Nat.mod_lt l.length hr
    refine ⟨b1, h1, by rw [h2], ?_, ?_, by rw [h2]⟩
    · rw [h2]
      simp only
      push_cast
      exact dvd_mul_right _ _
    · rw [h2]
      simp only
      by_cases h0 : l.length % spec_row_capacity a.width tf.glyph_size = 0
      · left
        rw [h0]
        simp
      · right
        exact below_last_column a.width tf.glyph_size _ hg hm h0
  · intro b0 k hb0 hk
    have hfresh := resize_atlas_fresh tf { b0 with size := tf.size } (by simpa using hb0)
    obtain ⟨b1, a1, h1, -, -, h2⟩ :=
      insert_glyphs_closed_form tf
        (make_image_u8 (atlas_size tf) (atlas_size tf) tf.channels)
        ((atlas_size tf : Int) - 1) hg (tf.glyphs.take k)
        (resize_atlas tf { b0 with size := tf.size }) (by rw [hfresh]) (by rw [hfresh])
    have hlen : (tf.glyphs.take k).length = k := by
      rw [List.length_take]
      omega
    rw [hlen] at h2
    exact ⟨b1, h1, h2⟩

theorem C18_cursor_rows_witness :
    (∃ b1, insert_glyphs (ex_typeface 4 13 1 1) (ex_typeface 4 13 1 1).glyphs ex_batch = some b1 ∧
      b1.uv.x =
        (((ex_typeface 4 13 1 1).glyph_size * ((ex_typeface 4 13 1 1).glyphs.length %
          spec_row_capacity (make_image_u8 32 32 1).width (ex_typeface 4 13 1 1).glyph_size) :
            Nat) : Int) ∧
      ((ex_typeface 4 13 1 1).glyph_size : Int) ∣ b1.uv.x ∧
      (b1.uv.x = 0 ∨ b1.uv.x < ((make_image_u8 32 32 1).width : Int) -
        ((ex_typeface 4 13 1 1).glyph_size : Int)) ∧
      b1.uv.y = ((make_image_u8 32 32 1).width : Int) - 1 -
        (((ex_typeface 4 13 1 1).glyph_size * ((ex_typeface 4 13 1 1).glyphs.length /
          spec_row_capacity (make_image_u8 32 32 1).width (ex_typeface 4 13 1 1).glyph_size) :
            Nat) : Int)) ∧
    (∀ (b0 : batch) (k : Nat), b0.atlas = none → k ≤ (ex_typeface 4 13 1 1).glyphs.length →
      ∃ bk, packing_state (ex_typeface 4 13 1 1) b0 k = some bk ∧
        bk.uv = ⟨(((ex_typeface 4 13 1 1).glyph_size *
            (k % spec_row_capacity (atlas_size (ex_typeface 4 13 1 1))
              (ex_typeface 4 13 1 1).glyph_size) : Nat) : Int),
          (atlas_size (ex_typeface 4 13 1 1) : Int) - 1 -
            (((ex_typeface 4 13 1 1).glyph_size *
              (k / spec_row_capacity (atlas_size (ex_typeface 4 13 1 1))
                (ex_typeface 4 13 1 1).glyph_size) : Nat) : Int)⟩) :=
  C18_cursor_rows (ex_typeface 4 13 1 1) ex_batch (make_image_u8 32 32 1)
    (ex_typeface 4 13 1 1).glyphs rfl rfl (by decide)

/-! ## C19: horizontal layout of `text` and `calc_size` -/

theorem push_record (b : batch) (gh : glyph) (pos : vec3) (color : vec4) (uv : vec2)
    (huv : b.code_uvs gh.codepoint = some uv) (hinv : b.count ≤ b.cache.length) :
    ∃ b1, b.push gh pos color = some b1 ∧ b1.count = b.count + 1 ∧
      b1.cache[b.count]? = some (float_record b.size gh pos color uv) := by
  obtain ⟨b1, h1, h2, h3, -⟩ := push_some b gh pos color uv huv hinv
  refine ⟨b1, h1, h2, ?_⟩
  have h4 : (b1.cache.take (b.count + 1))[b.count]? =
      (b.cache.take b.count ++ [float_record b.size gh pos color uv])[b.count]? := by
    rw [h3]
  rw [List.getElem?_take, if_pos (Nat.lt_succ_self _)] at h4
  rw [h4, List.getElem?_append_right (by simp)]
  simp [Nat.min_eq_left hinv]

theorem exact_calc_loop_total (tf : typeface) (s : List Nat) :
    ∀ st : exact_size_state, (∀ c ∈ s, c ≠ 10 → ∃ g, tf.query c = some g) →
      ∃ st1, exact_calc_loop tf s st = some st1 := by
  induction s with
  | nil => intro st _; exact ⟨st, rfl⟩
  | cons c cs ih =>
    intro st hall
    have hall2 : ∀ d ∈ cs, d ≠ 10 → ∃ g, tf.query d = some g :=
      fun d hd => hall d (List.mem_cons_of_mem _ hd)
    simp only [exact_calc_loop]
    by_cases hc : c = 10
    · subst hc
      simp only [exact_calc_step, if_true, Option.some_bind]
      exact ih _ hall2
    · obtain ⟨g, hq⟩ := hall c (List.mem_cons_self _ _) hc
      simp only [exact_calc_step, hc, if_false, hq, Option.some_bind]
      exact ih _ hall2

theorem spec_lines_of_no_newline (s : List Nat) (h : ∀ d ∈ s, d ≠ 10) : spec_lines s = [s] := by
  induction s with
  | nil => rfl
  | cons c cs ih =>
    have hc : c ≠ 10 := h c (List.mem_cons_self _ _)
    simp [spec_lines, hc, ih (fun d hd => h d (List.mem_cons_of_mem _ hd))]

/-- C19 (counterexample): with `pos.x = 16777208` the instance of `B` in the string `AB`
has `x = 16777216`, although `pos.x + bearing_left(B) + (advance_x(A) >> 6)` is
`16777208 + 1 + 8 = 16777217`: the `float` sums are rounded. -/
theorem C19_pen_sum_is_rounded :
    spec_advance_x (ex_typeface 2 16 1 1) 65 = 8 ∧ (ex_glyph 66 1 1).bearing_left = 1 ∧
    ((ex_text_engine.text ([65] ++ [66]) ⟨f32.exact 16777208, f32.exact 7, f32.exact 0⟩
        ex_color (ex_typeface 2 16 1 1)).bind fun e1 =>
      (e1.resolve (ex_typeface 2 16 1 1)).bind fun p =>
        (p.2.cache[1]?).map fun r => r.position.x) = some (f32.exact 16777216) ∧
    f32.exact 16777216 ≠ f32.exact (16777208 + 1 + 8) := by
  refine ⟨by decide, by decide, by decide, by decide⟩

/-- C19 (amended): for a newline-free string `s` followed by a code point `c` (all with
glyphs and UV entries), `text` stores the instance of `c` at index `count + length s`, and
its `x` is the `float` sum of `float(bearing_left(c))` and the pen, the pen being `pos.x`
with the `float` advances `advance_x >> 6` of the glyphs of `s` added in order; when
`pos.x` is an integer and the advances, the partial sums of `pos.x` and the advances, the
bearing and the result have magnitude at most `2^24`, that `x` is exactly
`pos.x + bearing_left(c)` plus the sum of `advance_x >> 6` over the glyphs of `s`.  When the
advances of `s` are non-negative and their sum is at most `2^24`, that sum is the width
returned by `calc_size(s)`. -/
theorem C19_text_calc_size_agree (e : text_engine) (tf0 tf : typeface) (b : batch)
    (s : List Nat) (c : Nat) (gc : glyph) (pos : vec3) (color : vec4)
    (hres : e.resolve tf0 = some (tf, b))
    (hnl : ∀ d ∈ s, d ≠ 10) (hc : c ≠ 10) (hq : tf.query c = some gc)
    (hall : ∀ d ∈ s ++ [c], d ≠ 10 →
      ∃ g uv, tf.query d = some g ∧ b.code_uvs g.codepoint = some uv)
    (hinv : b.count ≤ b.cache.length) :
    (∃ e1 b1 r, e.text (s ++ [c]) pos color tf0 = some e1 ∧
      e1.resolve tf0 = some (tf, b1) ∧ b1.count = b.count + s.length + 1 ∧
      b1.cache[b.count + s.length]? = some r ∧
      r.position.x = f32.add (f32.of_int gc.bearing_left) (float_pen_x tf pos.x s) ∧
      (∀ px : Int, pos.x = f32.exact px →
        (∀ d ∈ s, f32.small (spec_advance_x tf d)) →
        (∀ k, k ≤ s.length → f32.small (px + ((s.take k).map (spec_advance_x tf)).sum)) →
        f32.small gc.bearing_left →
        f32.small (px + gc.bearing_left + (s.map (spec_advance_x tf)).sum) →
        r.position.x = f32.exact (px + gc.bearing_left + (s.map (spec_advance_x tf)).sum))) ∧
    ((∀ d ∈ s, ∀ g, tf.query d = some g → 0 ≤ g.advance_x) →
      (s.map (spec_advance_x tf)).sum ≤ 2 ^ 24 →
      (e.calc_size s tf0).map (fun v => v.x) =
        some (f32.exact ((s.map (spec_advance_x tf)).sum))) := by
  have halls : ∀ d ∈ s, d ≠ 10 →
      ∃ g uv, tf.query d = some g ∧ b.code_uvs g.codepoint = some uv :=
    fun d hd => hall d (List.mem_append_left _ hd)
  constructor
  · obtain ⟨st1, h1, h2, -, h4, h5, h6, -, -⟩ :=
      text_loop_instances tf color s { pos := pos, advance_y := 0, b := b } halls hinv
    obtain ⟨hx, -, -⟩ := text_loop_pen tf color s _ st1 hnl h1
    obtain ⟨g2, uv, hq2, huv⟩ := hall c (by simp) hc
    rw [hq] at hq2
    cases hq2
    have hfl : (s.filter fun d => d ≠ 10).length = s.length := by
      rw [List.filter_eq_self.2]
      intro d hd
      simpa using hnl d hd
    simp only at h2 h5 h6 hx
    rw [hfl] at h2
    obtain ⟨b2, hp, hcnt, hrec⟩ := push_record st1.b gc st1.pos color uv (by rw [h5]; exact huv) h4
    have hloop : text_loop tf color (s ++ [c]) { pos := pos, advance_y := 0, b := b } =
        some { pos := ⟨f32.add st1.pos.x (f32.of_int (gc.advance_x >>> (6 : Nat))), st1.pos.y,
                 st1.pos.z⟩,
               advance_y := gc.advance_y, b := b2 } := by
      rw [text_loop_append, h1]
      simp [text_loop, text_step, hc, hq, hp]
    have htext : e.text (s ++ [c]) pos color tf0 =
        some { e with m_batches := store_batch tf b2 e.m_batches } := by
      simp only [text_engine.text, hres, hloop, Option.map_some']
    have hrx : (float_record st1.b.size gc st1.pos color uv).position.x =
        f32.add (f32.of_int gc.bearing_left) (float_pen_x tf pos.x s) := by
      simp only [float_record]
      rw [hx]
    refine ⟨_, b2, float_record st1.b.size gc st1.pos color uv, htext,
      resolve_store e tf0 tf b b2 hres, by rw [hcnt, h2], ?_, hrx, ?_⟩
    · rw [← h2]
      exact hrec
    · intro px hpx hs hk hbl hsum
      rw [hrx, hpx, float_pen_x_exact tf s px hs hk, of_int_exact _ hbl]
      have e1 : gc.bearing_left + (px + (s.map (spec_advance_x tf)).sum) =
          px + gc.bearing_left + (s.map (spec_advance_x tf)).sum := by ring
      rw [add_exact _ _ (by rw [e1]; exact hsum), e1]
  · intro hnn hle
    have hav : ∀ d ∈ s, ∃ g, tf.query d = some g ∧ 0 ≤ g.advance_x := by
      intro d hd
      obtain ⟨g, -, hg, -⟩ := halls d hd (hnl d hd)
      exact ⟨g, hg, hnn d hd g hg⟩
    have havx : ∀ d ∈ s, d ≠ 10 → ∃ g, tf.query d = some g ∧ 0 ≤ g.advance_x :=
      fun d hd _ => hav d hd
    obtain ⟨st1, h1⟩ :=
      exact_calc_loop_total tf s { position := ⟨0, 0⟩, max := ⟨0, 0⟩, advance_y := 0 }
        (fun d hd _ => (hav d hd).imp fun g hg => hg.1)
    obtain ⟨hw, -⟩ := exact_calc_loop_width tf s _ st1 havx h1 (le_refl _) (le_refl _)
    have hsum : 0 ≤ spec_line_width tf s := by
      apply spec_line_width_nonneg
      intro d hd
      obtain ⟨g, hg, h0⟩ := hav d hd
      simp only [spec_advance_x, hg]
      exact shift_nonneg _ h0
    rw [spec_lines_of_no_newline s hnl] at hw
    simp only [lines_width_from, List.map_nil, List.foldr_nil, zero_add] at hw
    have hmx : st1.max.x = (s.map (spec_advance_x tf)).sum := by
      rw [hw]
      simp only [spec_line_width] at hsum ⊢
      omega
    have hok := exact_calc_ok_of_width tf s _ st1 hnl hav (le_refl _) (le_refl _) h1
      (by rw [hmx]; exact hle)
    have hloop := calc_loop_exact tf s _ hok
    rw [h1] at hloop
    have hinit : calc_size_on tf s =
        (calc_loop tf s (exact_size_state.to_float ⟨⟨0, 0⟩, ⟨0, 0⟩, 0⟩)).map calc_finish := rfl
    simp only [text_engine.calc_size, hres, hinit, hloop, Option.map_some', calc_finish_x,
      Option.some.injEq]
    simp only [exact_size_state.to_float, hmx]

theorem C19_text_calc_size_agree_witness :
    ∃ e1 b1 r, ex_text_engine.text ([65] ++ [66]) ex_pos ex_color (ex_typeface 2 16 1 1) =
        some e1 ∧
      e1.resolve (ex_typeface 2 16 1 1) = some (ex_typeface 2 16 1 1, b1) ∧
      b1.count = 2 ∧ b1.cache[1]? = some r ∧ r.position.x = f32.exact (5 + 1 + 8) ∧
      (ex_text_engine.calc_size [65] (ex_typeface 2 16 1 1)).map (fun v => v.x) =
        some (f32.exact 8) := by
  obtain ⟨⟨e1, b1, r, h1, h2, h3, h4, -, h6⟩, h7⟩ :=
    C19_text_calc_size_agree ex_text_engine (ex_typeface 2 16 1 1) (ex_typeface 2 16 1 1)
      ex_text_batch [65] 66 (ex_glyph 66 1 1) ex_pos ex_color rfl (by decide) (by decide)
      rfl (by
        intro d hd hn
        simp only [List.singleton_append, List.mem_cons, List.mem_singleton, List.not_mem_nil,
          or_false] at hd
        rcases hd with h | h
        · exact ⟨ex_glyph 65 1 1, ⟨0, 31⟩, by rw [h]; rfl, rfl⟩
        · exact ⟨ex_glyph 66 1 1, ⟨0, 15⟩, by rw [h]; rfl, rfl⟩) (by decide)
  refine ⟨e1, b1, r, h1, h2, h3, h4, ?_, ?_⟩
  · exact h6 5 rfl (by decide) (by decide) (by decide) (by decide)
  · exact h7 (by
      intro d hd g hg
      simp only [List.mem_singleton] at hd
      subst hd
      simp only [ex_typeface, typeface.query] at hg
      cases hg
      decide) (by decide)

/-! ## C20: the vertical step of a newline -/

theorem recent_advance_newline (tf : typeface) (carry : Int) (cs : List Nat) :
    recent_advance tf carry (10 :: cs) = recent_advance tf carry cs := by
  simp [recent_advance]

theorem recent_advance_glyph (tf : typeface) (carry : Int) (c : Nat) (cs : List Nat) (g : glyph)
    (hc : c ≠ 10) (hq : tf.query c = some g) :
    recent_advance tf carry (c :: cs) = recent_advance tf g.advance_y cs := by
  unfold recent_advance
  have hf : ((c :: cs).filter fun d => decide (d ≠ 10)) = c :: cs.filter fun d => decide (d ≠ 10) := by
    simp [hc]
  rw [hf, List.getLast?_cons]
  cases (cs.filter fun d => decide (d ≠ 10)).getLast? with
  | none => simp [hq]
  | some d => simp

theorem exact_calc_loop_append (tf : typeface) (s1 s2 : List Nat) :
    ∀ st, exact_calc_loop tf (s1 ++ s2) st = (exact_calc_loop tf s1 st).bind (exact_calc_loop tf s2) := by
  induction s1 with
  | nil => intro st; simp [exact_calc_loop]
  | cons c cs ih =>
    intro st
    simp only [List.cons_append, exact_calc_loop]
    cases exact_calc_step tf st c with
    | none => simp
    | some st2 => simpa using ih st2

theorem exact_calc_loop_advance (tf : typeface) (s : List Nat) :
    ∀ st st1 : exact_size_state, exact_calc_loop tf s st = some st1 →
      st1.advance_y = recent_advance tf st.advance_y s ∧ st1.max.y = st.max.y := by
  induction s with
  | nil =>
    intro st st1 h
    simp [exact_calc_loop] at h
    rw [← h]
    simp [recent_advance]
  | cons c cs ih =>
    intro st st1 h
    simp only [exact_calc_loop] at h
    by_cases hc : c = 10
    · subst hc
      simp only [exact_calc_step, if_true, Option.some_bind] at h
      rw [recent_advance_newline]
      have hi := ih _ st1 h
      exact hi
    · simp only [exact_calc_step, hc, if_false] at h
      cases hq : tf.query c with
      | none => simp [hq] at h
      | some g =>
        simp only [hq, Option.some_bind] at h
        rw [recent_advance_glyph tf _ c cs g hc hq]
        obtain ⟨h1, h2⟩ := ih _ st1 h
        refine ⟨h1, ?_⟩
        rw [h2]
        simp only
        split <;> rfl

theorem text_loop_advance (tf : typeface) (color : vec4) (s : List Nat) :
    ∀ st st1 : text_state, text_loop tf color s st = some st1 →
      st1.advance_y = recent_advance tf st.advance_y s := by
  induction s with
  | nil =>
    intro st st1 h
    simp [text_loop] at h
    rw [← h]
    simp [recent_advance]
  | cons c cs ih =>
    intro st st1 h
    simp only [text_loop] at h
    by_cases hc : c = 10
    · subst hc
      simp only [text_step, if_true, Option.some_bind] at h
      rw [recent_advance_newline]
      have hi := ih _ st1 h
      exact hi
    · simp only [text_step, hc, if_false] at h
      cases hq : tf.query c with
      | none => simp [hq] at h
      | some g =>
        simp only [hq] at h
        cases hp : st.b.push g st.pos color with
        | none => simp [hp] at h
        | some b2 =>
          simp only [hp, Option.some_bind] at h
          rw [recent_advance_glyph tf _ c cs g hc hq]
          exact ih _ st1 h

theorem recent_advance_newlines (tf : typeface) (carry : Int) (n : Nat) :
    recent_advance tf carry (List.replicate n 10) = carry := by
  induction n with
  | zero => simp [recent_advance]
  | succ k ih => rw [List.replicate_succ, recent_advance_newline, ih]

theorem recent_advance_concat (tf : typeface) (carry : Int) (s : List Nat) (c : Nat) (g : glyph)
    (hc : c ≠ 10) (hq : tf.query c = some g) :
    recent_advance tf carry (s ++ [c]) = g.advance_y := by
  unfold recent_advance
  have hf : ((s ++ [c]).filter fun d => decide (d ≠ 10)) =
      (s.filter fun d => decide (d ≠ 10)) ++ [c] := by
    simp [hc]
  rw [hf, List.getLast?_concat]
  simp [hq]

theorem calc_loop_append (tf : typeface) (s1 s2 : List Nat) :
    ∀ st, calc_loop tf (s1 ++ s2) st = (calc_loop tf s1 st).bind (calc_loop tf s2) := by
  induction s1 with
  | nil => intro st; simp [calc_loop]
  | cons c cs ih =>
    intro st
    simp only [List.cons_append, calc_loop]
    cases calc_step tf st c with
    | none => simp
    | some st2 => simpa using ih st2

theorem calc_loop_advance (tf : typeface) (s : List Nat) :
    ∀ st st1 : size_state, calc_loop tf s st = some st1 →
      st1.advance_y = recent_advance tf st.advance_y s := by
  induction s with
  | nil =>
    intro st st1 h
    simp [calc_loop] at h
    rw [← h]
    simp [recent_advance]
  | cons c cs ih =>
    intro st st1 h
    simp only [calc_loop] at h
    by_cases hc : c = 10
    · subst hc
      simp only [calc_step, if_true, Option.some_bind] at h
      rw [recent_advance_newline]
      have hi := ih _ st1 h
      exact hi
    · simp only [calc_step, hc, if_false] at h
      cases hq : tf.query c with
      | none => simp [hq] at h
      | some g =>
        simp only [hq, Option.some_bind] at h
        rw [recent_advance_glyph tf _ c cs g hc hq]
        have hi := ih _ st1 h
        exact hi

theorem calc_loop_newlines (tf : typeface) (n : Nat) :
    calc_loop tf (List.replicate n 10)
        { position := ⟨f32.finite 0, f32.finite 0⟩, max := ⟨f32.finite 0, f32.finite 0⟩,
          advance_y := 0 } =
      some { position := ⟨f32.finite 0, f32.finite 0⟩, max := ⟨f32.finite 0, f32.finite 0⟩,
             advance_y := 0 } := by
  induction n with
  | zero => rfl
  | succ k ih =>
    rw [List.replicate_succ]
    simp only [calc_loop, calc_step, if_true, Option.some_bind]
    exact ih

/-- In exact arithmetic, a newline after a string that ends in the glyph `g` adds
`advance_y(g) >> 6` to the height of the specification and keeps its width, when the
advances are non-negative. -/
theorem spec_size_newline (tf : typeface) (s : List Nat) (c : Nat) (g : glyph) (hc : c ≠ 10)
    (hq : tf.query c = some g)
    (hall : ∀ d ∈ s ++ [c], d ≠ 10 →
      ∃ g2, tf.query d = some g2 ∧ 0 ≤ g2.advance_x ∧ 0 ≤ g2.advance_y) :
    spec_width tf (s ++ [c] ++ [10]) = spec_width tf (s ++ [c]) ∧
    spec_height tf (s ++ [c] ++ [10]) =
      spec_height tf (s ++ [c]) + (g.advance_y >>> (6 : Nat)) ∧
    0 ≤ g.advance_y >>> (6 : Nat) := by
  have hall2 : ∀ d ∈ s ++ [c] ++ [10], d ≠ 10 →
      ∃ g2, tf.query d = some g2 ∧ 0 ≤ g2.advance_x ∧ 0 ≤ g2.advance_y := by
    intro d hd hn
    rcases List.mem_append.1 hd with h | h
    · exact hall d h hn
    · simp only [List.mem_singleton] at h
      exact absurd h hn
  obtain ⟨st1, h1, hw1, -, hh1, -, ha1⟩ := exact_calc_loop_spec tf (s ++ [c]) hall
  obtain ⟨st2, h2, hw2, -, hh2, -, -⟩ := exact_calc_loop_spec tf (s ++ [c] ++ [10]) hall2
  obtain ⟨hadv, -⟩ := exact_calc_loop_advance tf (s ++ [c]) _ st1 h1
  rw [recent_advance_concat tf _ s c g hc hq] at hadv
  have hloop2 : exact_calc_loop tf (s ++ [c] ++ [10])
      { position := ⟨0, 0⟩, max := ⟨0, 0⟩, advance_y := 0 } =
      some { st1 with position := ⟨0, st1.position.y + (st1.advance_y >>> (6 : Nat))⟩ } := by
    rw [exact_calc_loop_append, h1]
    rfl
  rw [h2] at hloop2
  simp only [Option.some.injEq] at hloop2
  rw [hloop2] at hw2 hh2
  simp only at hw2 hh2
  rw [← hadv]
  exact ⟨by rw [← hw2, ← hw1], by rw [← hh2, ← hh1], shift_nonneg _ ha1⟩

/-- C20 (counterexample): in `ex_typeface_rising` the glyph `B` has the non-negative
advances `(8, 1)` pixels and the glyph `A` has the vertical advance `-16`; `calc_size` of
`A`, newline, `B` has height `0`, and appending a newline leaves the height at `0` instead
of adding `advance_y(B) >> 6 = 1`. -/
theorem C20_earlier_negative_advance :
    (ex_typeface_rising.query 65).map (fun g => (g.advance_x, g.advance_y)) =
      some (512, -1024) ∧
    (ex_typeface_rising.query 66).map (fun g => (g.advance_x, g.advance_y)) =
      some (512, 64) ∧
    spec_advance_y ex_typeface_rising 66 = 1 ∧
    ex_engine_rising.calc_size [65, 10, 66] ex_typeface_rising =
      some ⟨f32.exact 8, f32.exact 0⟩ ∧
    ex_engine_rising.calc_size ([65, 10, 66] ++ [10]) ex_typeface_rising =
      some ⟨f32.exact 8, f32.exact 0⟩ ∧
    f32.exact 0 ≠ f32.exact (0 + spec_advance_y ex_typeface_rising 66) := by
  refine ⟨by decide, by decide, by decide, by decide, by decide, by decide⟩

/-- C20 (amended): in `calc_size` and in `text` the vertical step of a newline is the
`float` of `advance_y >> 6` of the most recent glyph anywhere earlier in the string (the
starting value, `0` in both functions, when there is none; it is not reset at a line
start).  So `calc_size` of the empty string and of a string of newlines only is `(0, 0)`,
and for a string that ends in a glyph `g`, all of whose glyphs have non-negative advances,
and whose width and height with the added advance are at most `2^24`, appending a newline
adds `advance_y(g) >> 6` to the height and leaves the width as it is. -/
theorem C20_newline_vertical_step (e : text_engine) (tf0 : typeface) (p : typeface × batch)
    (hres : e.resolve tf0 = some p) :
    (∀ (s : List Nat) (st st1 : size_state), calc_loop p.1 s st = some st1 →
      st1.advance_y = recent_advance p.1 st.advance_y s ∧
      calc_loop p.1 (s ++ [10]) st =
        some { st1 with position :=
          ⟨f32.finite 0, f32.add st1.position.y
            (f32.of_int (recent_advance p.1 st.advance_y s >>> (6 : Nat)))⟩ }) ∧
    (∀ (color : vec4) (s : List Nat) (st st1 : text_state),
      text_loop p.1 color s st = some st1 →
      st1.advance_y = recent_advance p.1 st.advance_y s ∧
      text_loop p.1 color (s ++ [10]) st =
        some { st1 with pos :=
          ⟨f32.finite 0, f32.sub st1.pos.y
            (f32.of_int (recent_advance p.1 st.advance_y s >>> (6 : Nat))), st1.pos.z⟩ }) ∧
    (∀ n : Nat, recent_advance p.1 0 (List.replicate n 10) = 0) ∧
    e.calc_size [] tf0 = some ⟨f32.exact 0, f32.exact 0⟩ ∧
    (∀ n : Nat, e.calc_size (List.replicate n 10) tf0 = some ⟨f32.exact 0, f32.exact 0⟩) ∧
    (∀ (s : List Nat) (c : Nat) (g : glyph), c ≠ 10 → p.1.query c = some g →
      (∀ d ∈ s ++ [c], d ≠ 10 →
        ∃ g2, p.1.query d = some g2 ∧ 0 ≤ g2.advance_x ∧ 0 ≤ g2.advance_y) →
      spec_width p.1 (s ++ [c]) ≤ 2 ^ 24 →
      spec_height p.1 (s ++ [c]) + (g.advance_y >>> (6 : Nat)) ≤ 2 ^ 24 →
      e.calc_size (s ++ [c]) tf0 =
        some ⟨f32.exact (spec_width p.1 (s ++ [c])), f32.exact (spec_height p.1 (s ++ [c]))⟩ ∧
      e.calc_size (s ++ [c] ++ [10]) tf0 =
        some ⟨f32.exact (spec_width p.1 (s ++ [c])),
          f32.exact (spec_height p.1 (s ++ [c]) + (g.advance_y >>> (6 : Nat)))⟩) := by
  have hnl : ∀ n : Nat,
      e.calc_size (List.replicate n 10) tf0 = some ⟨f32.exact 0, f32.exact 0⟩ := by
    intro n
    simp only [text_engine.calc_size, hres, calc_size_on, calc_loop_newlines,
      Option.map_some']
    rfl
  refine ⟨?_, ?_, fun n => recent_advance_newlines p.1 0 n, hnl 0, hnl, ?_⟩
  · intro s st st1 h
    have ha := calc_loop_advance p.1 s st st1 h
    refine ⟨ha, ?_⟩
    rw [calc_loop_append, h, ← ha]
    rfl
  · intro color s st st1 h
    have ha := text_loop_advance p.1 color s st st1 h
    refine ⟨ha, ?_⟩
    rw [text_loop_append, h, ← ha]
    rfl
  · intro s c g hc hq hall hw hh
    obtain ⟨k1, k2, k3⟩ := spec_size_newline p.1 s c g hc hq hall
    have hall2 : ∀ d ∈ s ++ [c] ++ [10], d ≠ 10 →
        ∃ g2, p.1.query d = some g2 ∧ 0 ≤ g2.advance_x ∧ 0 ≤ g2.advance_y := by
      intro d hd hn
      rcases List.mem_append.1 hd with h | h
      · exact hall d h hn
      · simp only [List.mem_singleton] at h
        exact absurd h hn
    constructor
    · simp only [text_engine.calc_size, hres]
      exact calc_size_on_exact p.1 (s ++ [c]) hall hw (by omega)
    · simp only [text_engine.calc_size, hres]
      rw [← k1, ← k2]
      exact calc_size_on_exact p.1 (s ++ [c] ++ [10]) hall2 (by rw [k1]; exact hw)
        (by rw [k2]; exact hh)

theorem C20_newline_vertical_step_witness :
    calc_loop (ex_typeface 2 16 1 1) ([65] ++ [10])
        { position := ⟨f32.finite 0, f32.finite 0⟩, max := ⟨f32.finite 0, f32.finite 0⟩,
          advance_y := 0 } =
      some { position := ⟨f32.finite 0, f32.exact 16⟩, max := ⟨f32.exact 8, f32.finite 0⟩,
             advance_y := 1024 } ∧
    (text_loop (ex_typeface 2 16 1 1) ex_color ([65] ++ [10])
        { pos := ex_pos, advance_y := 0, b := ex_text_batch }).map (fun st => st.pos) =
      some ⟨f32.finite 0, f32.exact (7 - 16), f32.exact 0⟩ ∧
    ex_text_engine.calc_size [] (ex_typeface 2 16 1 1) = some ⟨f32.exact 0, f32.exact 0⟩ ∧
    ex_text_engine.calc_size (List.replicate 3 10) (ex_typeface 2 16 1 1) =
      some ⟨f32.exact 0, f32.exact 0⟩ ∧
    ex_text_engine.calc_size ([65, 10] ++ [66]) (ex_typeface 2 16 1 1) =
      some ⟨f32.exact 8, f32.exact 32⟩ ∧
    ex_text_engine.calc_size ([65, 10] ++ [66] ++ [10]) (ex_typeface 2 16 1 1) =
      some ⟨f32.exact 8, f32.exact (32 + 16)⟩ := by
  obtain ⟨h1, h2, -, h4, h5, h6⟩ :=
    C20_newline_vertical_step ex_text_engine (ex_typeface 2 16 1 1)
      (ex_typeface 2 16 1 1, ex_text_batch) rfl
  obtain ⟨-, k1⟩ := h1 [65]
    { position := ⟨f32.finite 0, f32.finite 0⟩, max := ⟨f32.finite 0, f32.finite 0⟩,
      advance_y := 0 }
    { position := ⟨f32.exact 8, f32.finite 0⟩, max := ⟨f32.exact 8, f32.finite 0⟩,
      advance_y := 1024 } (by decide)
  obtain ⟨b1, hb1⟩ : ∃ b1, text_loop (ex_typeface 2 16 1 1) ex_color [65]
      { pos := ex_pos, advance_y := 0, b := ex_text_batch } =
      some { pos := ⟨f32.exact 13, f32.exact 7, f32.exact 0⟩, advance_y := 1024, b := b1 } :=
    ⟨_, rfl⟩
  obtain ⟨-, k2⟩ := h2 ex_color [65] _ _ hb1
  obtain ⟨k3, k4⟩ := h6 [65, 10] 66 (ex_glyph 66 1 1) (by decide) rfl (by
      intro d hd hn
      simp only [List.cons_append, List.nil_append, List.mem_cons, List.mem_singleton,
        List.not_mem_nil, or_false] at hd
      rcases hd with h | h | h
      · exact ⟨ex_glyph 65 1 1, by rw [h]; rfl, by decide, by decide⟩
      · exact absurd h hn
      · exact ⟨ex_glyph 66 1 1, by rw [h]; rfl, by decide, by decide⟩) (by decide) (by decide)
  refine ⟨k1.trans (by decide), ?_, h4, h5 3, k3.trans (by decide), k4.trans (by decide)⟩
  rw [k2]
  rfl

end txt
